import Mathlib

/-!
Verification development for the deductive-system rule translator and the
session-scoped search orchestration layer built around it.

The in-memory rule representation is a tagged term tree (symbols, subscripts,
function application, unary and binary operators), rules are premise lists
with a conclusion, and rule pools are rule lists.  Two textual grammars share
this tree:

* the arrow grammar (client-facing lines such as "a, b -> c"), rendered by
  the tree walker of UnparseVisitor in index.js;
* the stacked grammar (the engine-side serialization: premise lines, a dash
  separator line, then the conclusion, with terms in keyword-bracketed form
  such as "(binary + a b)"), rendered by the tree walker of ParseVisitor in
  index.js.

The two renderers below are transcribed from those visitors.  The two text
readers are modelled from the specification of the grammars, since the
grammar definitions themselves (and the readers generated from them) are not
part of the vendored sources; every claim that leans on the readers records
that.  The session layer (create, delete, add-lines, run-search, snapshot
restore) is transcribed from server.js and its variants, with the external
deduction engine abstracted by its documented contract.
-/

namespace Dsp

/-- Term tree of the rule language: the six variants of the data model, with
grouping parentheses collapsed away at reading time (they carry no
structure). -/
inductive Term where
  | symbol (name : String)
  | subscript (base : Term) (indices : List Term)
  | application (func : Term) (args : List Term)
  | unary (op : String) (operand : Term)
  | binary (op : String) (left : Term) (right : Term)

mutual

/-- Boolean structural equality of terms. -/
def Term.beq : Term → Term → Bool
  | .symbol a, .symbol b => a == b
  | .subscript b1 i1, .subscript b2 i2 => Term.beq b1 b2 && Term.beqList i1 i2
  | .application f1 a1, .application f2 a2 => Term.beq f1 f2 && Term.beqList a1 a2
  | .unary o1 t1, .unary o2 t2 => o1 == o2 && Term.beq t1 t2
  | .binary o1 l1 r1, .binary o2 l2 r2 => o1 == o2 && Term.beq l1 l2 && Term.beq r1 r2
  | _, _ => false

/-- Boolean structural equality of term lists. -/
def Term.beqList : List Term → List Term → Bool
  | [], [] => true
  | t :: ts, u :: us => Term.beq t u && Term.beqList ts us
  | _, _ => false

end

/-- A rule: premise terms followed by one conclusion term.  A rule with no
premises plays the role of a fact. -/
structure Rule where
  premises : List Term
  concl : Term

instance : BEq Term := ⟨Term.beq⟩

/-- Boolean structural equality of rules. -/
def Rule.beq (a b : Rule) : Bool :=
  Term.beqList a.premises b.premises && Term.beq a.concl b.concl

instance : BEq Rule := ⟨Rule.beq⟩

/-- A rule pool is an ordered list of rules, as read from one input text. -/
abbrev Pool := List Rule

/-- Characters allowed in atomic identifiers. -/
def identChar (c : Char) : Bool := c.isAlphanum || c == '_'

/-- Characters allowed in operator tokens (disjoint from identifiers,
brackets, comma, space and newline). -/
def opChar (c : Char) : Bool :=
  c == '!' || c == '#' || c == '$' || c == '%' || c == '&' || c == '*' ||
  c == '+' || c == '-' || c == '.' || c == '/' || c == '<' || c == '=' ||
  c == '>' || c == '?' || c == '@' || c == '^' || c == '|' || c == '~'

/-- A well-formed identifier: nonempty, identifier characters only. -/
def wfName (s : String) : Bool := !s.data.isEmpty && s.data.all identChar

/-- A well-formed operator token: nonempty, operator characters only. -/
def wfOp (s : String) : Bool := !s.data.isEmpty && s.data.all opChar

mutual

/-- Well-formedness of a term: identifiers and operators are lexically legal
and subscripts and applications carry at least one index or argument. -/
def Term.wf : Term → Bool
  | .symbol n => wfName n
  | .subscript b ix => b.wf && !ix.isEmpty && Term.wfList ix
  | .application f as => f.wf && !as.isEmpty && Term.wfList as
  | .unary op t => wfOp op && t.wf
  | .binary op l r => wfOp op && l.wf && r.wf

/-- Well-formedness of every term of a list. -/
def Term.wfList : List Term → Bool
  | [] => true
  | t :: ts => t.wf && Term.wfList ts

end

/-- Well-formedness of a rule. -/
def Rule.wf (r : Rule) : Bool := Term.wfList r.premises && r.concl.wf

/-- Well-formedness of a pool: nonempty, every rule well-formed. -/
def Pool.wf (p : Pool) : Bool := !p.isEmpty && p.all Rule.wf

mutual

/-- Structural size of a term, the measure for the reader lemmas. -/
def Term.size : Term → Nat
  | .symbol _ => 1
  | .subscript b ix => 1 + b.size + Term.sizeList ix
  | .application f as => 1 + f.size + Term.sizeList as
  | .unary _ t => 1 + t.size
  | .binary _ l r => 1 + l.size + r.size

/-- Added sizes of a term list. -/
def Term.sizeList : List Term → Nat
  | [] => 0
  | t :: ts => t.size + Term.sizeList ts

end

/-- Interleave a separator between character chunks. -/
def intercal (sep : List Char) : List (List Char) → List Char
  | [] => []
  | [x] => x
  | x :: xs => x ++ sep ++ intercal sep xs

mutual

/-- Arrow-grammar rendering of a term, transcribed from UnparseVisitor in
index.js: subscripts as base[i, j], applications as f(a, b), unary as
(op t), binary as (l op r). -/
def rendA : Term → List Char
  | .symbol n => n.data
  | .subscript b ix => rendA b ++ '[' :: intercal [',', ' '] (rendAList ix) ++ [']']
  | .application f as => rendA f ++ '(' :: intercal [',', ' '] (rendAList as) ++ [')']
  | .unary op t => '(' :: op.data ++ ' ' :: rendA t ++ [')']
  | .binary op l r => '(' :: rendA l ++ ' ' :: op.data ++ ' ' :: rendA r ++ [')']

/-- Arrow-grammar renderings of a term list. -/
def rendAList : List Term → List (List Char)
  | [] => []
  | t :: ts => rendA t :: rendAList ts

end

mutual

/-- Stacked-grammar rendering of a term, transcribed from ParseVisitor in
index.js: keyword-bracketed forms (subscript b i), (function f a),
(unary op t), (binary op l r). -/
def rendS : Term → List Char
  | .symbol n => n.data
  | .subscript b ix =>
      '(' :: ("subscript ".data) ++ intercal [' '] (rendS b :: rendSList ix) ++ [')']
  | .application f as =>
      '(' :: ("function ".data) ++ intercal [' '] (rendS f :: rendSList as) ++ [')']
  | .unary op t => '(' :: ("unary ".data) ++ op.data ++ ' ' :: rendS t ++ [')']
  | .binary op l r =>
      '(' :: ("binary ".data) ++ op.data ++ ' ' :: rendS l ++ ' ' :: rendS r ++ [')']

/-- Stacked-grammar renderings of a term list. -/
def rendSList : List Term → List (List Char)
  | [] => []
  | t :: ts => rendS t :: rendSList ts

end

/-- Arrow-grammar rendering of a rule, transcribed from
UnparseVisitor.visitRule: premises joined by comma-space, then the arrow
token surrounded by single spaces, then the conclusion.  Note that a rule
with no premises keeps the arrow and its leading space. -/
def rendRuleA (r : Rule) : List Char :=
  intercal [',', ' '] (rendAList r.premises) ++ ' ' :: '-' :: '>' :: ' ' :: rendA r.concl

/-- Largest element of a list of naturals, zero on the empty list (matching
the fold the renderer performs over premise line lengths). -/
def natMax : List Nat → Nat
  | [] => 0
  | n :: ns => Nat.max n (natMax ns)

/-- Stacked-grammar rendering of a rule, transcribed from
ParseVisitor.visitRule: a premise-free rule becomes a four-dash marker line
and the conclusion; otherwise each premise on its own line, a dash line of
length max 4 (longest premise line), then the conclusion line. -/
def rendRuleS (r : Rule) : List Char :=
  match r.premises with
  | [] => '-' :: '-' :: '-' :: '-' :: '\n' :: rendS r.concl
  | ps =>
      intercal ['\n'] (rendSList ps) ++
      '\n' :: List.replicate (Nat.max (natMax ((rendSList ps).map List.length)) 4) '-' ++
      '\n' :: rendS r.concl

/-- Arrow-grammar rendering of a pool: one rule per line (the visitor joins
rules with a single newline). -/
def rendPoolA (p : Pool) : List Char := intercal ['\n'] (p.map rendRuleA)

/-- Stacked-grammar rendering of a pool: rule blocks separated by a blank
line (the visitor joins rules with a double newline). -/
def rendPoolS (p : Pool) : List Char := intercal ['\n', '\n'] (p.map rendRuleS)

/-- Drop leading spaces. -/
def skipSp : List Char → List Char
  | [] => []
  | c :: r => if c = ' ' then skipSp r else c :: r

/-- Longest prefix of characters satisfying a predicate, with the remainder. -/
def munch (p : Char → Bool) : List Char → List Char × List Char
  | [] => ([], [])
  | c :: r =>
      if p c then
        let (a, b) := munch p r
        (c :: a, b)
      else ([], c :: r)

mutual

/-- Modelled from the spec: arrow-grammar term reader (the grammar and its
generated reader are not among the vendored sources).  A term is an atom
(identifier, or a bracketed unary, binary or grouped term) followed by any
number of subscript or application suffixes; spaces between tokens are
skipped. -/
def pTerm : Nat → List Char → Option (Term × List Char)
  | 0, _ => none
  | f + 1, inp =>
      match pAtom f inp with
      | some (a, r) => pLoop f a r
      | none => none

/-- Modelled from the spec: atom of the arrow grammar. -/
def pAtom : Nat → List Char → Option (Term × List Char)
  | 0, _ => none
  | f + 1, inp =>
      match skipSp inp with
      | [] => none
      | c :: r =>
          if c = '(' then pParen f r
          else if identChar c then
            let (nm, rest) := munch identChar (c :: r)
            some (.symbol (String.mk nm), rest)
          else none

/-- Modelled from the spec: bracketed form of the arrow grammar, entered
after an opening parenthesis; grouping parentheses collapse. -/
def pParen : Nat → List Char → Option (Term × List Char)
  | 0, _ => none
  | f + 1, inp =>
      match skipSp inp with
      | [] => none
      | c :: r1 =>
          if opChar c then
            pParenU f (munch opChar (c :: r1)).1 (munch opChar (c :: r1)).2
          else pParenL f (c :: r1)

/-- Modelled from the spec: tail of a bracketed unary term, after its
operator token. -/
def pParenU : Nat → List Char → List Char → Option (Term × List Char)
  | 0, _, _ => none
  | f + 1, op, r2 =>
      match pTerm f r2 with
      | some (t, r3) =>
          match skipSp r3 with
          | c3 :: r4 => if c3 = ')' then some (.unary (String.mk op) t, r4) else none
          | [] => none
      | none => none

/-- Modelled from the spec: rest of a bracketed form after an initial term:
either a closing parenthesis (grouping collapses) or an infix operator and
a right operand. -/
def pParenL : Nat → List Char → Option (Term × List Char)
  | 0, _ => none
  | f + 1, inp =>
      match pTerm f inp with
      | some (l, r2) =>
          match skipSp r2 with
          | [] => none
          | c2 :: r4 =>
              if c2 = ')' then some (l, r4)
              else if opChar c2 then
                pParenB f l (munch opChar (c2 :: r4)).1 (munch opChar (c2 :: r4)).2
              else none
      | none => none

/-- Modelled from the spec: tail of a bracketed binary term, after its
operator token. -/
def pParenB : Nat → Term → List Char → List Char → Option (Term × List Char)
  | 0, _, _, _ => none
  | f + 1, l, op, r5 =>
      match pTerm f r5 with
      | some (rt, r6) =>
          match skipSp r6 with
          | c3 :: r7 => if c3 = ')' then some (.binary (String.mk op) l rt, r7) else none
          | [] => none
      | none => none

/-- Modelled from the spec: suffix loop of the arrow grammar, folding
subscript and application suffixes onto the atom. -/
def pLoop : Nat → Term → List Char → Option (Term × List Char)
  | 0, _, _ => none
  | f + 1, acc, inp =>
      match inp with
      | [] => some (acc, [])
      | c :: r =>
          if c = '[' then
            match pArgs f r with
            | some (ts, r1) =>
                match r1 with
                | c1 :: r2 => if c1 = ']' then pLoop f (.subscript acc ts) r2 else none
                | [] => none
            | none => none
          else if c = '(' then
            match pArgs f r with
            | some (ts, r1) =>
                match r1 with
                | c1 :: r2 => if c1 = ')' then pLoop f (.application acc ts) r2 else none
                | [] => none
            | none => none
          else some (acc, c :: r)

/-- Modelled from the spec: comma-separated term list of the arrow grammar.
Returns the remainder with trailing spaces of the last term skipped. -/
def pArgs : Nat → List Char → Option (List Term × List Char)
  | 0, _ => none
  | f + 1, inp =>
      match pTerm f inp with
      | some (t, r) =>
          match skipSp r with
          | [] => some ([t], [])
          | c :: r1 =>
              if c = ',' then
                match pArgs f r1 with
                | some (ts, r2) => some (t :: ts, r2)
                | none => none
              else some ([t], c :: r1)
      | none => none

end

/-- Modelled from the spec: one rule of the arrow grammar, either a single
term (a premise-free rule) or premises, the arrow token, and the
conclusion, ending at a newline or at the end of input. -/
def pRuleA : Nat → List Char → Option (Rule × List Char)
  | 0, _ => none
  | f + 1, inp =>
      match pArgs f inp with
      | some (ts, r) =>
          match r with
          | [] =>
              match ts with
              | [t] => some (⟨[], t⟩, ([] : List Char))
              | _ => none
          | c :: r' =>
              if c = '\n' then
                match ts with
                | [t] => some (⟨[], t⟩, c :: r')
                | _ => none
              else
                let (op, r1) := munch opChar (c :: r')
                if op = ['-', '>'] then
                  match pTerm f r1 with
                  | some (cl, r2) =>
                      match skipSp r2 with
                      | [] => some (⟨ts, cl⟩, ([] : List Char))
                      | c2 :: r3 =>
                          if c2 = '\n' then some (⟨ts, cl⟩, c2 :: r3) else none
                  | none => none
                else none
      | none => none

/-- Modelled from the spec: a pool of the arrow grammar, one rule per line. -/
def pPoolA : Nat → List Char → Option Pool
  | 0, _ => none
  | f + 1, inp =>
      match pRuleA f inp with
      | some (r, rest) =>
          match rest with
          | [] => some [r]
          | c :: r2 =>
              if c = '\n' then
                match pPoolA f r2 with
                | some rs => some (r :: rs)
                | none => none
              else none
      | none => none

mutual

/-- Modelled from the spec: stacked-grammar term reader.  A term is an
identifier or one of the keyword-bracketed forms subscript, function,
unary, binary. -/
def pTermS : Nat → List Char → Option (Term × List Char)
  | 0, _ => none
  | f + 1, inp =>
      match skipSp inp with
      | [] => none
      | c :: r =>
          if c = '(' then
            pTermKw f (munch identChar (skipSp r)).1 (munch identChar (skipSp r)).2
          else if identChar c then
            let (nm, rest) := munch identChar (c :: r)
            some (.symbol (String.mk nm), rest)
          else none

/-- Modelled from the spec: dispatch over the four keyword-bracketed stacked
forms. -/
def pTermKw : Nat → List Char → List Char → Option (Term × List Char)
  | 0, _, _ => none
  | f + 1, kw, r1 =>
      if kw = "subscript".data then pSubK f r1
      else if kw = "function".data then pFunK f r1
      else if kw = "unary".data then
        pUnK f (munch opChar (skipSp r1)).1 (munch opChar (skipSp r1)).2
      else if kw = "binary".data then
        pBinK f (munch opChar (skipSp r1)).1 (munch opChar (skipSp r1)).2
      else none

/-- Modelled from the spec: body of a bracketed subscript form: base and at
least one index. -/
def pSubK : Nat → List Char → Option (Term × List Char)
  | 0, _ => none
  | f + 1, r1 =>
      match pSeq f r1 with
      | some (b :: ix, c2 :: r2) =>
          if c2 = ')' then
            if ix.isEmpty then none else some (.subscript b ix, r2)
          else none
      | _ => none

/-- Modelled from the spec: body of a bracketed function form: function and
at least one argument. -/
def pFunK : Nat → List Char → Option (Term × List Char)
  | 0, _ => none
  | f + 1, r1 =>
      match pSeq f r1 with
      | some (g :: as, c2 :: r2) =>
          if c2 = ')' then
            if as.isEmpty then none else some (.application g as, r2)
          else none
      | _ => none

/-- Modelled from the spec: tail of a bracketed unary form, after its
operator token. -/
def pUnK : Nat → List Char → List Char → Option (Term × List Char)
  | 0, _, _ => none
  | f + 1, op, r2 =>
      if op.isEmpty then none
      else
        match pTermS f r2 with
        | some (t, r3) =>
            match skipSp r3 with
            | c3 :: r4 => if c3 = ')' then some (.unary (String.mk op) t, r4) else none
            | [] => none
        | none => none

/-- Modelled from the spec: tail of a bracketed binary form, after its
operator token. -/
def pBinK : Nat → List Char → List Char → Option (Term × List Char)
  | 0, _, _ => none
  | f + 1, op, r2 =>
      if op.isEmpty then none
      else
        match pTermS f r2 with
        | some (l, r3) =>
            match pTermS f r3 with
            | some (rt, r4) =>
                match skipSp r4 with
                | c3 :: r5 => if c3 = ')' then some (.binary (String.mk op) l rt, r5) else none
                | [] => none
            | none => none
        | none => none

/-- Modelled from the spec: space-separated term sequence of the stacked
grammar, ending right before a closing parenthesis. -/
def pSeq : Nat → List Char → Option (List Term × List Char)
  | 0, _ => none
  | f + 1, inp =>
      match skipSp inp with
      | [] => none
      | c :: r =>
          if c = ')' then some ([], c :: r)
          else
            match pTermS f (c :: r) with
            | some (t, r1) =>
                match pSeq f r1 with
                | some (ts, r2) => some (t :: ts, r2)
                | none => none
            | none => none

end

/-- Modelled from the spec: one rule block of the stacked grammar: premise
lines, a dash separator line, then the conclusion line. -/
def pRuleS : Nat → List Char → Option (Rule × List Char)
  | 0, _ => none
  | f + 1, inp =>
      match inp with
      | [] => none
      | c :: r =>
          if c = '-' then
            let (_, r1) := munch (fun d => d == '-') (c :: r)
            match r1 with
            | c1 :: r2 =>
                if c1 = '\n' then
                  match pTermS f r2 with
                  | some (cl, r3) =>
                      match r3 with
                      | [] => some (⟨[], cl⟩, ([] : List Char))
                      | c2 :: r4 =>
                          if c2 = '\n' then some (⟨[], cl⟩, c2 :: r4) else none
                  | none => none
                else none
            | [] => none
          else
            match pTermS f (c :: r) with
            | some (t, r1) =>
                match r1 with
                | c1 :: r2 =>
                    if c1 = '\n' then
                      match pRuleS f r2 with
                      | some (ru, r3) => some (⟨t :: ru.premises, ru.concl⟩, r3)
                      | none => none
                    else none
                | [] => none
            | none => none

/-- Modelled from the spec: a pool of the stacked grammar, rule blocks
separated by blank lines. -/
def pPoolS : Nat → List Char → Option Pool
  | 0, _ => none
  | f + 1, inp =>
      match pRuleS f inp with
      | some (r, rest) =>
          match rest with
          | [] => some [r]
          | c :: r2 =>
              if c = '\n' then
                match r2 with
                | c2 :: r3 =>
                    if c2 = '\n' then
                      match pPoolS f r3 with
                      | some rs => some (r :: rs)
                      | none => none
                    else none
                | [] => none
              else none
      | none => none

/-- Fuel handed to the readers: generous in the input length. -/
def fuelFor (s : List Char) : Nat := 4 * s.length + 8

/-- Modelled from the spec: read a whole arrow-grammar text into a pool. -/
def parsePoolA (s : String) : Option Pool := pPoolA (fuelFor s.data) s.data

/-- Modelled from the spec: read a whole stacked-grammar text into a pool. -/
def parsePoolS (s : String) : Option Pool := pPoolS (fuelFor s.data) s.data

/-- Textual translator entry point parse of index.js: arrow-grammar text in,
stacked-grammar text out; a failed read models the reader error path. -/
def parse (s : String) : Option String :=
  (parsePoolA s).map (fun p => String.mk (rendPoolS p))

/-- Textual translator entry point unparse of index.js: stacked-grammar text
in, arrow-grammar text out. -/
def unparse (s : String) : Option String :=
  (parsePoolS s).map (fun p => String.mk (rendPoolA p))

/-- Does a pool contain a premise-free rule? -/
def hasPremFree (p : Pool) : Bool := p.any (fun r => r.premises.isEmpty)

/-- A JavaScript value as returned by the wrapped add: a string, null, or a
boolean (the declared interface promises the last, the code never
produces it). -/
inductive JsVal where
  | str (s : String)
  | nullv
  | boolv (b : Bool)
deriving DecidableEq

/-- State of one engine handle: the two construction bounds, the pools it
already knows structurally, and an abstract size-admission predicate
standing for its work-bound check. -/
structure EngineState where
  sizeLimit : Int
  bufferLimit : Int
  seen : List Pool
  fits : Pool → Bool

/-- A freshly constructed engine handle with the given bounds. -/
def engineInit (sizeLimit bufferLimit : Int) (fits : Pool → Bool) : EngineState :=
  ⟨sizeLimit, bufferLimit, [], fits⟩

/-- Engine add on the rule level, following the engine contract: true exactly
when the pool is structurally new and within the size bound, in which case
it becomes known. -/
def engineAdd (e : EngineState) (p : Pool) : Bool × EngineState :=
  if e.seen.contains p then (false, e)
  else if e.fits p then (true, { e with seen := p :: e.seen })
  else (false, e)

/-- Engine add on serialized input: the engine reads its own canonical
(stacked) text form. -/
def engineAddText (e : EngineState) (t : String) : Bool × EngineState :=
  match parsePoolS t with
  | some p => engineAdd e p
  | none => (false, e)

/-- The wrapped search add of index.js: parse the line, hand the serialized
form to the engine, and return the re-rendered arrow form exactly when the
engine newly accepts; null (here none) otherwise.  Modelled from the spec:
a reader error on the line is swallowed and treated as not accepted. -/
def searchAdd (e : EngineState) (line : String) : Option String × EngineState :=
  match parse line with
  | none => (none, e)
  | some internalText =>
      let (ok, e') := engineAddText e internalText
      if ok then (unparse internalText, e') else (none, e')

/-- The wrapped add as a JavaScript value (claim about the declared
interface). -/
def searchAddJs (e : EngineState) (line : String) : JsVal × EngineState :=
  match searchAdd e line with
  | (some s, e') => (.str s, e')
  | (none, e') => (.nullv, e')

/-- One session of the server: the client limit, the engine handle, and the
known-line set (a JavaScript Set keeps insertion order and ignores
repeated inserts). -/
structure Session where
  limit : Int
  engine : EngineState
  lines : List String

/-- Insertion into the known-line set: append if absent. -/
def insertLine (ls : List String) (s : String) : List String :=
  if ls.contains s then ls else ls ++ [s]

/-- JavaScript truthiness of the wrapped add result: null and the empty
string are falsy. -/
def truthy : Option String → Bool
  | none => false
  | some s => !(s == "")

/-- One line of the add-lines loop of server.js: call the wrapped add, and on
a truthy result insert the freshly recomputed normal form
unparse(parse(line)) into the known-line set. -/
def addLineStep (s : Session) (line : String) : Session :=
  let (v, e') := searchAdd s.engine line
  if truthy v then
    { s with engine := e',
             lines := insertLine s.lines (((parse line).bind unparse).getD "") }
  else { s with engine := e' }

/-- The add-lines loop over a batch. -/
def addLines (s : Session) (batch : List String) : Session :=
  batch.foldl addLineStep s

/-- Transport-layer response shape: ok bodies or an error status with a
message. -/
inductive Resp where
  | ok
  | okId (id : String)
  | okLines (lines : List String)
  | err (status : Nat) (msg : String)
deriving DecidableEq

/-- The add-lines handler on a found session: runs the loop and always
answers ok. -/
def addLinesHandler (s : Session) (batch : List String) : Resp × Session :=
  (Resp.ok, addLines s batch)

/-- The line the wrapped execute hands the server callback for one candidate:
the candidate arrives in the engine's canonical stacked text and is pushed
through unparse. -/
def candLine (c : Pool) : String :=
  (unparse (String.mk (rendPoolS c))).getD ""

/-- One run-search pass of the server handler: every candidate line is pushed
onto the response and inserted into the known lines; the engine keeps the
candidates as known. -/
def runSearch (s : Session) (cands : List Pool) : List String × Session :=
  let out := cands.map candLine
  (out,
   { s with
     engine := { s.engine with seen := cands ++ s.engine.seen },
     lines := out.foldl insertLine s.lines })

/-- The run-search handler on a found session. -/
def searchHandler (s : Session) (cands : List Pool) : Resp × Session :=
  (Resp.okLines (runSearch s cands).1, (runSearch s cands).2)

/-- Engine contract for one exploration pass: the candidates of a pass are
pairwise distinct, well-formed, and previously unseen. -/
def EngineOk (e : EngineState) (cands : List Pool) : Prop :=
  cands.Nodup ∧ ∀ c ∈ cands, c.wf = true ∧ c ∉ e.seen

/-- Sessions reachable from creation by any interleaving of add-lines and
run-search, the engine behaving per its contract. -/
inductive Reach : Session → Prop where
  | created (limit : Int) (fits : Pool → Bool) :
      Reach ⟨limit, engineInit limit limit fits, []⟩
  | added (s : Session) (batch : List String) : Reach s → Reach (addLines s batch)
  | searched (s : Session) (cands : List Pool) : Reach s → EngineOk s.engine cands →
      Reach (runSearch s cands).2

/-- Is a character a hexadecimal digit? -/
def hexDigit (c : Char) : Bool :=
  c.isDigit || ('a' ≤ c && c ≤ 'f') || ('A' ≤ c && c ≤ 'F')

/-- Shape check of a textual UUID, the validation the route parameter goes
through: 8-4-4-4-12 hexadecimal groups. -/
def isUUID (s : String) : Bool :=
  s.data.length == 36 &&
  (List.range 36).all (fun i =>
    let c := s.data.getD i ' '
    if i = 8 || i = 13 || i = 18 || i = 23 then c == '-' else hexDigit c)

/-- The process-wide session table. -/
abbrev Table := List (String × Session)

/-- Table lookup by session id. -/
def Table.find (t : Table) (id : String) : Option Session :=
  List.lookup id t

/-- Table update by session id, JavaScript Map semantics: replace in place or
append. -/
def Table.set : Table → String → Session → Table
  | [], id, s => [(id, s)]
  | (k, v) :: rest, id, s =>
      if k = id then (id, s) :: rest else (k, v) :: Table.set rest id s

/-- Table erase by session id. -/
def Table.erase : Table → String → Table
  | [], _ => []
  | (k, v) :: rest, id => if k = id then rest else (k, v) :: Table.erase rest id

/-- Error response of the route-parameter validation of server.js. -/
def uuidErr : Resp := .err 400 "id must be a valid UUID"

/-- Error response of the missing-session path of server.js. -/
def notFoundErr : Resp := .err 400 "session not found"

/-- The delete-session handler of server.js: the validation chain rejects a
malformed id, a well-formed but unknown id answers the not-found error,
and otherwise the session is removed. -/
def deleteHandler (t : Table) (id : String) : Resp × Table :=
  if !isUUID id then (uuidErr, t)
  else
    match t.find id with
    | none => (notFoundErr, t)
    | some _ => (Resp.ok, t.erase id)

/-- The limit argument of session creation: an integral number, or any other
body value. -/
inductive LimitArg where
  | intVal (n : Int)
  | otherVal
deriving DecidableEq

/-- Error response of the limit validation of server.js. -/
def limitErr : Resp := .err 400 "limit must be a positive integer"

/-- The create-session handler of server.js: the validator admits exactly
positive integers; on success a fresh engine handle is constructed with
both bounds equal to the limit and an empty session is stored under a
fresh id. -/
def createHandler (t : Table) (arg : LimitArg) (freshId : String)
    (fits : Pool → Bool) : Resp × Table :=
  match arg with
  | .intVal n =>
      if 1 ≤ n then
        (Resp.okId freshId, t.set freshId ⟨n, engineInit n n fits, []⟩)
      else (limitErr, t)
  | .otherVal => (limitErr, t)

/-- One snapshot entry of the persistence file. -/
structure SnapEntry where
  id : String
  limit : Int
  lines : List String

/-- Rebuilding one session from a snapshot entry, transcribed from the
startup loop: a fresh engine with both bounds at the stored limit, every
stored line fed to the wrapped add (result dropped), and every stored
line inserted into the known-line set directly, without re-rendering. -/
def restoreEntry (fits : Pool → Bool) (e : SnapEntry) : Session :=
  { limit := e.limit,
    engine := e.lines.foldl (fun en l => (searchAdd en l).2)
                (engineInit e.limit e.limit fits),
    lines := e.lines.foldl insertLine [] }

/-- Startup restore: a missing or undeserializable snapshot (none) yields the
empty table; otherwise every entry is rebuilt under its original id. -/
def restoreTable (fits : Pool → Bool) : Option (List SnapEntry) → Table
  | none => []
  | some es => es.foldl (fun t e => t.set e.id (restoreEntry fits e)) []

/-- Composite of claim C2: parse, unparse, parse again. -/
def reparse (d : String) : Option String :=
  ((parse d).bind unparse).bind parse

/-- One suffix step of the arrow grammar: a subscript index list or an
application argument list. -/
inductive PF where
  | sub (ix : List Term)
  | app (as : List Term)

/-- Attach one suffix to a head term. -/
def applyPF (t : Term) : PF → Term
  | .sub ix => .subscript t ix
  | .app as => .application t as

/-- Well-formedness of one suffix. -/
def PF.wfb : PF → Bool
  | .sub ix => !ix.isEmpty && Term.wfList ix
  | .app as => !as.isEmpty && Term.wfList as

/-- Well-formedness of a suffix list. -/
def psWF (ps : List PF) : Bool := ps.all PF.wfb

/-- Arrow-grammar rendering of one suffix. -/
def rendPF : PF → List Char
  | .sub ix => '[' :: intercal [',', ' '] (rendAList ix) ++ [']']
  | .app as => '(' :: intercal [',', ' '] (rendAList as) ++ [')']

/-- Arrow-grammar rendering of a suffix list. -/
def rendPFs (ps : List PF) : List Char := (ps.map rendPF).flatten

/-- Reader measure of one suffix. -/
def PF.msize : PF → Nat
  | .sub ix => 3 + 4 * Term.sizeList ix
  | .app as => 3 + 4 * Term.sizeList as

/-- Reader measure of a suffix list. -/
def psSize (ps : List PF) : Nat := (ps.map PF.msize).sum

/-- Acceptable continuation after an arrow-grammar term: nothing, or a
character that neither extends an identifier nor opens a suffix. -/
def okA : List Char → Prop
  | [] => True
  | c :: _ => identChar c = false ∧ c ≠ '[' ∧ c ≠ '('

/-- Acceptable continuation after a comma-separated term list: additionally
no comma after space skipping. -/
def okArgs (rest : List Char) : Prop :=
  okA rest ∧ ∀ r', skipSp rest ≠ ',' :: r'

/-- Acceptable continuation after a stacked-grammar term: nothing, or a
character that does not extend an identifier. -/
def okS : List Char → Prop
  | [] => True
  | c :: _ => identChar c = false

/-- Premise lines, a dash line of the given length, then the conclusion: the
general shape of a stacked rule block. -/
def stackBlock : List Term → Nat → Term → List Char
  | [], d, c => List.replicate d '-' ++ '\n' :: rendS c
  | q :: qs, d, c => rendS q ++ '\n' :: stackBlock qs d c

/-- Dash-line length of a stacked rule: max of 4 and the longest premise
line. -/
def dashLen (ps : List Term) : Nat :=
  Nat.max (natMax ((rendSList ps).map List.length)) 4

/-- Reader measure of an arrow-grammar rule. -/
def ruleMA (r : Rule) : Nat := 4 * Term.sizeList r.premises + 4 * r.concl.size + 6

/-- Reader measure of an arrow-grammar pool. -/
def poolMA (p : Pool) : Nat := (p.map (fun r => ruleMA r + 1)).sum + 1

/-- Reader measure of a stacked-grammar rule. -/
def ruleMS (r : Rule) : Nat :=
  4 * Term.sizeList r.premises + 4 * r.concl.size + 2 * r.premises.length + 6

/-- Reader measure of a stacked-grammar pool. -/
def poolMS (p : Pool) : Nat := (p.map (fun r => ruleMS r + 1)).sum + 1

/-- Split a character list at newlines (the last group has no newline after
it; an empty text is one empty line). -/
def splitNl : List Char → List (List Char)
  | [] => [[]]
  | c :: r =>
      if c = '\n' then [] :: splitNl r
      else
        match splitNl r with
        | [] => [[c]]
        | x :: xs => (c :: x) :: xs

/-! Foundational lemmas: structural equality, sizes, character classes,
and the elementary scanners. -/

mutual

theorem Term.beq_iff : ∀ a b : Term, Term.beq a b = true ↔ a = b
  | .symbol _, .symbol _ => by simp [Term.beq]
  | .symbol _, .subscript _ _ => by simp [Term.beq]
  | .symbol _, .application _ _ => by simp [Term.beq]
  | .symbol _, .unary _ _ => by simp [Term.beq]
  | .symbol _, .binary _ _ _ => by simp [Term.beq]
  | .subscript _ _, .symbol _ => by simp [Term.beq]
  | .subscript b1 i1, .subscript b2 i2 => by
      simp [Term.beq, Term.beq_iff b1 b2, Term.beqList_iff i1 i2]
  | .subscript _ _, .application _ _ => by simp [Term.beq]
  | .subscript _ _, .unary _ _ => by simp [Term.beq]
  | .subscript _ _, .binary _ _ _ => by simp [Term.beq]
  | .application _ _, .symbol _ => by simp [Term.beq]
  | .application _ _, .subscript _ _ => by simp [Term.beq]
  | .application f1 a1, .application f2 a2 => by
      simp [Term.beq, Term.beq_iff f1 f2, Term.beqList_iff a1 a2]
  | .application _ _, .unary _ _ => by simp [Term.beq]
  | .application _ _, .binary _ _ _ => by simp [Term.beq]
  | .unary _ _, .symbol _ => by simp [Term.beq]
  | .unary _ _, .subscript _ _ => by simp [Term.beq]
  | .unary _ _, .application _ _ => by simp [Term.beq]
  | .unary o1 t1, .unary o2 t2 => by simp [Term.beq, Term.beq_iff t1 t2]
  | .unary _ _, .binary _ _ _ => by simp [Term.beq]
  | .binary _ _ _, .symbol _ => by simp [Term.beq]
  | .binary _ _ _, .subscript _ _ => by simp [Term.beq]
  | .binary _ _ _, .application _ _ => by simp [Term.beq]
  | .binary _ _ _, .unary _ _ => by simp [Term.beq]
  | .binary o1 l1 r1, .binary o2 l2 r2 => by
      simp [Term.beq, Term.beq_iff l1 l2, Term.beq_iff r1 r2, and_assoc]

theorem Term.beqList_iff : ∀ a b : List Term, Term.beqList a b = true ↔ a = b
  | [], [] => by simp [Term.beqList]
  | [], _ :: _ => by simp [Term.beqList]
  | _ :: _, [] => by simp [Term.beqList]
  | t :: ts, u :: us => by
      simp [Term.beqList, Term.beq_iff t u, Term.beqList_iff ts us]

end

instance : DecidableEq Term := fun a b =>
  decidable_of_iff (Term.beq a b = true) (Term.beq_iff a b)

instance : LawfulBEq Term where
  eq_of_beq h := (Term.beq_iff _ _).1 h
  rfl := (Term.beq_iff _ _).2 rfl

instance : DecidableEq Rule := fun a b =>
  decidable_of_iff (a.premises = b.premises ∧ a.concl = b.concl)
    (by cases a; cases b; simp)

theorem ruleBeq_iff (a b : Rule) : Rule.beq a b = true ↔ a = b := by
  cases a; cases b
  simp [Rule.beq, Term.beqList_iff, Term.beq_iff, Rule.mk.injEq, Bool.and_eq_true]

instance : LawfulBEq Rule where
  eq_of_beq h := (ruleBeq_iff _ _).1 h
  rfl := (ruleBeq_iff _ _).2 rfl

theorem Term.one_le_size : ∀ t : Term, 1 ≤ t.size
  | .symbol _ => le_refl _
  | .subscript _ _ => by simp only [Term.size]; omega
  | .application _ _ => by simp only [Term.size]; omega
  | .unary _ _ => by simp only [Term.size]; omega
  | .binary _ _ _ => by simp only [Term.size]; omega

theorem ne_of_identChar {c d : Char} (h : identChar c = true)
    (hd : identChar d = false) : c ≠ d := by
  intro e; rw [e, hd] at h; cases h

theorem ne_of_opChar {c d : Char} (h : opChar c = true)
    (hd : opChar d = false) : c ≠ d := by
  intro e; rw [e, hd] at h; cases h

theorem opChar_elim {c : Char} (h : opChar c = true) :
    c = '!' ∨ c = '#' ∨ c = '$' ∨ c = '%' ∨ c = '&' ∨ c = '*' ∨ c = '+' ∨
    c = '-' ∨ c = '.' ∨ c = '/' ∨ c = '<' ∨ c = '=' ∨ c = '>' ∨ c = '?' ∨
    c = '@' ∨ c = '^' ∨ c = '|' ∨ c = '~' := by
  have h' := h
  simp only [opChar, Bool.or_eq_true, beq_iff_eq] at h'
  tauto

theorem not_ident_of_op {c : Char} (h : opChar c = true) : identChar c = false := by
  rcases opChar_elim h with
    rfl | rfl | rfl | rfl | rfl | rfl | rfl | rfl | rfl | rfl | rfl | rfl | rfl |
    rfl | rfl | rfl | rfl | rfl <;> decide

theorem not_space_of_op {c : Char} (h : opChar c = true) : c ≠ ' ' :=
  ne_of_opChar h (by decide)

theorem not_space_of_ident {c : Char} (h : identChar c = true) : c ≠ ' ' :=
  ne_of_identChar h (by decide)

@[simp] theorem skipSp_nil : skipSp [] = [] := rfl

@[simp] theorem skipSp_space (l : List Char) : skipSp (' ' :: l) = skipSp l := by
  simp [skipSp]

theorem skipSp_cons {c : Char} (h : c ≠ ' ') (l : List Char) :
    skipSp (c :: l) = c :: l := by simp [skipSp, h]

theorem munch_cons_pos {p : Char → Bool} {c : Char} (h : p c = true) (l : List Char) :
    munch p (c :: l) = (c :: (munch p l).1, (munch p l).2) := by
  simp [munch, h]

theorem munch_cons_neg {p : Char → Bool} {c : Char} (h : p c = false) (l : List Char) :
    munch p (c :: l) = ([], c :: l) := by
  simp [munch, h]

theorem munch_append {p : Char → Bool} {a b : List Char}
    (ha : ∀ c ∈ a, p c = true) (hb : ∀ c r', b = c :: r' → p c = false) :
    munch p (a ++ b) = (a, b) := by
  induction a with
  | nil =>
      cases b with
      | nil => rfl
      | cons c r => simp [munch_cons_neg (hb c r rfl)]
  | cons c a ih =>
      have hc : p c = true := ha c (by simp)
      rw [List.cons_append, munch_cons_pos hc, ih (fun d hd => ha d (by simp [hd]))]

theorem intercal_cons {sep x : List Char} {xs : List (List Char)} (h : xs ≠ []) :
    intercal sep (x :: xs) = x ++ sep ++ intercal sep xs := by
  cases xs with
  | nil => exact absurd rfl h
  | cons y ys => rfl

theorem mem_intercal {sep : List Char} {xs : List (List Char)} {c : Char}
    (h : c ∈ intercal sep xs) : c ∈ sep ∨ ∃ x ∈ xs, c ∈ x := by
  induction xs with
  | nil => cases h
  | cons x xs ih =>
      cases xs with
      | nil => exact Or.inr ⟨x, by simp, h⟩
      | cons y ys =>
          rw [intercal_cons (by simp)] at h
          rcases List.mem_append.1 h with h1 | h2
          · rcases List.mem_append.1 h1 with h3 | h4
            · exact Or.inr ⟨x, by simp, h3⟩
            · exact Or.inl h4
          · rcases ih h2 with h3 | ⟨z, hz, hc⟩
            · exact Or.inl h3
            · exact Or.inr ⟨z, by simp [hz], hc⟩

theorem pAtom_space (f : Nat) (l : List Char) : pAtom f (' ' :: l) = pAtom f l := by
  cases f with
  | zero => rfl
  | succ f => simp only [pAtom, skipSp_space]

theorem pTerm_space (f : Nat) (l : List Char) : pTerm f (' ' :: l) = pTerm f l := by
  cases f with
  | zero => rfl
  | succ f => simp only [pTerm, pAtom_space]

theorem pArgs_space (f : Nat) (l : List Char) : pArgs f (' ' :: l) = pArgs f l := by
  cases f with
  | zero => rfl
  | succ f => simp only [pArgs, pTerm_space]

theorem pTermS_space (f : Nat) (l : List Char) : pTermS f (' ' :: l) = pTermS f l := by
  cases f with
  | zero => rfl
  | succ f => simp only [pTermS, skipSp_space]

theorem pSeq_space (f : Nat) (l : List Char) : pSeq f (' ' :: l) = pSeq f l := by
  cases f with
  | zero => rfl
  | succ f => simp only [pSeq, skipSp_space]

theorem Term.wfList_iff {ts : List Term} :
    Term.wfList ts = true ↔ ∀ t ∈ ts, t.wf = true := by
  induction ts with
  | nil => simp [Term.wfList]
  | cons t ts ih => simp [Term.wfList, Bool.and_eq_true, ih]

theorem mk_data (s : String) : String.mk s.data = s := rfl

theorem wfName_elim {s : String} (h : wfName s = true) :
    ∃ c r, s.data = c :: r ∧ identChar c = true ∧ ∀ d ∈ s.data, identChar d = true := by
  have h' := h
  simp only [wfName, Bool.and_eq_true, List.all_eq_true] at h'
  rcases h' with ⟨hne, hall⟩
  cases hd : s.data with
  | nil => rw [hd] at hne; cases hne
  | cons c r =>
      rw [hd] at hall
      exact ⟨c, r, rfl, hall c (by simp), hall⟩

theorem wfOp_elim {s : String} (h : wfOp s = true) :
    ∃ c r, s.data = c :: r ∧ opChar c = true ∧ ∀ d ∈ s.data, opChar d = true := by
  have h' := h
  simp only [wfOp, Bool.and_eq_true, List.all_eq_true] at h'
  rcases h' with ⟨hne, hall⟩
  cases hd : s.data with
  | nil => rw [hd] at hne; cases hne
  | cons c r =>
      rw [hd] at hall
      exact ⟨c, r, rfl, hall c (by simp), hall⟩

theorem rendA_head : ∀ t : Term, t.wf = true →
    ∃ c r, rendA t = c :: r ∧ (identChar c = true ∨ c = '(')
  | .symbol n, h => by
      obtain ⟨c, r, hd, hc, _⟩ := wfName_elim (by simpa [Term.wf] using h)
      exact ⟨c, r, by simp [rendA, hd], Or.inl hc⟩
  | .subscript b ix, h => by
      have hb : b.wf = true := by
        simp only [Term.wf, Bool.and_eq_true] at h; exact h.1.1
      obtain ⟨c, r, he, hc⟩ := rendA_head b hb
      exact ⟨c, r ++ '[' :: intercal [',', ' '] (rendAList ix) ++ [']'],
        by simp [rendA, he], hc⟩
  | .application g as, h => by
      have hg : g.wf = true := by
        simp only [Term.wf, Bool.and_eq_true] at h; exact h.1.1
      obtain ⟨c, r, he, hc⟩ := rendA_head g hg
      exact ⟨c, r ++ '(' :: intercal [',', ' '] (rendAList as) ++ [')'],
        by simp [rendA, he], hc⟩
  | .unary op t, _ =>
      ⟨'(', op.data ++ ' ' :: rendA t ++ [')'], by simp [rendA], Or.inr rfl⟩
  | .binary op l r, _ =>
      ⟨'(', rendA l ++ ' ' :: op.data ++ ' ' :: rendA r ++ [')'], by simp [rendA],
        Or.inr rfl⟩

theorem rendS_head : ∀ t : Term, t.wf = true →
    ∃ c r, rendS t = c :: r ∧ (identChar c = true ∨ c = '(')
  | .symbol n, h => by
      obtain ⟨c, r, hd, hc, _⟩ := wfName_elim (by simpa [Term.wf] using h)
      exact ⟨c, r, by simp [rendS, hd], Or.inl hc⟩
  | .subscript b ix, _ =>
      ⟨'(', "subscript ".data ++ intercal [' '] (rendS b :: rendSList ix) ++ [')'],
        by simp [rendS], Or.inr rfl⟩
  | .application g as, _ =>
      ⟨'(', "function ".data ++ intercal [' '] (rendS g :: rendSList as) ++ [')'],
        by simp [rendS], Or.inr rfl⟩
  | .unary op t, _ =>
      ⟨'(', "unary ".data ++ op.data ++ ' ' :: rendS t ++ [')'],
        by simp [rendS], Or.inr rfl⟩
  | .binary op l r, _ =>
      ⟨'(', "binary ".data ++ op.data ++ ' ' :: rendS l ++ ' ' :: rendS r ++ [')'],
        by simp [rendS], Or.inr rfl⟩

theorem rendPFs_nil : rendPFs [] = [] := rfl

theorem rendPFs_cons (pf : PF) (ps : List PF) :
    rendPFs (pf :: ps) = rendPF pf ++ rendPFs ps := by simp [rendPFs]

theorem rendPFs_head {ps : List PF} {rest : List Char} (hrest : okA rest) :
    ∀ c0 r', rendPFs ps ++ rest = c0 :: r' → identChar c0 = false := by
  intro c0 r' he
  cases ps with
  | nil =>
      rw [rendPFs_nil, List.nil_append] at he
      rw [he] at hrest
      exact hrest.1
  | cons pf ps =>
      rw [rendPFs_cons] at he
      cases pf with
      | sub ix =>
          simp only [rendPF, List.cons_append] at he
          cases he
          decide
      | app as =>
          simp only [rendPF, List.cons_append] at he
          cases he
          decide


theorem pTerm_eq {f : Nat} {inp r : List Char} {a : Term}
    {out : Option (Term × List Char)}
    (h1 : pAtom f inp = some (a, r)) (h2 : pLoop f a r = out) :
    pTerm (f + 1) inp = out := by
  simp only [pTerm, h1, h2]

theorem pAtom_paren {f : Nat} {inp : List Char} {out : Option (Term × List Char)}
    (h : pParen f inp = out) : pAtom (f + 1) ('(' :: inp) = out := by
  rw [pAtom, skipSp_cons (by decide)]
  simpa using h

theorem pParen_unary {f : Nat} {c : Char} {r1 : List Char}
    (hc : opChar c = true) {out : Option (Term × List Char)}
    (h : pParenU f (munch opChar (c :: r1)).1 (munch opChar (c :: r1)).2 = out) :
    pParen (f + 1) (c :: r1) = out := by
  rw [pParen, skipSp_cons (not_space_of_op hc)]
  dsimp only
  rw [if_pos hc]
  exact h

theorem pParen_left {f : Nat} {c : Char} {r1 : List Char}
    (hc : opChar c = false) (hsp : c ≠ ' ') {out : Option (Term × List Char)}
    (h : pParenL f (c :: r1) = out) :
    pParen (f + 1) (c :: r1) = out := by
  rw [pParen, skipSp_cons hsp]
  dsimp only
  rw [hc]
  simpa using h

theorem pParenU_eq {f : Nat} {op r2 r3 rest : List Char} {t : Term}
    (ht : pTerm f r2 = some (t, r3)) (hs : skipSp r3 = ')' :: rest) :
    pParenU (f + 1) op r2 = some (.unary (String.mk op) t, rest) := by
  rw [pParenU]
  simp only [ht, hs]
  simp

theorem pParenL_binary {f : Nat} {inp r2 : List Char} {l : Term} {c2 : Char}
    {r4 : List Char} (hl : pTerm f inp = some (l, r2))
    (hs : skipSp r2 = c2 :: r4) (hc2 : opChar c2 = true)
    {out : Option (Term × List Char)}
    (h : pParenB f l (munch opChar (c2 :: r4)).1 (munch opChar (c2 :: r4)).2 = out) :
    pParenL (f + 1) inp = out := by
  rw [pParenL]
  simp only [hl, hs]
  rw [if_neg (ne_of_opChar hc2 (by decide)), if_pos hc2]
  exact h

theorem pParenB_eq {f : Nat} {l rt : Term} {op r5 r6 rest : List Char}
    (hr : pTerm f r5 = some (rt, r6)) (hs : skipSp r6 = ')' :: rest) :
    pParenB (f + 1) l op r5 = some (.binary (String.mk op) l rt, rest) := by
  rw [pParenB]
  simp only [hr, hs]
  simp

theorem pLoop_stop {f : Nat} {acc : Term} {inp : List Char} (h : okA inp) :
    pLoop (f + 1) acc inp = some (acc, inp) := by
  cases inp with
  | nil => rfl
  | cons c l =>
      rcases h with ⟨h1, h2, h3⟩
      rw [pLoop, if_neg h2, if_neg h3]

theorem pLoop_sub {f : Nat} {acc : Term} {ts : List Term} {inp r2 : List Char}
    {out : Option (Term × List Char)}
    (h : pArgs f inp = some (ts, ']' :: r2)) (h2 : pLoop f (.subscript acc ts) r2 = out) :
    pLoop (f + 1) acc ('[' :: inp) = out := by
  rw [pLoop, if_pos rfl, h]
  simpa using h2

theorem pLoop_app {f : Nat} {acc : Term} {ts : List Term} {inp r2 : List Char}
    {out : Option (Term × List Char)}
    (h : pArgs f inp = some (ts, ')' :: r2)) (h2 : pLoop f (.application acc ts) r2 = out) :
    pLoop (f + 1) acc ('(' :: inp) = out := by
  rw [pLoop, if_neg (by decide), if_pos rfl, h]
  simpa using h2

theorem pArgs_last {f : Nat} {inp r : List Char} {t : Term}
    (h : pTerm f inp = some (t, r)) (hr : ∀ r', skipSp r ≠ ',' :: r') :
    pArgs (f + 1) inp = some ([t], skipSp r) := by
  simp only [pArgs, h]
  cases hs : skipSp r with
  | nil => rfl
  | cons c l =>
      have hne : ¬ (c = ',') := by
        intro e; exact hr l (by rw [hs, e])
      simp [hne]

theorem pArgs_cons {f : Nat} {inp r r1 : List Char} {t : Term} {ts : List Term}
    {r2 : List Char}
    (h : pTerm f inp = some (t, r)) (hs : skipSp r = ',' :: r1)
    (h2 : pArgs f r1 = some (ts, r2)) :
    pArgs (f + 1) inp = some (t :: ts, r2) := by
  simp only [pArgs, h, hs]
  simp [h2]


theorem okA_iff {c : Char} {l : List Char} :
    okA (c :: l) ↔ (identChar c = false ∧ c ≠ '[' ∧ c ≠ '(') := Iff.rfl

theorem psWF_cons {pf : PF} {ps : List PF} :
    psWF (pf :: ps) = (PF.wfb pf && psWF ps) := by simp [psWF]

theorem psSize_cons {pf : PF} {ps : List PF} :
    psSize (pf :: ps) = PF.msize pf + psSize ps := by simp [psSize]


theorem not_op_of_ident {c : Char} (h : identChar c = true) : opChar c = false := by
  cases hc : opChar c
  · rfl
  · rw [not_ident_of_op hc] at h; cases h

theorem arrowMain : ∀ n : Nat,
    (∀ t ps rest f, Term.wf t = true → psWF ps = true → okA rest →
      4 * t.size + psSize ps ≤ n → 4 * t.size + psSize ps < f →
      pTerm f (rendA t ++ (rendPFs ps ++ rest)) = some (ps.foldl applyPF t, rest)) ∧
    (∀ ps (acc : Term) rest f, psWF ps = true → okA rest →
      psSize ps ≤ n → psSize ps < f →
      pLoop f acc (rendPFs ps ++ rest) = some (ps.foldl applyPF acc, rest)) ∧
    (∀ ts rest f, ts ≠ [] → Term.wfList ts = true → okArgs rest →
      1 + 4 * Term.sizeList ts ≤ n → 1 + 4 * Term.sizeList ts < f →
      pArgs f (intercal [',', ' '] (rendAList ts) ++ rest) = some (ts, skipSp rest)) := by
  intro n
  induction n using Nat.strong_induction_on with
  | _ n ih =>
    refine ⟨?_, ?_, ?_⟩
    · intro t ps rest f hwf hps hrest hn hf
      cases t with
      | symbol nm =>
          have hnm : wfName nm = true := by simpa [Term.wf] using hwf
          obtain ⟨c, rr, hd, hc, hall⟩ := wfName_elim hnm
          have hsz : Term.size (.symbol nm) = 1 := by simp [Term.size]
          rw [hsz] at hn hf
          obtain ⟨f1, rfl⟩ : ∃ f1, f = f1 + 1 := ⟨f - 1, by omega⟩
          have hatom : pAtom f1 (rendA (.symbol nm) ++ (rendPFs ps ++ rest)) =
              some (.symbol nm, rendPFs ps ++ rest) := by
            obtain ⟨f2, rfl⟩ : ∃ f2, f1 = f2 + 1 := ⟨f1 - 1, by omega⟩
            have hinp : rendA (.symbol nm) ++ (rendPFs ps ++ rest) =
                c :: (rr ++ (rendPFs ps ++ rest)) := by simp [rendA, hd]
            rw [hinp, pAtom, skipSp_cons (not_space_of_ident hc)]
            dsimp only
            rw [if_neg (show ¬ (c = '(') from ne_of_identChar hc (by decide)), if_pos hc]
            have hlist : c :: (rr ++ (rendPFs ps ++ rest)) =
                nm.data ++ (rendPFs ps ++ rest) := by rw [hd]; simp
            rw [hlist, munch_append hall (rendPFs_head hrest), mk_data]
          refine pTerm_eq hatom ?_
          exact (ih (psSize ps) (by omega)).2.1 ps (.symbol nm) rest f1 hps hrest
            (le_refl _) (by omega)
      | subscript b ix =>
          have h3 : (b.wf = true ∧ ¬ ix = []) ∧ Term.wfList ix = true := by
            simpa [Term.wf, Bool.and_eq_true] using hwf
          have hre : rendA (.subscript b ix) ++ (rendPFs ps ++ rest) =
              rendA b ++ (rendPFs (.sub ix :: ps) ++ rest) := by
            simp [rendA, rendPFs_cons, rendPF]
          rw [hre]
          have hsz : Term.size (.subscript b ix) = 1 + b.size + Term.sizeList ix := by
            simp [Term.size]
          have hms : PF.msize (.sub ix) = 3 + 4 * Term.sizeList ix := by simp [PF.msize]
          have hlt : 4 * Term.size b + psSize (PF.sub ix :: ps) <
              4 * Term.size (.subscript b ix) + psSize ps := by
            rw [hsz, psSize_cons, hms]; omega
          have hwn : psWF (PF.sub ix :: ps) = true := by
            rw [psWF_cons]
            simp [PF.wfb, h3.1.2, h3.2, hps]
          have := (ih (4 * Term.size b + psSize (PF.sub ix :: ps)) (by omega)).1
            b (.sub ix :: ps) rest f h3.1.1 hwn hrest (le_refl _) (by omega)
          rw [this]
          simp [applyPF]
      | application g as =>
          have h3 : (g.wf = true ∧ ¬ as = []) ∧ Term.wfList as = true := by
            simpa [Term.wf, Bool.and_eq_true] using hwf
          have hre : rendA (.application g as) ++ (rendPFs ps ++ rest) =
              rendA g ++ (rendPFs (.app as :: ps) ++ rest) := by
            simp [rendA, rendPFs_cons, rendPF]
          rw [hre]
          have hsz : Term.size (.application g as) = 1 + g.size + Term.sizeList as := by
            simp [Term.size]
          have hms : PF.msize (.app as) = 3 + 4 * Term.sizeList as := by simp [PF.msize]
          have hlt : 4 * Term.size g + psSize (PF.app as :: ps) <
              4 * Term.size (.application g as) + psSize ps := by
            rw [hsz, psSize_cons, hms]; omega
          have hwn : psWF (PF.app as :: ps) = true := by
            rw [psWF_cons]
            simp [PF.wfb, h3.1.2, h3.2, hps]
          have := (ih (4 * Term.size g + psSize (PF.app as :: ps)) (by omega)).1
            g (.app as :: ps) rest f h3.1.1 hwn hrest (le_refl _) (by omega)
          rw [this]
          simp [applyPF]
      | unary op u =>
          have h2 : wfOp op = true ∧ u.wf = true := by
            simpa [Term.wf, Bool.and_eq_true] using hwf
          obtain ⟨oc, orr, hod, hoc, hoall⟩ := wfOp_elim h2.1
          have hsz : Term.size (.unary op u) = 1 + u.size := by simp [Term.size]
          have hu1 : 1 ≤ u.size := Term.one_le_size u
          rw [hsz] at hn hf
          obtain ⟨f4, rfl⟩ : ∃ f4, f = f4 + 4 := ⟨f - 4, by omega⟩
          have hre : rendA (.unary op u) ++ (rendPFs ps ++ rest) =
              '(' :: (op.data ++ (' ' :: (rendA u ++ (')' :: (rendPFs ps ++ rest))))) := by
            simp [rendA]
          have hX : op.data ++ (' ' :: (rendA u ++ (')' :: (rendPFs ps ++ rest)))) =
              oc :: (orr ++ (' ' :: (rendA u ++ (')' :: (rendPFs ps ++ rest))))) := by
            rw [hod]; simp
          have hmu : munch opChar
              (oc :: (orr ++ (' ' :: (rendA u ++ (')' :: (rendPFs ps ++ rest)))))) =
              (op.data, ' ' :: (rendA u ++ (')' :: (rendPFs ps ++ rest)))) := by
            rw [← hX]
            refine munch_append hoall ?_
            intro c r' he
            injection he with h1 _
            rw [← h1]
            decide
          have hu : pTerm f4 (' ' :: (rendA u ++ (')' :: (rendPFs ps ++ rest)))) =
              some (u, ')' :: (rendPFs ps ++ rest)) := by
            rw [pTerm_space]
            have := (ih (4 * u.size) (by omega)).1 u [] (')' :: (rendPFs ps ++ rest)) f4
              h2.2 (by simp [psWF]) ⟨by decide, by decide, by decide⟩
              (by simp [psSize]) (by simp [psSize]; omega)
            simpa [rendPFs] using this
          refine pTerm_eq (f := f4 + 3) (a := .unary op u)
            (r := rendPFs ps ++ rest) ?_ ?_
          · rw [hre]
            refine pAtom_paren (f := f4 + 2) ?_
            rw [hX]
            refine pParen_unary (f := f4 + 1) hoc ?_
            rw [hmu]
            dsimp only
            have h5 := @pParenU_eq f4 (op.data) _ _ _ _ hu (skipSp_cons (by decide) _)
            rw [mk_data] at h5
            exact h5
          · exact (ih (psSize ps) (by omega)).2.1 ps _ rest (f4 + 3) hps hrest
              (le_refl _) (by omega)
      | binary op l r =>
          have h2 : wfOp op = true ∧ l.wf = true ∧ r.wf = true := by
            simpa [Term.wf, Bool.and_eq_true, and_assoc] using hwf
          obtain ⟨oc, orr, hod, hoc, hoall⟩ := wfOp_elim h2.1
          obtain ⟨lc, lrr, hld, hlc⟩ := rendA_head l h2.2.1
          have hsz : Term.size (.binary op l r) = 1 + l.size + r.size := by
            simp [Term.size]
          have hl1 : 1 ≤ l.size := Term.one_le_size l
          have hr1 : 1 ≤ r.size := Term.one_le_size r
          rw [hsz] at hn hf
          obtain ⟨f5, rfl⟩ : ∃ f5, f = f5 + 5 := ⟨f - 5, by omega⟩
          have hlcop : opChar lc = false := by
            rcases hlc with h | h
            · exact not_op_of_ident h
            · rw [h]; decide
          have hlcsp : lc ≠ ' ' := by
            rcases hlc with h | h
            · exact not_space_of_ident h
            · rw [h]; decide
          have hre : rendA (.binary op l r) ++ (rendPFs ps ++ rest) =
              '(' :: (rendA l ++
                (' ' :: (op.data ++ (' ' :: (rendA r ++
                  (')' :: (rendPFs ps ++ rest))))))) := by
            simp [rendA]
          have hXl : rendA l ++
              (' ' :: (op.data ++ (' ' :: (rendA r ++ (')' :: (rendPFs ps ++ rest)))))) =
              lc :: (lrr ++
                (' ' :: (op.data ++ (' ' :: (rendA r ++
                  (')' :: (rendPFs ps ++ rest))))))) := by
            rw [hld]; simp
          have hmu : munch opChar
              (oc :: (orr ++ (' ' :: (rendA r ++ (')' :: (rendPFs ps ++ rest)))))) =
              (op.data, ' ' :: (rendA r ++ (')' :: (rendPFs ps ++ rest)))) := by
            rw [show oc :: (orr ++ (' ' :: (rendA r ++ (')' :: (rendPFs ps ++ rest))))) =
                op.data ++ (' ' :: (rendA r ++ (')' :: (rendPFs ps ++ rest)))) from by
              rw [hod]; simp]
            refine munch_append hoall ?_
            intro c r' he
            injection he with h1 _
            rw [← h1]
            decide
          have hlterm : pTerm (f5 + 1)
              (lc :: (lrr ++ (' ' :: (op.data ++ (' ' :: (rendA r ++
                (')' :: (rendPFs ps ++ rest)))))))) =
              some (l, ' ' :: (op.data ++ (' ' :: (rendA r ++
                (')' :: (rendPFs ps ++ rest)))))) := by
            rw [← hXl]
            have := (ih (4 * l.size) (by omega)).1 l []
              (' ' :: (op.data ++ (' ' :: (rendA r ++ (')' :: (rendPFs ps ++ rest))))))
              (f5 + 1) h2.2.1 (by simp [psWF]) ⟨by decide, by decide, by decide⟩
              (by simp [psSize]) (by simp [psSize]; omega)
            simpa [rendPFs] using this
          have hrterm : pTerm f5 (' ' :: (rendA r ++ (')' :: (rendPFs ps ++ rest)))) =
              some (r, ')' :: (rendPFs ps ++ rest)) := by
            rw [pTerm_space]
            have := (ih (4 * r.size) (by omega)).1 r [] (')' :: (rendPFs ps ++ rest)) f5
              h2.2.2 (by simp [psWF]) ⟨by decide, by decide, by decide⟩
              (by simp [psSize]) (by simp [psSize]; omega)
            simpa [rendPFs] using this
          have hskip : skipSp (' ' :: (op.data ++ (' ' :: (rendA r ++
              (')' :: (rendPFs ps ++ rest)))))) =
              oc :: (orr ++ (' ' :: (rendA r ++ (')' :: (rendPFs ps ++ rest))))) := by
            rw [skipSp_space, hod]
            simp only [List.cons_append]
            exact skipSp_cons (not_space_of_op hoc) _
          refine pTerm_eq (f := f5 + 4) (a := .binary op l r)
            (r := rendPFs ps ++ rest) ?_ ?_
          · rw [hre]
            refine pAtom_paren (f := f5 + 3) ?_
            rw [hXl]
            refine pParen_left (f := f5 + 2) hlcop hlcsp ?_
            refine pParenL_binary (f := f5 + 1) hlterm hskip hoc ?_
            rw [hmu]
            dsimp only
            have h5 := @pParenB_eq f5 l _ (op.data) _ _ _ hrterm
              (skipSp_cons (by decide) _)
            rw [mk_data] at h5
            exact h5
          · exact (ih (psSize ps) (by omega)).2.1 ps _ rest (f5 + 4) hps hrest
              (le_refl _) (by omega)
    · intro ps acc rest f hps hrest hn hf
      cases ps with
      | nil =>
          obtain ⟨f1, rfl⟩ : ∃ f1, f = f1 + 1 := ⟨f - 1, by omega⟩
          rw [show rendPFs [] ++ rest = rest from by simp [rendPFs]]
          rw [pLoop_stop hrest]
          simp
      | cons pf ps' =>
          have hw2 : PF.wfb pf = true ∧ psWF ps' = true := by
            simpa [psWF_cons, Bool.and_eq_true] using hps
          cases pf with
          | sub ix =>
              have h3 : ¬ ix = [] ∧ Term.wfList ix = true := by
                simpa [PF.wfb, Bool.and_eq_true] using hw2.1
              have hmsz : psSize (PF.sub ix :: ps') =
                  3 + 4 * Term.sizeList ix + psSize ps' := by
                rw [psSize_cons]
                simp [PF.msize]
              rw [hmsz] at hn hf
              obtain ⟨f1, rfl⟩ : ∃ f1, f = f1 + 1 := ⟨f - 1, by omega⟩
              have hre : rendPFs (PF.sub ix :: ps') ++ rest =
                  '[' :: (intercal [',', ' '] (rendAList ix) ++
                    (']' :: (rendPFs ps' ++ rest))) := by
                simp [rendPFs_cons, rendPF]
              rw [hre]
              have hargs : pArgs f1 (intercal [',', ' '] (rendAList ix) ++
                  (']' :: (rendPFs ps' ++ rest))) =
                  some (ix, ']' :: (rendPFs ps' ++ rest)) := by
                have := (ih (1 + 4 * Term.sizeList ix) (by omega)).2.2 ix
                  (']' :: (rendPFs ps' ++ rest)) f1 h3.1 h3.2
                  ⟨⟨by decide, by decide, by decide⟩, by
                    intro r' hcon
                    rw [skipSp_cons (by decide)] at hcon
                    cases hcon⟩ (le_refl _) (by omega)
                rw [skipSp_cons (by decide)] at this
                exact this
              refine pLoop_sub hargs ?_
              have := (ih (psSize ps') (by omega)).2.1 ps' (.subscript acc ix) rest f1
                hw2.2 hrest (le_refl _) (by omega)
              simpa [applyPF] using this
          | app as =>
              have h3 : ¬ as = [] ∧ Term.wfList as = true := by
                simpa [PF.wfb, Bool.and_eq_true] using hw2.1
              have hmsz : psSize (PF.app as :: ps') =
                  3 + 4 * Term.sizeList as + psSize ps' := by
                rw [psSize_cons]
                simp [PF.msize]
              rw [hmsz] at hn hf
              obtain ⟨f1, rfl⟩ : ∃ f1, f = f1 + 1 := ⟨f - 1, by omega⟩
              have hre : rendPFs (PF.app as :: ps') ++ rest =
                  '(' :: (intercal [',', ' '] (rendAList as) ++
                    (')' :: (rendPFs ps' ++ rest))) := by
                simp [rendPFs_cons, rendPF]
              rw [hre]
              have hargs : pArgs f1 (intercal [',', ' '] (rendAList as) ++
                  (')' :: (rendPFs ps' ++ rest))) =
                  some (as, ')' :: (rendPFs ps' ++ rest)) := by
                have := (ih (1 + 4 * Term.sizeList as) (by omega)).2.2 as
                  (')' :: (rendPFs ps' ++ rest)) f1 h3.1 h3.2
                  ⟨⟨by decide, by decide, by decide⟩, by
                    intro r' hcon
                    rw [skipSp_cons (by decide)] at hcon
                    cases hcon⟩ (le_refl _) (by omega)
                rw [skipSp_cons (by decide)] at this
                exact this
              refine pLoop_app hargs ?_
              have := (ih (psSize ps') (by omega)).2.1 ps' (.application acc as) rest f1
                hw2.2 hrest (le_refl _) (by omega)
              simpa [applyPF] using this
    · intro ts rest f hne hwl hok hn hf
      cases ts with
      | nil => exact absurd rfl hne
      | cons t ts' =>
          have hw2 : t.wf = true ∧ Term.wfList ts' = true := by
            simpa [Term.wfList, Bool.and_eq_true] using hwl
          cases ts' with
          | nil =>
              have hsz : Term.sizeList [t] = t.size := by simp [Term.sizeList]
              rw [hsz] at hn hf
              rw [show intercal [',', ' '] (rendAList [t]) ++ rest = rendA t ++ rest
                from by simp [rendAList, intercal]]
              obtain ⟨f1, rfl⟩ : ∃ f1, f = f1 + 1 := ⟨f - 1, by omega⟩
              refine pArgs_last ?_ hok.2
              have := (ih (4 * t.size) (by omega)).1 t [] rest f1 hw2.1
                (by simp [psWF]) hok.1 (by simp [psSize]) (by simp [psSize]; omega)
              simpa [rendPFs] using this
          | cons t2 ts2 =>
              have hsz : Term.sizeList (t :: t2 :: ts2) =
                  t.size + Term.sizeList (t2 :: ts2) := by
                rw [Term.sizeList]
              rw [hsz] at hn hf
              have ht1 : 1 ≤ t.size := Term.one_le_size t
              have hre : intercal [',', ' '] (rendAList (t :: t2 :: ts2)) ++ rest =
                  rendA t ++ (',' :: (' ' :: (intercal [',', ' ']
                    (rendAList (t2 :: ts2)) ++ rest))) := by
                rw [show rendAList (t :: t2 :: ts2) = rendA t :: rendAList (t2 :: ts2)
                  from by rw [rendAList]]
                rw [intercal_cons (by rw [rendAList]; simp)]
                simp
              rw [hre]
              obtain ⟨f1, rfl⟩ : ∃ f1, f = f1 + 1 := ⟨f - 1, by omega⟩
              have htl : pTerm f1 (rendA t ++ (',' :: (' ' :: (intercal [',', ' ']
                  (rendAList (t2 :: ts2)) ++ rest)))) =
                  some (t, ',' :: (' ' :: (intercal [',', ' ']
                    (rendAList (t2 :: ts2)) ++ rest))) := by
                have := (ih (4 * t.size) (by omega)).1 t []
                  (',' :: (' ' :: (intercal [',', ' '] (rendAList (t2 :: ts2)) ++ rest)))
                  f1 hw2.1 (by simp [psWF]) ⟨by decide, by decide, by decide⟩
                  (by simp [psSize]) (by simp [psSize]; omega)
                simpa [rendPFs] using this
              refine pArgs_cons htl (skipSp_cons (by decide) _) ?_
              rw [pArgs_space]
              exact (ih (1 + 4 * Term.sizeList (t2 :: ts2)) (by omega)).2.2 (t2 :: ts2)
                rest f1 (by simp) hw2.2 hok (le_refl _) (by omega)



theorem termRT_A {t : Term} {rest : List Char} {f : Nat} (hwf : t.wf = true)
    (hrest : okA rest) (hf : 4 * t.size < f) :
    pTerm f (rendA t ++ rest) = some (t, rest) := by
  have := (arrowMain (4 * t.size)).1 t [] rest f hwf (by simp [psWF]) hrest
    (by simp [psSize]) (by simp [psSize]; omega)
  simpa [rendPFs] using this

theorem pAtom_bad {f : Nat} {c : Char} {rest : List Char}
    (h1 : identChar c = false) (h2 : c ≠ '(') (h3 : c ≠ ' ') :
    pAtom f (c :: rest) = none := by
  cases f with
  | zero => rfl
  | succ f =>
      rw [pAtom, skipSp_cons h3]
      dsimp only
      rw [if_neg h2]
      simp [h1]

theorem pTerm_bad {f : Nat} {c : Char} {rest : List Char}
    (h1 : identChar c = false) (h2 : c ≠ '(') (h3 : c ≠ ' ') :
    pTerm f (c :: rest) = none := by
  cases f with
  | zero => rfl
  | succ f => simp [pTerm, pAtom_bad h1 h2 h3]

theorem pArgs_bad {f : Nat} {c : Char} {rest : List Char}
    (h1 : identChar c = false) (h2 : c ≠ '(') (h3 : c ≠ ' ') :
    pArgs f (c :: rest) = none := by
  cases f with
  | zero => rfl
  | succ f => simp [pArgs, pTerm_bad h1 h2 h3]

theorem ruleFail_A (f : Nat) (c : Term) (rest : List Char) :
    pRuleA f (rendRuleA ⟨[], c⟩ ++ rest) = none := by
  have hsh : rendRuleA ⟨[], c⟩ ++ rest =
      ' ' :: ('-' :: ('>' :: (' ' :: (rendA c ++ rest)))) := by
    simp [rendRuleA, rendAList, intercal]
  rw [hsh]
  cases f with
  | zero => rfl
  | succ f =>
      rw [pRuleA]
      rw [show pArgs f (' ' :: ('-' :: ('>' :: (' ' :: (rendA c ++ rest))))) = none from by
        rw [pArgs_space]; exact pArgs_bad (by decide) (by decide) (by decide)]

theorem ruleRT_A {ps : List Term} {c : Term} {rest : List Char} {f : Nat}
    (hwf : Rule.wf ⟨ps, c⟩ = true) (hne : ps ≠ [])
    (hrest : rest = [] ∨ ∃ r', rest = '\n' :: r')
    (hf : ruleMA ⟨ps, c⟩ < f) :
    pRuleA f (rendRuleA ⟨ps, c⟩ ++ rest) = some (⟨ps, c⟩, rest) := by
  have hw2 : Term.wfList ps = true ∧ c.wf = true := by
    simpa [Rule.wf, Bool.and_eq_true] using hwf
  have hokrest : okA rest := by
    rcases hrest with rfl | ⟨r', rfl⟩
    · trivial
    · exact ⟨by decide, by decide, by decide⟩
  have hm : ruleMA ⟨ps, c⟩ = 4 * Term.sizeList ps + 4 * c.size + 6 := by
    simp [ruleMA]
  rw [hm] at hf
  obtain ⟨f1, rfl⟩ : ∃ f1, f = f1 + 1 := ⟨f - 1, by omega⟩
  have hsh : rendRuleA ⟨ps, c⟩ ++ rest =
      intercal [',', ' '] (rendAList ps) ++
        (' ' :: ('-' :: ('>' :: (' ' :: (rendA c ++ rest))))) := by
    simp [rendRuleA]
  rw [hsh]
  have hargs : pArgs f1 (intercal [',', ' '] (rendAList ps) ++
      (' ' :: ('-' :: ('>' :: (' ' :: (rendA c ++ rest)))))) =
      some (ps, '-' :: ('>' :: (' ' :: (rendA c ++ rest)))) := by
    have := (arrowMain (1 + 4 * Term.sizeList ps)).2.2 ps
      (' ' :: ('-' :: ('>' :: (' ' :: (rendA c ++ rest))))) f1 hne hw2.1
      ⟨⟨by decide, by decide, by decide⟩, by
        intro r' hcon
        rw [skipSp_space, skipSp_cons (by decide)] at hcon
        cases hcon⟩ (le_refl _) (by omega)
    rw [skipSp_space, skipSp_cons (by decide)] at this
    exact this
  rw [pRuleA, hargs]
  dsimp only
  rw [if_neg (by decide : ¬ ('-' = '\n'))]
  have hmun : munch opChar ('-' :: ('>' :: (' ' :: (rendA c ++ rest)))) =
      (['-', '>'], ' ' :: (rendA c ++ rest)) := by
    rw [munch_cons_pos (by decide), munch_cons_pos (by decide),
      munch_cons_neg (by decide)]
  rw [hmun]
  dsimp only
  rw [if_pos rfl]
  rw [show pTerm f1 (' ' :: (rendA c ++ rest)) = some (c, rest) from by
    rw [pTerm_space]; exact termRT_A hw2.2 hokrest (by omega)]
  rcases hrest with rfl | ⟨r', rfl⟩
  · rfl
  · dsimp only
    rw [skipSp_cons (by decide)]
    dsimp only
    rw [if_pos rfl]



theorem poolMA_cons {ru : Rule} {p : Pool} :
    poolMA (ru :: p) = ruleMA ru + 1 + poolMA p := by
  simp [poolMA]
  omega

theorem rendPoolA_cons {ru : Rule} {p : Pool} (h : p ≠ []) :
    rendPoolA (ru :: p) = rendRuleA ru ++ ('\n' :: rendPoolA p) := by
  rw [rendPoolA, List.map_cons, intercal_cons (by simp [h])]
  simp [rendPoolA]

theorem poolRT_A : ∀ (p : Pool) (f : Nat), (∀ ru ∈ p, Rule.wf ru = true) →
    (∀ ru ∈ p, ru.premises ≠ []) → p ≠ [] → poolMA p < f →
    pPoolA f (rendPoolA p) = some p := by
  intro p
  induction p with
  | nil => intro f _ _ hp _; exact absurd rfl hp
  | cons ru p' ihp =>
      intro f hwf hne _ hf
      rw [poolMA_cons] at hf
      obtain ⟨f1, rfl⟩ : ∃ f1, f = f1 + 1 := ⟨f - 1, by omega⟩
      obtain ⟨ps, c⟩ := ru
      rcases eq_or_ne p' [] with hp' | hne'
      · subst hp'
        have hsh : rendPoolA [(⟨ps, c⟩ : Rule)] = rendRuleA ⟨ps, c⟩ ++ [] := by
          simp [rendPoolA, intercal]
        rw [hsh, pPoolA,
          ruleRT_A (hwf ⟨ps, c⟩ (by simp)) (hne ⟨ps, c⟩ (by simp))
            (Or.inl rfl) (by omega)]
      · rw [rendPoolA_cons hne', pPoolA,
          ruleRT_A (hwf ⟨ps, c⟩ (by simp)) (hne ⟨ps, c⟩ (by simp))
            (Or.inr ⟨rendPoolA p', rfl⟩) (by omega)]
        dsimp only
        rw [if_pos rfl,
          ihp f1 (fun r hr => hwf r (by simp [hr])) (fun r hr => hne r (by simp [hr]))
            hne' (by omega)]

theorem poolFail_A : ∀ (p : Pool) (f : Nat), (∀ ru ∈ p, Rule.wf ru = true) →
    (∃ ru ∈ p, ru.premises = []) → poolMA p < f →
    pPoolA f (rendPoolA p) = none := by
  intro p
  induction p with
  | nil => intro f _ hbad _; simp at hbad
  | cons ru p' ihp =>
      intro f hwf hbad hf
      rw [poolMA_cons] at hf
      obtain ⟨f1, rfl⟩ : ∃ f1, f = f1 + 1 := ⟨f - 1, by omega⟩
      obtain ⟨ps, c⟩ := ru
      rcases eq_or_ne ps [] with hps | hnz
      · subst hps
        rcases eq_or_ne p' [] with hp' | hne'
        · subst hp'
          have hsh : rendPoolA [(⟨[], c⟩ : Rule)] = rendRuleA ⟨[], c⟩ ++ [] := by
            simp [rendPoolA, intercal]
          rw [hsh, pPoolA, ruleFail_A]
        · rw [rendPoolA_cons hne', pPoolA, ruleFail_A]
      · have hbad' : ∃ ru ∈ p', ru.premises = [] := by
          rcases hbad with ⟨ru0, hmem, hru0⟩
          rcases List.mem_cons.1 hmem with rfl | hmem'
          · exact absurd hru0 hnz
          · exact ⟨ru0, hmem', hru0⟩
        rcases eq_or_ne p' [] with hp' | hne'
        · rcases hbad' with ⟨ru0, hmem, _⟩
          rw [hp'] at hmem
          cases hmem
        · rw [rendPoolA_cons hne', pPoolA,
            ruleRT_A (hwf ⟨ps, c⟩ (by simp)) hnz
              (Or.inr ⟨rendPoolA p', rfl⟩) (by omega)]
          dsimp only
          rw [if_pos rfl,
            ihp f1 (fun r hr => hwf r (by simp [hr])) hbad' (by omega)]



mutual

theorem size_le_rendA : ∀ t : Term, t.wf = true → t.size ≤ (rendA t).length
  | .symbol n, h => by
      obtain ⟨c, r, hd, _, _⟩ := wfName_elim (by simpa [Term.wf] using h)
      simp [rendA, Term.size, hd]
  | .subscript b ix, h => by
      have h3 : (b.wf = true ∧ ¬ ix = []) ∧ Term.wfList ix = true := by
        simpa [Term.wf, Bool.and_eq_true] using h
      have h1 := size_le_rendA b h3.1.1
      have h2 := sizeList_le_intercalA ix h3.2
      simp only [rendA, Term.size, List.length_append, List.length_cons]
      omega
  | .application g as, h => by
      have h3 : (g.wf = true ∧ ¬ as = []) ∧ Term.wfList as = true := by
        simpa [Term.wf, Bool.and_eq_true] using h
      have h1 := size_le_rendA g h3.1.1
      have h2 := sizeList_le_intercalA as h3.2
      simp only [rendA, Term.size, List.length_append, List.length_cons]
      omega
  | .unary op u, h => by
      have h2 : wfOp op = true ∧ u.wf = true := by
        simpa [Term.wf, Bool.and_eq_true] using h
      have h1 := size_le_rendA u h2.2
      simp only [rendA, Term.size, List.length_append, List.length_cons,
        List.length_singleton]
      omega
  | .binary op l r, h => by
      have h2 : wfOp op = true ∧ l.wf = true ∧ r.wf = true := by
        simpa [Term.wf, Bool.and_eq_true, and_assoc] using h
      have h1 := size_le_rendA l h2.2.1
      have h3 := size_le_rendA r h2.2.2
      simp only [rendA, Term.size, List.length_append, List.length_cons,
        List.length_singleton]
      omega

theorem sizeList_le_intercalA : ∀ ts : List Term, Term.wfList ts = true →
    Term.sizeList ts ≤ (intercal [',', ' '] (rendAList ts)).length
  | [], _ => by simp [Term.sizeList, rendAList, intercal]
  | [t], h => by
      have h0 : t.wf = true := by
        simpa [Term.wfList, Bool.and_eq_true] using h
      have h1 := size_le_rendA t h0
      simp [Term.sizeList, rendAList, intercal]
      omega
  | t :: t2 :: ts, h => by
      have h2 : t.wf = true ∧ Term.wfList (t2 :: ts) = true := by
        simpa [Term.wfList, Bool.and_eq_true, and_assoc] using h
      have h1 := size_le_rendA t h2.1
      have h3 := sizeList_le_intercalA (t2 :: ts) h2.2
      rw [show rendAList (t :: t2 :: ts) = rendA t :: rendAList (t2 :: ts) from by
        rw [rendAList]]
      rw [intercal_cons (by rw [rendAList]; simp)]
      rw [show Term.sizeList (t :: t2 :: ts) = t.size + Term.sizeList (t2 :: ts) from by
        rw [Term.sizeList]]
      simp only [List.length_append]
      omega

end



theorem ruleWf_elim {ru : Rule} (h : Rule.wf ru = true) :
    Term.wfList ru.premises = true ∧ ru.concl.wf = true := by
  simpa [Rule.wf, Bool.and_eq_true] using h

theorem poolWf_elim {p : Pool} (h : Pool.wf p = true) :
    p ≠ [] ∧ ∀ ru ∈ p, Rule.wf ru = true := by
  have h' := h
  simp only [Pool.wf, Bool.and_eq_true, List.all_eq_true] at h'
  refine ⟨?_, fun ru hru => h'.2 ru hru⟩
  intro he
  rw [he] at h'
  simp at h'

theorem ruleMA_le {ru : Rule} (hwf : Rule.wf ru = true) :
    ruleMA ru + 9 ≤ 4 * (rendRuleA ru).length := by
  obtain ⟨hps, hc⟩ := ruleWf_elim hwf
  have h1 := sizeList_le_intercalA ru.premises hps
  have h2 := size_le_rendA ru.concl hc
  simp only [ruleMA, rendRuleA, List.length_append, List.length_cons]
  omega

theorem poolMA_lt {p : Pool} (hwf : ∀ ru ∈ p, Rule.wf ru = true) :
    poolMA p < 4 * (rendPoolA p).length + 8 := by
  induction p with
  | nil => simp [poolMA, rendPoolA, intercal]
  | cons ru p' ihp =>
      rw [poolMA_cons]
      have hr := ruleMA_le (hwf ru (by simp))
      rcases eq_or_ne p' [] with hp' | hne'
      · subst hp'
        have : rendPoolA [ru] = rendRuleA ru := by simp [rendPoolA, intercal]
        rw [this]
        simp [poolMA]
        omega
      · rw [rendPoolA_cons hne']
        have hih := ihp (fun r hr2 => hwf r (by simp [hr2]))
        simp only [List.length_append, List.length_cons]
        omega

theorem parsePoolA_rend {p : Pool} (hwf : Pool.wf p = true)
    (hne : ∀ ru ∈ p, ru.premises ≠ []) :
    parsePoolA (String.mk (rendPoolA p)) = some p := by
  obtain ⟨hnz, hall⟩ := poolWf_elim hwf
  show pPoolA (fuelFor (String.mk (rendPoolA p)).data) (String.mk (rendPoolA p)).data = some p
  have hd : (String.mk (rendPoolA p)).data = rendPoolA p := rfl
  rw [hd]
  exact poolRT_A p _ hall hne hnz (by
    have := poolMA_lt hall
    simp [fuelFor]
    omega)

theorem parsePoolA_rend_none {p : Pool} (hwf : Pool.wf p = true)
    (hbad : ∃ ru ∈ p, ru.premises = []) :
    parsePoolA (String.mk (rendPoolA p)) = none := by
  obtain ⟨_, hall⟩ := poolWf_elim hwf
  show pPoolA (fuelFor (String.mk (rendPoolA p)).data) (String.mk (rendPoolA p)).data = none
  have hd : (String.mk (rendPoolA p)).data = rendPoolA p := rfl
  rw [hd]
  exact poolFail_A p _ hall hbad (by
    have := poolMA_lt hall
    simp [fuelFor]
    omega)



/-! Stacked-grammar round trip: keyword step lemmas, the strong-induction
term-level theorem, and the rule level. -/


theorem pTermS_kw {f : Nat} {inp : List Char} {c : Char} (hc : c ≠ ' ')
    (hcp : c = '(') {out : Option (Term × List Char)}
    (h : pTermKw f (munch identChar (skipSp inp)).1
      (munch identChar (skipSp inp)).2 = out) :
    pTermS (f + 1) (c :: inp) = out := by
  subst hcp
  rw [pTermS, skipSp_cons (by decide)]
  dsimp only
  rw [if_pos rfl]
  exact h

theorem pTermKw_sub {f : Nat} {r1 : List Char} {out : Option (Term × List Char)}
    (h : pSubK f r1 = out) : pTermKw (f + 1) ("subscript".data) r1 = out := by
  rw [pTermKw, if_pos rfl]
  exact h

theorem pTermKw_fun {f : Nat} {r1 : List Char} {out : Option (Term × List Char)}
    (h : pFunK f r1 = out) : pTermKw (f + 1) ("function".data) r1 = out := by
  rw [pTermKw, if_neg (by decide), if_pos rfl]
  exact h

theorem pTermKw_un {f : Nat} {r1 : List Char} {out : Option (Term × List Char)}
    (h : pUnK f (munch opChar (skipSp r1)).1 (munch opChar (skipSp r1)).2 = out) :
    pTermKw (f + 1) ("unary".data) r1 = out := by
  rw [pTermKw, if_neg (by decide), if_neg (by decide), if_pos rfl]
  exact h

theorem pTermKw_bin {f : Nat} {r1 : List Char} {out : Option (Term × List Char)}
    (h : pBinK f (munch opChar (skipSp r1)).1 (munch opChar (skipSp r1)).2 = out) :
    pTermKw (f + 1) ("binary".data) r1 = out := by
  rw [pTermKw, if_neg (by decide), if_neg (by decide), if_neg (by decide), if_pos rfl]
  exact h

theorem pSubK_eq {f : Nat} {inp r2 : List Char} {b : Term} {ix : List Term}
    (h : pSeq f inp = some (b :: ix, ')' :: r2)) (hne : ix ≠ []) :
    pSubK (f + 1) inp = some (.subscript b ix, r2) := by
  rw [pSubK]
  simp only [h]
  simp [hne]

theorem pFunK_eq {f : Nat} {inp r2 : List Char} {g : Term} {as : List Term}
    (h : pSeq f inp = some (g :: as, ')' :: r2)) (hne : as ≠ []) :
    pFunK (f + 1) inp = some (.application g as, r2) := by
  rw [pFunK]
  simp only [h]
  simp [hne]

theorem pUnK_eq {f : Nat} {op r2 r3 r4 : List Char} {t : Term}
    (hop : op ≠ []) (ht : pTermS f r2 = some (t, r3)) (hs : skipSp r3 = ')' :: r4) :
    pUnK (f + 1) op r2 = some (.unary (String.mk op) t, r4) := by
  rw [pUnK, if_neg (by simpa using hop)]
  simp only [ht, hs]
  simp

theorem pBinK_eq {f : Nat} {op r2 r3 r4 r5 : List Char} {l rt : Term}
    (hop : op ≠ []) (hl : pTermS f r2 = some (l, r3))
    (hr : pTermS f r3 = some (rt, r4)) (hs : skipSp r4 = ')' :: r5) :
    pBinK (f + 1) op r2 = some (.binary (String.mk op) l rt, r5) := by
  rw [pBinK, if_neg (by simpa using hop)]
  simp only [hl, hr, hs]
  simp

theorem pSeq_nil {f : Nat} {rest : List Char} :
    pSeq (f + 1) (')' :: rest) = some ([], ')' :: rest) := by
  rw [pSeq, skipSp_cons (by decide)]
  dsimp only
  rw [if_pos rfl]

theorem pSeq_step {f : Nat} {c : Char} {r r1 r2 : List Char} {t : Term}
    {ts : List Term} (hcp : c ≠ ')') (hcs : c ≠ ' ')
    (ht : pTermS f (c :: r) = some (t, r1)) (h2 : pSeq f r1 = some (ts, r2)) :
    pSeq (f + 1) (c :: r) = some (t :: ts, r2) := by
  rw [pSeq, skipSp_cons hcs]
  dsimp only
  rw [if_neg hcp]
  simp only [ht, h2]



theorem okS_cons {c : Char} {l : List Char} (h : identChar c = false) :
    okS (c :: l) := h

theorem stackMain : ∀ n : Nat,
    (∀ t rest f, Term.wf t = true → okS rest → 4 * t.size ≤ n → 4 * t.size < f →
      pTermS f (rendS t ++ rest) = some (t, rest)) ∧
    (∀ ts rest f, Term.wfList ts = true → 1 + 4 * Term.sizeList ts ≤ n →
      1 + 4 * Term.sizeList ts < f →
      pSeq f (intercal [' '] (rendSList ts) ++ (')' :: rest)) =
        some (ts, ')' :: rest)) := by
  intro n
  induction n using Nat.strong_induction_on with
  | _ n ih =>
    constructor
    · intro t rest f hwf hrest hn hf
      cases t with
      | symbol nm =>
          have hnm : wfName nm = true := by simpa [Term.wf] using hwf
          obtain ⟨c, rr, hd, hc, hall⟩ := wfName_elim hnm
          have hsz : Term.size (.symbol nm) = 1 := by simp [Term.size]
          rw [hsz] at hn hf
          obtain ⟨f1, rfl⟩ : ∃ f1, f = f1 + 1 := ⟨f - 1, by omega⟩
          have hinp : rendS (.symbol nm) ++ rest = c :: (rr ++ rest) := by
            simp [rendS, hd]
          rw [hinp, pTermS, skipSp_cons (not_space_of_ident hc)]
          dsimp only
          rw [if_neg (show ¬ (c = '(') from ne_of_identChar hc (by decide)), if_pos hc]
          have hlist : c :: (rr ++ rest) = nm.data ++ rest := by rw [hd]; simp
          have hbf : ∀ c0 r', rest = c0 :: r' → identChar c0 = false := by
            intro c0 r' he
            rw [he] at hrest
            exact hrest
          rw [hlist, munch_append hall hbf, mk_data]
      | subscript b ix =>
          have h3 : (b.wf = true ∧ ¬ ix = []) ∧ Term.wfList ix = true := by
            simpa [Term.wf, Bool.and_eq_true] using hwf
          have hsz : Term.size (.subscript b ix) = 1 + b.size + Term.sizeList ix := by
            simp [Term.size]
          have hb1 : 1 ≤ b.size := Term.one_le_size b
          rw [hsz] at hn hf
          obtain ⟨f3, rfl⟩ : ∃ f3, f = f3 + 3 := ⟨f - 3, by omega⟩
          have hre : rendS (.subscript b ix) ++ rest =
              '(' :: ("subscript ".data ++
                (intercal [' '] (rendSList (b :: ix)) ++ (')' :: rest))) := by
            rw [show rendSList (b :: ix) = rendS b :: rendSList ix from by rw [rendSList]]
            simp [rendS]
          rw [hre]
          refine pTermS_kw (by decide) rfl ?_
          have h9 : ("subscript ".data : List Char) = "subscript".data ++ [' '] := by
            decide
          have hsk : skipSp ("subscript ".data ++
              (intercal [' '] (rendSList (b :: ix)) ++ (')' :: rest))) =
              "subscript ".data ++
                (intercal [' '] (rendSList (b :: ix)) ++ (')' :: rest)) := by
            rw [h9]
            exact skipSp_cons (by decide) _
          rw [hsk]
          have hmm : munch identChar ("subscript ".data ++
              (intercal [' '] (rendSList (b :: ix)) ++ (')' :: rest))) =
              ("subscript".data,
                ' ' :: (intercal [' '] (rendSList (b :: ix)) ++ (')' :: rest))) := by
            rw [h9, List.append_assoc]
            refine munch_append (by decide) ?_
            intro c0 r' he
            injection he with h1 _
            rw [← h1]
            decide
          rw [hmm]
          dsimp only
          refine pTermKw_sub (f := f3 + 1) ?_
          have hseq : pSeq f3 (intercal [' '] (rendSList (b :: ix)) ++ (')' :: rest)) =
              some (b :: ix, ')' :: rest) := by
            have hms : Term.sizeList (b :: ix) = b.size + Term.sizeList ix := by
              rw [Term.sizeList]
            exact (ih (1 + 4 * Term.sizeList (b :: ix)) (by rw [hms]; omega)).2
              (b :: ix) rest f3
              (by rw [Term.wfList]; simp [h3.1.1, h3.2])
              (le_refl _) (by rw [hms]; omega)
          refine pSubK_eq ?_ h3.1.2
          rw [pSeq_space]
          exact hseq
      | application g as =>
          have h3 : (g.wf = true ∧ ¬ as = []) ∧ Term.wfList as = true := by
            simpa [Term.wf, Bool.and_eq_true] using hwf
          have hsz : Term.size (.application g as) = 1 + g.size + Term.sizeList as := by
            simp [Term.size]
          have hb1 : 1 ≤ g.size := Term.one_le_size g
          rw [hsz] at hn hf
          obtain ⟨f3, rfl⟩ : ∃ f3, f = f3 + 3 := ⟨f - 3, by omega⟩
          have hre : rendS (.application g as) ++ rest =
              '(' :: ("function ".data ++
                (intercal [' '] (rendSList (g :: as)) ++ (')' :: rest))) := by
            rw [show rendSList (g :: as) = rendS g :: rendSList as from by rw [rendSList]]
            simp [rendS]
          rw [hre]
          refine pTermS_kw (by decide) rfl ?_
          have h9 : ("function ".data : List Char) = "function".data ++ [' '] := by
            decide
          have hsk : skipSp ("function ".data ++
              (intercal [' '] (rendSList (g :: as)) ++ (')' :: rest))) =
              "function ".data ++
                (intercal [' '] (rendSList (g :: as)) ++ (')' :: rest)) := by
            rw [h9]
            exact skipSp_cons (by decide) _
          rw [hsk]
          have hmm : munch identChar ("function ".data ++
              (intercal [' '] (rendSList (g :: as)) ++ (')' :: rest))) =
              ("function".data,
                ' ' :: (intercal [' '] (rendSList (g :: as)) ++ (')' :: rest))) := by
            rw [h9, List.append_assoc]
            refine munch_append (by decide) ?_
            intro c0 r' he
            injection he with h1 _
            rw [← h1]
            decide
          rw [hmm]
          dsimp only
          refine pTermKw_fun (f := f3 + 1) ?_
          have hseq : pSeq f3 (intercal [' '] (rendSList (g :: as)) ++ (')' :: rest)) =
              some (g :: as, ')' :: rest) := by
            have hms : Term.sizeList (g :: as) = g.size + Term.sizeList as := by
              rw [Term.sizeList]
            exact (ih (1 + 4 * Term.sizeList (g :: as)) (by rw [hms]; omega)).2
              (g :: as) rest f3
              (by rw [Term.wfList]; simp [h3.1.1, h3.2])
              (le_refl _) (by rw [hms]; omega)
          refine pFunK_eq ?_ h3.1.2
          rw [pSeq_space]
          exact hseq
      | unary op u =>
          have h2 : wfOp op = true ∧ u.wf = true := by
            simpa [Term.wf, Bool.and_eq_true] using hwf
          obtain ⟨oc, orr, hod, hoc, hoall⟩ := wfOp_elim h2.1
          have hsz : Term.size (.unary op u) = 1 + u.size := by simp [Term.size]
          have hu1 : 1 ≤ u.size := Term.one_le_size u
          rw [hsz] at hn hf
          obtain ⟨f3, rfl⟩ : ∃ f3, f = f3 + 3 := ⟨f - 3, by omega⟩
          have hre : rendS (.unary op u) ++ rest =
              '(' :: ("unary ".data ++
                (op.data ++ (' ' :: (rendS u ++ (')' :: rest))))) := by
            simp [rendS]
          rw [hre]
          refine pTermS_kw (by decide) rfl ?_
          have h9 : ("unary ".data : List Char) = "unary".data ++ [' '] := by decide
          have hsk : skipSp ("unary ".data ++
              (op.data ++ (' ' :: (rendS u ++ (')' :: rest))))) =
              "unary ".data ++ (op.data ++ (' ' :: (rendS u ++ (')' :: rest)))) := by
            rw [h9]
            exact skipSp_cons (by decide) _
          rw [hsk]
          have hmm : munch identChar ("unary ".data ++
              (op.data ++ (' ' :: (rendS u ++ (')' :: rest))))) =
              ("unary".data, ' ' :: (op.data ++ (' ' :: (rendS u ++ (')' :: rest))))) := by
            rw [h9, List.append_assoc]
            refine munch_append (by decide) ?_
            intro c0 r' he
            injection he with h1 _
            rw [← h1]
            decide
          rw [hmm]
          dsimp only
          refine pTermKw_un (f := f3 + 1) ?_
          have hsk2 : skipSp (' ' :: (op.data ++ (' ' :: (rendS u ++ (')' :: rest))))) =
              oc :: (orr ++ (' ' :: (rendS u ++ (')' :: rest)))) := by
            rw [skipSp_space, hod]
            simp only [List.cons_append]
            exact skipSp_cons (not_space_of_op hoc) _
          rw [hsk2]
          have hmo : munch opChar (oc :: (orr ++ (' ' :: (rendS u ++ (')' :: rest))))) =
              (op.data, ' ' :: (rendS u ++ (')' :: rest))) := by
            rw [show oc :: (orr ++ (' ' :: (rendS u ++ (')' :: rest)))) =
                op.data ++ (' ' :: (rendS u ++ (')' :: rest))) from by rw [hod]; simp]
            refine munch_append hoall ?_
            intro c0 r' he
            injection he with h1 _
            rw [← h1]
            decide
          rw [hmo]
          dsimp only
          have hu : pTermS f3 (' ' :: (rendS u ++ (')' :: rest))) =
              some (u, ')' :: rest) := by
            rw [pTermS_space]
            exact (ih (4 * u.size) (by omega)).1 u (')' :: rest) f3 h2.2
              (okS_cons (by decide)) (le_refl _) (by omega)
          have h5 := @pUnK_eq f3 (op.data) _ _ _ _
            (by rw [hod]; simp) hu (skipSp_cons (by decide) _)
          rw [mk_data] at h5
          exact h5
      | binary op l r =>
          have h2 : wfOp op = true ∧ l.wf = true ∧ r.wf = true := by
            simpa [Term.wf, Bool.and_eq_true, and_assoc] using hwf
          obtain ⟨oc, orr, hod, hoc, hoall⟩ := wfOp_elim h2.1
          have hsz : Term.size (.binary op l r) = 1 + l.size + r.size := by
            simp [Term.size]
          have hl1 : 1 ≤ l.size := Term.one_le_size l
          have hr1 : 1 ≤ r.size := Term.one_le_size r
          rw [hsz] at hn hf
          obtain ⟨f3, rfl⟩ : ∃ f3, f = f3 + 3 := ⟨f - 3, by omega⟩
          have hre : rendS (.binary op l r) ++ rest =
              '(' :: ("binary ".data ++
                (op.data ++ (' ' :: (rendS l ++ (' ' :: (rendS r ++ (')' :: rest))))))) := by
            simp [rendS]
          rw [hre]
          refine pTermS_kw (by decide) rfl ?_
          have h9 : ("binary ".data : List Char) = "binary".data ++ [' '] := by decide
          have hsk : skipSp ("binary ".data ++
              (op.data ++ (' ' :: (rendS l ++ (' ' :: (rendS r ++ (')' :: rest))))))) =
              "binary ".data ++
                (op.data ++ (' ' :: (rendS l ++ (' ' :: (rendS r ++ (')' :: rest)))))) := by
            rw [h9]
            exact skipSp_cons (by decide) _
          rw [hsk]
          have hmm : munch identChar ("binary ".data ++
              (op.data ++ (' ' :: (rendS l ++ (' ' :: (rendS r ++ (')' :: rest))))))) =
              ("binary".data,
                ' ' :: (op.data ++ (' ' :: (rendS l ++ (' ' :: (rendS r ++ (')' :: rest))))))) := by
            rw [h9, List.append_assoc]
            refine munch_append (by decide) ?_
            intro c0 r' he
            injection he with h1 _
            rw [← h1]
            decide
          rw [hmm]
          dsimp only
          refine pTermKw_bin (f := f3 + 1) ?_
          have hsk2 : skipSp (' ' :: (op.data ++
              (' ' :: (rendS l ++ (' ' :: (rendS r ++ (')' :: rest))))))) =
              oc :: (orr ++ (' ' :: (rendS l ++ (' ' :: (rendS r ++ (')' :: rest)))))) := by
            rw [skipSp_space, hod]
            simp only [List.cons_append]
            exact skipSp_cons (not_space_of_op hoc) _
          rw [hsk2]
          have hmo : munch opChar (oc :: (orr ++
              (' ' :: (rendS l ++ (' ' :: (rendS r ++ (')' :: rest))))))) =
              (op.data, ' ' :: (rendS l ++ (' ' :: (rendS r ++ (')' :: rest))))) := by
            rw [show oc :: (orr ++ (' ' :: (rendS l ++ (' ' :: (rendS r ++ (')' :: rest)))))) =
                op.data ++ (' ' :: (rendS l ++ (' ' :: (rendS r ++ (')' :: rest))))) from by
              rw [hod]; simp]
            refine munch_append hoall ?_
            intro c0 r' he
            injection he with h1 _
            rw [← h1]
            decide
          rw [hmo]
          dsimp only
          have hlt : pTermS f3 (' ' :: (rendS l ++ (' ' :: (rendS r ++ (')' :: rest))))) =
              some (l, ' ' :: (rendS r ++ (')' :: rest))) := by
            rw [pTermS_space]
            exact (ih (4 * l.size) (by omega)).1 l (' ' :: (rendS r ++ (')' :: rest)))
              f3 h2.2.1 (okS_cons (by decide)) (le_refl _) (by omega)
          have hrt : pTermS f3 (' ' :: (rendS r ++ (')' :: rest))) =
              some (r, ')' :: rest) := by
            rw [pTermS_space]
            exact (ih (4 * r.size) (by omega)).1 r (')' :: rest) f3 h2.2.2
              (okS_cons (by decide)) (le_refl _) (by omega)
          have h5 := @pBinK_eq f3 (op.data) _ _ _ _ _ _
            (by rw [hod]; simp) hlt hrt (skipSp_cons (by decide) _)
          rw [mk_data] at h5
          exact h5
    · intro ts rest f hwl hn hf
      cases ts with
      | nil =>
          obtain ⟨f1, rfl⟩ : ∃ f1, f = f1 + 1 := ⟨f - 1, by omega⟩
          rw [show intercal [' '] (rendSList ([] : List Term)) ++ (')' :: rest) =
            ')' :: rest from by simp [rendSList, intercal]]
          exact pSeq_nil
      | cons t ts' =>
          have hw2 : t.wf = true ∧ Term.wfList ts' = true := by
            simpa [Term.wfList, Bool.and_eq_true] using hwl
          obtain ⟨tc, trr, htd, htc⟩ := rendS_head t hw2.1
          have htcp : tc ≠ ')' := by
            rcases htc with h | h
            · exact ne_of_identChar h (by decide)
            · rw [h]; decide
          have htcs : tc ≠ ' ' := by
            rcases htc with h | h
            · exact not_space_of_ident h
            · rw [h]; decide
          have hsz : Term.sizeList (t :: ts') = t.size + Term.sizeList ts' := by
            rw [Term.sizeList]
          rw [hsz] at hn hf
          have ht1 : 1 ≤ t.size := Term.one_le_size t
          obtain ⟨f1, rfl⟩ : ∃ f1, f = f1 + 1 := ⟨f - 1, by omega⟩
          cases ts' with
          | nil =>
              have hre : intercal [' '] (rendSList [t]) ++ (')' :: rest) =
                  tc :: (trr ++ (')' :: rest)) := by
                simp [rendSList, intercal, htd]
              rw [hre]
              refine @pSeq_step _ _ _ (')' :: rest) _ _ _ htcp htcs ?_ ?_
              · rw [show tc :: (trr ++ (')' :: rest)) = rendS t ++ (')' :: rest) from by
                  rw [htd]; simp]
                exact (ih (4 * t.size) (by simp [Term.sizeList] at hn; omega)).1 t
                  (')' :: rest) f1 hw2.1 (okS_cons (by decide)) (le_refl _)
                  (by simp [Term.sizeList] at hf; omega)
              · obtain ⟨f2, rfl⟩ : ∃ f2, f1 = f2 + 1 := ⟨f1 - 1, by omega⟩
                exact pSeq_nil
          | cons t2 ts2 =>
              have hre : intercal [' '] (rendSList (t :: t2 :: ts2)) ++ (')' :: rest) =
                  tc :: (trr ++ (' ' :: (intercal [' '] (rendSList (t2 :: ts2)) ++
                    (')' :: rest)))) := by
                rw [show rendSList (t :: t2 :: ts2) =
                    rendS t :: rendSList (t2 :: ts2) from by rw [rendSList]]
                rw [intercal_cons (by rw [rendSList]; simp)]
                rw [htd]
                simp
              rw [hre]
              refine @pSeq_step _ _ _
                (' ' :: (intercal [' '] (rendSList (t2 :: ts2)) ++ (')' :: rest)))
                _ _ _ htcp htcs ?_ ?_
              · rw [show tc :: (trr ++ (' ' :: (intercal [' '] (rendSList (t2 :: ts2)) ++
                    (')' :: rest)))) = rendS t ++
                    (' ' :: (intercal [' '] (rendSList (t2 :: ts2)) ++ (')' :: rest)))
                  from by rw [htd]; simp]
                exact (ih (4 * t.size) (by omega)).1 t
                  (' ' :: (intercal [' '] (rendSList (t2 :: ts2)) ++ (')' :: rest)))
                  f1 hw2.1 (okS_cons (by decide)) (le_refl _) (by omega)
              · rw [pSeq_space]
                exact (ih (1 + 4 * Term.sizeList (t2 :: ts2)) (by omega)).2
                  (t2 :: ts2) rest f1 hw2.2 (le_refl _) (by omega)



theorem termRT_S {t : Term} {rest : List Char} {f : Nat} (hwf : t.wf = true)
    (hrest : okS rest) (hf : 4 * t.size < f) :
    pTermS f (rendS t ++ rest) = some (t, rest) :=
  (stackMain (4 * t.size)).1 t rest f hwf hrest (le_refl _) hf

theorem rendSList_ne_nil {qs : List Term} (h : qs ≠ []) : rendSList qs ≠ [] := by
  cases qs with
  | nil => exact absurd rfl h
  | cons q qs => rw [rendSList]; simp

theorem stackAux : ∀ (ps : List Term) (d : Nat) (c : Term), ps ≠ [] →
    intercal ['\n'] (rendSList ps) ++
      ('\n' :: (List.replicate d '-' ++ ('\n' :: rendS c))) = stackBlock ps d c := by
  intro ps
  induction ps with
  | nil => intro d c h; exact absurd rfl h
  | cons q qs ihq =>
      intro d c _
      rcases eq_or_ne qs [] with hqs | hne
      · subst hqs
        simp [rendSList, intercal, stackBlock]
      · rw [show rendSList (q :: qs) = rendS q :: rendSList qs from by rw [rendSList]]
        rw [intercal_cons (rendSList_ne_nil hne)]
        rw [show stackBlock (q :: qs) d c = rendS q ++ ('\n' :: stackBlock qs d c)
          from by rw [stackBlock]]
        rw [← ihq d c hne]
        simp

theorem rendRuleS_eq_stackBlock (ru : Rule) :
    rendRuleS ru = stackBlock ru.premises (dashLen ru.premises) ru.concl := by
  obtain ⟨ps, c⟩ := ru
  cases ps with
  | nil =>
      show rendRuleS ⟨[], c⟩ = stackBlock [] (dashLen []) c
      rw [show dashLen [] = 4 from by simp [dashLen, natMax, rendSList]]
      simp [rendRuleS, stackBlock, List.replicate]
  | cons q qs =>
      show rendRuleS ⟨q :: qs, c⟩ = stackBlock (q :: qs) (dashLen (q :: qs)) c
      rw [← stackAux (q :: qs) (dashLen (q :: qs)) c (by simp)]
      simp [rendRuleS, dashLen]

theorem ruleRT_S_aux : ∀ (qs : List Term) (d : Nat) (c : Term) (rest : List Char)
    (f : Nat), Term.wfList qs = true → c.wf = true → 1 ≤ d →
    (rest = [] ∨ ∃ r', rest = '\n' :: r') →
    4 * Term.sizeList qs + 4 * c.size + 2 * qs.length + 2 < f →
    pRuleS f (stackBlock qs d c ++ rest) = some (⟨qs, c⟩, rest) := by
  intro qs
  induction qs with
  | nil =>
      intro d c rest f _ hc hd hrest hf
      obtain ⟨f1, rfl⟩ : ∃ f1, f = f1 + 1 := ⟨f - 1, by omega⟩
      obtain ⟨d1, rfl⟩ : ∃ d1, d = d1 + 1 := ⟨d - 1, by omega⟩
      have hsh : stackBlock [] (d1 + 1) c ++ rest =
          '-' :: (List.replicate d1 '-' ++ ('\n' :: (rendS c ++ rest))) := by
        rw [stackBlock]
        simp [List.replicate_succ]
      rw [hsh, pRuleS]
      dsimp only
      rw [if_pos rfl]
      have hmd : munch (fun d => d == '-')
          ('-' :: (List.replicate d1 '-' ++ ('\n' :: (rendS c ++ rest)))) =
          ('-' :: List.replicate d1 '-', '\n' :: (rendS c ++ rest)) := by
        rw [show '-' :: (List.replicate d1 '-' ++ ('\n' :: (rendS c ++ rest))) =
            ('-' :: List.replicate d1 '-') ++ ('\n' :: (rendS c ++ rest)) from by simp]
        refine munch_append ?_ ?_
        · intro x hx
          rcases List.mem_cons.1 hx with rfl | hx'
          · decide
          · rw [List.eq_of_mem_replicate hx']; decide
        · intro c0 r' he
          injection he with h1 _
          rw [← h1]
          decide
      rw [hmd]
      dsimp only
      rw [if_pos rfl]
      have hok : okS rest := by
        rcases hrest with rfl | ⟨r', rfl⟩
        · trivial
        · exact okS_cons (by decide)
      rw [termRT_S hc hok (by omega)]
      rcases hrest with rfl | ⟨r', rfl⟩
      · rfl
      · dsimp only
        rw [if_pos rfl]
  | cons q qs ihq =>
      intro d c rest f hql hc hd hrest hf
      have hw2 : q.wf = true ∧ Term.wfList qs = true := by
        simpa [Term.wfList, Bool.and_eq_true] using hql
      obtain ⟨tc, trr, htd, htc⟩ := rendS_head q hw2.1
      have hsz : Term.sizeList (q :: qs) = q.size + Term.sizeList qs := by
        rw [Term.sizeList]
      rw [hsz] at hf
      have hq1 : 1 ≤ q.size := Term.one_le_size q
      obtain ⟨f1, rfl⟩ : ∃ f1, f = f1 + 1 := ⟨f - 1, by omega⟩
      have hsh : stackBlock (q :: qs) d c ++ rest =
          tc :: (trr ++ ('\n' :: (stackBlock qs d c ++ rest))) := by
        rw [show stackBlock (q :: qs) d c = rendS q ++ ('\n' :: stackBlock qs d c)
          from by rw [stackBlock]]
        rw [htd]
        simp
      rw [hsh, pRuleS]
      dsimp only
      have htdash : ¬ (tc = '-') := by
        rcases htc with h | h
        · exact ne_of_identChar h (by decide)
        · rw [h]; decide
      rw [if_neg htdash]
      have hterm : pTermS f1 (tc :: (trr ++ ('\n' :: (stackBlock qs d c ++ rest)))) =
          some (q, '\n' :: (stackBlock qs d c ++ rest)) := by
        rw [show tc :: (trr ++ ('\n' :: (stackBlock qs d c ++ rest))) =
            rendS q ++ ('\n' :: (stackBlock qs d c ++ rest)) from by rw [htd]; simp]
        exact termRT_S hw2.1 (okS_cons (by decide)) (by omega)
      rw [hterm]
      dsimp only
      rw [if_pos rfl]
      rw [ihq d c rest f1 hw2.2 hc hd hrest (by simp only [List.length_cons] at *; omega)]

theorem ruleRT_S {ru : Rule} {rest : List Char} {f : Nat}
    (hwf : Rule.wf ru = true) (hrest : rest = [] ∨ ∃ r', rest = '\n' :: r')
    (hf : ruleMS ru < f) :
    pRuleS f (rendRuleS ru ++ rest) = some (ru, rest) := by
  obtain ⟨hps, hc⟩ := ruleWf_elim hwf
  rw [rendRuleS_eq_stackBlock]
  have hd1 : 1 ≤ dashLen ru.premises := by
    rw [dashLen]
    exact le_trans (by omega) (Nat.le_max_right _ _)
  have hf' : 4 * Term.sizeList ru.premises + 4 * ru.concl.size +
      2 * ru.premises.length + 2 < f := by
    unfold ruleMS at hf
    omega
  exact ruleRT_S_aux ru.premises (dashLen ru.premises) ru.concl rest f hps hc
    hd1 hrest hf'


/-! Stacked-grammar pool level: sizes and the whole-text round trip. -/



theorem poolMS_cons {ru : Rule} {p : Pool} :
    poolMS (ru :: p) = ruleMS ru + 1 + poolMS p := by
  simp [poolMS]
  omega

theorem rendPoolS_cons {ru : Rule} {p : Pool} (h : p ≠ []) :
    rendPoolS (ru :: p) = rendRuleS ru ++ ('\n' :: '\n' :: rendPoolS p) := by
  rw [rendPoolS, List.map_cons, intercal_cons (by simp [h])]
  simp [rendPoolS]

theorem poolRT_S : ∀ (p : Pool) (f : Nat), (∀ ru ∈ p, Rule.wf ru = true) →
    p ≠ [] → poolMS p < f → pPoolS f (rendPoolS p) = some p := by
  intro p
  induction p with
  | nil => intro f _ hp _; exact absurd rfl hp
  | cons ru p' ihp =>
      intro f hwf _ hf
      rw [poolMS_cons] at hf
      obtain ⟨f1, rfl⟩ : ∃ f1, f = f1 + 1 := ⟨f - 1, by omega⟩
      rcases eq_or_ne p' [] with hp' | hne'
      · subst hp'
        have hsh : rendPoolS [ru] = rendRuleS ru ++ [] := by
          simp [rendPoolS, intercal]
        rw [hsh, pPoolS,
          ruleRT_S (hwf ru (by simp)) (Or.inl rfl) (by omega)]
      · rw [rendPoolS_cons hne', pPoolS,
          ruleRT_S (hwf ru (by simp))
            (Or.inr ⟨'\n' :: rendPoolS p', rfl⟩) (by omega)]
        dsimp only
        rw [if_pos rfl]
        rw [ihp f1 (fun r hr => hwf r (by simp [hr])) hne' (by omega)]
        simp

mutual

theorem size_le_rendS : ∀ t : Term, t.wf = true → t.size ≤ (rendS t).length
  | .symbol n, h => by
      obtain ⟨c, r, hd, _, _⟩ := wfName_elim (by simpa [Term.wf] using h)
      simp [rendS, Term.size, hd]
  | .subscript b ix, h => by
      have h3 : (b.wf = true ∧ ¬ ix = []) ∧ Term.wfList ix = true := by
        simpa [Term.wf, Bool.and_eq_true] using h
      have h1 := size_le_rendS b h3.1.1
      have hlist : Term.wfList (b :: ix) = true := by
        simp [Term.wfList, Bool.and_eq_true]
        exact ⟨h3.1.1, h3.2⟩
      have h2 := sizeList_le_intercalS [' '] (by simp) (b :: ix) hlist
      rw [show Term.sizeList (b :: ix) = b.size + Term.sizeList ix from by
        rw [Term.sizeList]] at h2
      rw [show rendSList (b :: ix) = rendS b :: rendSList ix from by
        rw [rendSList]] at h2
      simp only [rendS, Term.size, List.length_append, List.length_cons]
      omega
  | .application g as, h => by
      have h3 : (g.wf = true ∧ ¬ as = []) ∧ Term.wfList as = true := by
        simpa [Term.wf, Bool.and_eq_true] using h
      have h1 := size_le_rendS g h3.1.1
      have hlist : Term.wfList (g :: as) = true := by
        simp [Term.wfList, Bool.and_eq_true]
        exact ⟨h3.1.1, h3.2⟩
      have h2 := sizeList_le_intercalS [' '] (by simp) (g :: as) hlist
      rw [show Term.sizeList (g :: as) = g.size + Term.sizeList as from by
        rw [Term.sizeList]] at h2
      rw [show rendSList (g :: as) = rendS g :: rendSList as from by
        rw [rendSList]] at h2
      simp only [rendS, Term.size, List.length_append, List.length_cons]
      omega
  | .unary op u, h => by
      have h2 : wfOp op = true ∧ u.wf = true := by
        simpa [Term.wf, Bool.and_eq_true] using h
      have h1 := size_le_rendS u h2.2
      simp only [rendS, Term.size, List.length_append, List.length_cons,
        List.length_singleton]
      omega
  | .binary op l r, h => by
      have h2 : wfOp op = true ∧ l.wf = true ∧ r.wf = true := by
        simpa [Term.wf, Bool.and_eq_true, and_assoc] using h
      have h1 := size_le_rendS l h2.2.1
      have h3 := size_le_rendS r h2.2.2
      simp only [rendS, Term.size, List.length_append, List.length_cons,
        List.length_singleton]
      omega

theorem sizeList_le_intercalS : ∀ (sep : List Char), 1 ≤ sep.length →
    ∀ ts : List Term, Term.wfList ts = true →
    Term.sizeList ts + ts.length ≤ (intercal sep (rendSList ts)).length + 1
  | _, _, [], _ => by simp [Term.sizeList, rendSList, intercal]
  | sep, _, [t], h => by
      have h0 : t.wf = true := by
        simpa [Term.wfList, Bool.and_eq_true] using h
      have h1 := size_le_rendS t h0
      simp [Term.sizeList, rendSList, intercal]
      omega
  | sep, hsep, t :: t2 :: ts, h => by
      have h2 : t.wf = true ∧ Term.wfList (t2 :: ts) = true := by
        simpa [Term.wfList, Bool.and_eq_true, and_assoc] using h
      have h1 := size_le_rendS t h2.1
      have h3 := sizeList_le_intercalS sep hsep (t2 :: ts) h2.2
      simp only [List.length_cons] at h3
      rw [show rendSList (t :: t2 :: ts) = rendS t :: rendSList (t2 :: ts) from by
        rw [rendSList]]
      rw [intercal_cons (by rw [rendSList]; simp)]
      rw [show Term.sizeList (t :: t2 :: ts) = t.size + Term.sizeList (t2 :: ts) from by
        rw [Term.sizeList]]
      simp only [List.length_append, List.length_cons]
      omega

end

theorem intercal_nl_len {ts : List Term} (hwf : Term.wfList ts = true) :
    Term.sizeList ts + ts.length ≤
      (intercal ['\n'] (rendSList ts)).length + 1 :=
  sizeList_le_intercalS ['\n'] (by simp) ts hwf

theorem ruleMS_le {ru : Rule} (hwf : Rule.wf ru = true) :
    ruleMS ru + 14 ≤ 4 * (rendRuleS ru).length := by
  obtain ⟨hps, hc⟩ := ruleWf_elim hwf
  have h2 := size_le_rendS ru.concl hc
  obtain ⟨ps, c⟩ := ru
  simp only at hps hc h2
  cases ps with
  | nil =>
      rw [show rendRuleS ⟨[], c⟩ =
          '-' :: '-' :: '-' :: '-' :: '\n' :: rendS c from by rw [rendRuleS]]
      have hc1 : 1 ≤ c.size := by cases c <;> simp [Term.size] <;> omega
      simp only [ruleMS, Term.sizeList, List.length_cons, List.length_nil]
      omega
  | cons q qs =>
      have h1 := intercal_nl_len hps
      simp only [List.length_cons] at h1
      rw [show rendRuleS ⟨q :: qs, c⟩ =
          intercal ['\n'] (rendSList (q :: qs)) ++
          '\n' :: List.replicate
            (Nat.max (natMax ((rendSList (q :: qs)).map List.length)) 4) '-' ++
          '\n' :: rendS c from by rw [rendRuleS]]
      have hd4 : 4 ≤ Nat.max (natMax ((rendSList (q :: qs)).map List.length)) 4 :=
        Nat.le_max_right _ _
      simp only [ruleMS, List.length_append, List.length_cons,
        List.length_replicate]
      omega

theorem poolMS_lt {p : Pool} (hwf : ∀ ru ∈ p, Rule.wf ru = true) :
    poolMS p < 4 * (rendPoolS p).length + 8 := by
  induction p with
  | nil => simp [poolMS, rendPoolS, intercal]
  | cons ru p' ihp =>
      rw [poolMS_cons]
      have hr := ruleMS_le (hwf ru (by simp))
      rcases eq_or_ne p' [] with hp' | hne'
      · subst hp'
        have : rendPoolS [ru] = rendRuleS ru := by simp [rendPoolS, intercal]
        rw [this]
        simp [poolMS]
        omega
      · rw [rendPoolS_cons hne']
        have hih := ihp (fun r hr2 => hwf r (by simp [hr2]))
        simp only [List.length_append, List.length_cons]
        omega

theorem parsePoolS_rend {p : Pool} (hwf : Pool.wf p = true) :
    parsePoolS (String.mk (rendPoolS p)) = some p := by
  obtain ⟨hnz, hall⟩ := poolWf_elim hwf
  show pPoolS (fuelFor (String.mk (rendPoolS p)).data)
    (String.mk (rendPoolS p)).data = some p
  have hlt := poolMS_lt hall
  exact poolRT_S p _ hall hnz (by simpa [fuelFor] using hlt)


/-! Well-formedness of everything the readers produce. -/



theorem munch_fst_all {p : Char → Bool} : ∀ l : List Char,
    ((munch p l).1).all p = true
  | [] => by simp [munch]
  | c :: r => by
      cases hc : p c
      · rw [munch_cons_neg hc]; simp
      · rw [munch_cons_pos hc]
        simp only [List.all_cons, hc, Bool.true_and]
        exact munch_fst_all r

theorem munch_fst_ne {p : Char → Bool} {c : Char} {l : List Char}
    (h : p c = true) : (munch p (c :: l)).1 ≠ [] := by
  rw [munch_cons_pos h]; simp

theorem wfName_munch {c : Char} {l : List Char} (hc : identChar c = true) :
    wfName (String.mk ((munch identChar (c :: l)).1)) = true := by
  rw [munch_cons_pos hc]
  have hall := munch_fst_all (p := identChar) l
  simp [wfName, hc, hall]

theorem wfOp_of {op : List Char} (hne : op ≠ []) (hall : op.all opChar = true) :
    wfOp (String.mk op) = true := by
  cases op with
  | nil => exact absurd rfl hne
  | cons a l => simp only [List.all_cons, Bool.and_eq_true] at hall
                simp [wfOp, hall.1, hall.2]

theorem wfMain : ∀ f : Nat,
    (∀ inp t r, pAtom f inp = some (t, r) → t.wf = true) ∧
    (∀ inp t r, pParen f inp = some (t, r) → t.wf = true) ∧
    (∀ op r2 t r, op ≠ [] → op.all opChar = true →
      pParenU f op r2 = some (t, r) → t.wf = true) ∧
    (∀ inp t r, pParenL f inp = some (t, r) → t.wf = true) ∧
    (∀ l op r5 t r, l.wf = true → op ≠ [] → op.all opChar = true →
      pParenB f l op r5 = some (t, r) → t.wf = true) ∧
    (∀ acc inp t r, acc.wf = true → pLoop f acc inp = some (t, r) →
      t.wf = true) ∧
    (∀ inp ts r, pArgs f inp = some (ts, r) → ts ≠ [] ∧ Term.wfList ts = true) ∧
    (∀ inp t r, pTerm f inp = some (t, r) → t.wf = true) := by
  intro f
  induction f with
  | zero =>
      refine ⟨?_, ?_, ?_, ?_, ?_, ?_, ?_, ?_⟩
      · intro inp t r h; simp [pAtom] at h
      · intro inp t r h; simp [pParen] at h
      · intro op r2 t r _ _ h; simp [pParenU] at h
      · intro inp t r h; simp [pParenL] at h
      · intro l op r5 t r _ _ _ h; simp [pParenB] at h
      · intro acc inp t r _ h; simp [pLoop] at h
      · intro inp ts r h; simp [pArgs] at h
      · intro inp t r h; simp [pTerm] at h
  | succ f ih =>
      obtain ⟨ihA, ihP, ihPU, ihPL, ihPB, ihL, ihG, ihT⟩ := ih
      refine ⟨?_, ?_, ?_, ?_, ?_, ?_, ?_, ?_⟩
      · -- pAtom
        intro inp t r h
        rw [pAtom] at h
        cases hs : skipSp inp with
        | nil => rw [hs] at h; exact Option.noConfusion h
        | cons c rr =>
            rw [hs] at h
            dsimp only at h
            by_cases hc : c = '('
            · rw [if_pos hc] at h
              exact ihP _ _ _ h
            · rw [if_neg hc] at h
              cases hi : identChar c
              · rw [hi] at h
                simp only [Bool.false_eq_true, if_false] at h
                exact Option.noConfusion h
              · rw [hi] at h
                rw [if_pos rfl] at h
                rw [munch_cons_pos hi] at h
                dsimp only at h
                simp only [Option.some.injEq, Prod.mk.injEq] at h
                obtain ⟨h1, -⟩ := h
                subst h1
                simp [Term.wf, wfName, hi, munch_fst_all rr]
      · -- pParen
        intro inp t r h
        rw [pParen] at h
        cases hs : skipSp inp with
        | nil => rw [hs] at h; exact Option.noConfusion h
        | cons c r1 =>
            rw [hs] at h
            dsimp only at h
            by_cases hoc : opChar c = true
            · rw [if_pos hoc] at h
              exact ihPU _ _ _ _ (munch_fst_ne hoc) (munch_fst_all _) h
            · rw [if_neg hoc] at h
              exact ihPL _ _ _ h
      · -- pParenU
        intro op r2 t r hne hall h
        rw [pParenU] at h
        cases hpt : pTerm f r2 with
        | none => rw [hpt] at h; exact Option.noConfusion h
        | some pr =>
            obtain ⟨u, r3⟩ := pr
            rw [hpt] at h
            dsimp only at h
            cases hs3 : skipSp r3 with
            | nil => rw [hs3] at h; exact Option.noConfusion h
            | cons c3 r4 =>
                rw [hs3] at h
                dsimp only at h
                by_cases hc3 : c3 = ')'
                · rw [if_pos hc3] at h
                  simp only [Option.some.injEq, Prod.mk.injEq] at h
                  obtain ⟨h1, -⟩ := h
                  subst h1
                  have hu := ihT _ _ _ hpt
                  simp [Term.wf, hu, wfOp_of hne hall]
                · rw [if_neg hc3] at h; exact Option.noConfusion h
      · -- pParenL
        intro inp t r h
        rw [pParenL] at h
        cases hpt : pTerm f inp with
        | none => rw [hpt] at h; exact Option.noConfusion h
        | some pr =>
            obtain ⟨l, r2⟩ := pr
            rw [hpt] at h
            dsimp only at h
            cases hs : skipSp r2 with
            | nil => rw [hs] at h; exact Option.noConfusion h
            | cons c2 r4 =>
                rw [hs] at h
                dsimp only at h
                by_cases hc2 : c2 = ')'
                · rw [if_pos hc2] at h
                  simp only [Option.some.injEq, Prod.mk.injEq] at h
                  obtain ⟨h1, -⟩ := h
                  subst h1
                  exact ihT _ _ _ hpt
                · rw [if_neg hc2] at h
                  by_cases hop : opChar c2 = true
                  · rw [if_pos hop] at h
                    exact ihPB _ _ _ _ _ (ihT _ _ _ hpt)
                      (munch_fst_ne hop) (munch_fst_all _) h
                  · rw [if_neg hop] at h; exact Option.noConfusion h
      · -- pParenB
        intro l op r5 t r hl hne hall h
        rw [pParenB] at h
        cases hpt : pTerm f r5 with
        | none => rw [hpt] at h; exact Option.noConfusion h
        | some pr =>
            obtain ⟨rt, r6⟩ := pr
            rw [hpt] at h
            dsimp only at h
            cases hs : skipSp r6 with
            | nil => rw [hs] at h; exact Option.noConfusion h
            | cons c3 r7 =>
                rw [hs] at h
                dsimp only at h
                by_cases hc3 : c3 = ')'
                · rw [if_pos hc3] at h
                  simp only [Option.some.injEq, Prod.mk.injEq] at h
                  obtain ⟨h1, -⟩ := h
                  subst h1
                  have hrt := ihT _ _ _ hpt
                  simp [Term.wf, hl, hrt, wfOp_of hne hall]
                · rw [if_neg hc3] at h; exact Option.noConfusion h
      · -- pLoop
        intro acc inp t r hacc h
        cases inp with
        | nil =>
            rw [pLoop] at h
            simp only [Option.some.injEq, Prod.mk.injEq] at h
            obtain ⟨h1, -⟩ := h
            subst h1
            exact hacc
        | cons c rr =>
            rw [pLoop] at h
            by_cases hc1 : c = '['
            · rw [if_pos hc1] at h
              cases hargs : pArgs f rr with
              | none => rw [hargs] at h; exact Option.noConfusion h
              | some pr =>
                  obtain ⟨ts, r1⟩ := pr
                  rw [hargs] at h
                  dsimp only at h
                  cases r1 with
                  | nil => dsimp only at h; exact Option.noConfusion h
                  | cons c1 r2 =>
                      dsimp only at h
                      by_cases hc2 : c1 = ']'
                      · rw [if_pos hc2] at h
                        obtain ⟨hne, hwl⟩ := ihG _ _ _ hargs
                        refine ihL _ _ _ _ ?_ h
                        simp [Term.wf, hacc, hwl, hne]
                      · rw [if_neg hc2] at h; exact Option.noConfusion h
            · rw [if_neg hc1] at h
              by_cases hc1' : c = '('
              · rw [if_pos hc1'] at h
                cases hargs : pArgs f rr with
                | none => rw [hargs] at h; exact Option.noConfusion h
                | some pr =>
                    obtain ⟨ts, r1⟩ := pr
                    rw [hargs] at h
                    dsimp only at h
                    cases r1 with
                    | nil => dsimp only at h; exact Option.noConfusion h
                    | cons c1 r2 =>
                        dsimp only at h
                        by_cases hc2 : c1 = ')'
                        · rw [if_pos hc2] at h
                          obtain ⟨hne, hwl⟩ := ihG _ _ _ hargs
                          refine ihL _ _ _ _ ?_ h
                          simp [Term.wf, hacc, hwl, hne]
                        · rw [if_neg hc2] at h; exact Option.noConfusion h
              · rw [if_neg hc1'] at h
                simp only [Option.some.injEq, Prod.mk.injEq] at h
                obtain ⟨h1, -⟩ := h
                subst h1
                exact hacc
      · -- pArgs
        intro inp ts r h
        rw [pArgs] at h
        cases hpt : pTerm f inp with
        | none => rw [hpt] at h; exact Option.noConfusion h
        | some pr =>
            obtain ⟨t0, r0⟩ := pr
            rw [hpt] at h
            dsimp only at h
            have ht0 := ihT _ _ _ hpt
            cases hs : skipSp r0 with
            | nil =>
                rw [hs] at h
                dsimp only at h
                simp only [Option.some.injEq, Prod.mk.injEq] at h
                obtain ⟨h1, -⟩ := h
                subst h1
                exact ⟨by simp, by simp [Term.wfList, ht0]⟩
            | cons c r1 =>
                rw [hs] at h
                dsimp only at h
                by_cases hc : c = ','
                · rw [if_pos hc] at h
                  cases hargs : pArgs f r1 with
                  | none => rw [hargs] at h; exact Option.noConfusion h
                  | some pr2 =>
                      obtain ⟨ts', r2⟩ := pr2
                      rw [hargs] at h
                      dsimp only at h
                      simp only [Option.some.injEq, Prod.mk.injEq] at h
                      obtain ⟨h1, -⟩ := h
                      subst h1
                      obtain ⟨-, hl⟩ := ihG _ _ _ hargs
                      exact ⟨by simp, by simp [Term.wfList, ht0, hl]⟩
                · rw [if_neg hc] at h
                  simp only [Option.some.injEq, Prod.mk.injEq] at h
                  obtain ⟨h1, -⟩ := h
                  subst h1
                  exact ⟨by simp, by simp [Term.wfList, ht0]⟩
      · -- pTerm
        intro inp t r h
        rw [pTerm] at h
        cases hpa : pAtom f inp with
        | none => rw [hpa] at h; exact Option.noConfusion h
        | some pr =>
            obtain ⟨a, r0⟩ := pr
            rw [hpa] at h
            dsimp only at h
            exact ihL _ _ _ _ (ihA _ _ _ hpa) h

theorem pTerm_wf {f : Nat} {inp r : List Char} {t : Term}
    (h : pTerm f inp = some (t, r)) : t.wf = true :=
  (wfMain f).2.2.2.2.2.2.2 inp t r h

theorem pArgs_wf {f : Nat} {inp r : List Char} {ts : List Term}
    (h : pArgs f inp = some (ts, r)) : ts ≠ [] ∧ Term.wfList ts = true :=
  (wfMain f).2.2.2.2.2.2.1 inp ts r h

theorem pRuleA_wf {f : Nat} {inp rest : List Char} {ru : Rule}
    (h : pRuleA f inp = some (ru, rest)) : Rule.wf ru = true := by
  cases f with
  | zero => simp [pRuleA] at h
  | succ f =>
      rw [pRuleA] at h
      cases hargs : pArgs f inp with
      | none => rw [hargs] at h; exact Option.noConfusion h
      | some pr =>
          obtain ⟨ts, r0⟩ := pr
          rw [hargs] at h
          dsimp only at h
          obtain ⟨hne, hwl⟩ := pArgs_wf hargs
          cases r0 with
          | nil =>
              cases ts with
              | nil => exact absurd rfl hne
              | cons t ts' =>
                  cases ts' with
                  | nil =>
                      dsimp only at h
                      simp only [Option.some.injEq, Prod.mk.injEq] at h
                      obtain ⟨h1, -⟩ := h
                      subst h1
                      simp only [Term.wfList, Bool.and_eq_true] at hwl
                      simp [Rule.wf, Term.wfList, hwl.1]
                  | cons t2 ts2 => dsimp only at h; exact Option.noConfusion h
          | cons c r' =>
              dsimp only at h
              by_cases hc : c = '\n'
              · rw [if_pos hc] at h
                cases ts with
                | nil => exact absurd rfl hne
                | cons t ts' =>
                    cases ts' with
                    | nil =>
                        dsimp only at h
                        simp only [Option.some.injEq, Prod.mk.injEq] at h
                        obtain ⟨h1, -⟩ := h
                        subst h1
                        simp only [Term.wfList, Bool.and_eq_true] at hwl
                        simp [Rule.wf, Term.wfList, hwl.1]
                    | cons t2 ts2 => dsimp only at h; exact Option.noConfusion h
              · rw [if_neg hc] at h
                cases hm : munch opChar (c :: r') with
                | mk op r1 =>
                    rw [hm] at h
                    dsimp only at h
                    by_cases hop : op = ['-', '>']
                    · rw [if_pos hop] at h
                      cases hpt : pTerm f r1 with
                      | none => rw [hpt] at h; exact Option.noConfusion h
                      | some pr2 =>
                          obtain ⟨cl, r2⟩ := pr2
                          rw [hpt] at h
                          dsimp only at h
                          have hcl := pTerm_wf hpt
                          cases hs : skipSp r2 with
                          | nil =>
                              rw [hs] at h
                              dsimp only at h
                              simp only [Option.some.injEq, Prod.mk.injEq] at h
                              obtain ⟨h1, -⟩ := h
                              subst h1
                              simp [Rule.wf, hwl, hcl]
                          | cons c2 r3 =>
                              rw [hs] at h
                              dsimp only at h
                              by_cases hc2 : c2 = '\n'
                              · rw [if_pos hc2] at h
                                simp only [Option.some.injEq, Prod.mk.injEq] at h
                                obtain ⟨h1, -⟩ := h
                                subst h1
                                simp [Rule.wf, hwl, hcl]
                              · rw [if_neg hc2] at h; exact Option.noConfusion h
                    · rw [if_neg hop] at h; exact Option.noConfusion h

theorem pPoolA_wf : ∀ {f : Nat} {inp : List Char} {p : Pool},
    pPoolA f inp = some p → Pool.wf p = true := by
  intro f
  induction f with
  | zero => intro inp p h; simp [pPoolA] at h
  | succ f ih =>
      intro inp p h
      rw [pPoolA] at h
      cases hr : pRuleA f inp with
      | none => rw [hr] at h; exact Option.noConfusion h
      | some pr =>
          obtain ⟨ru, rest⟩ := pr
          rw [hr] at h
          dsimp only at h
          have hru := pRuleA_wf hr
          cases rest with
          | nil =>
              simp only [Option.some.injEq] at h
              subst h
              simp [Pool.wf, hru]
          | cons c r2 =>
              dsimp only at h
              by_cases hc : c = '\n'
              · rw [if_pos hc] at h
                cases hp2 : pPoolA f r2 with
                | none => rw [hp2] at h; exact Option.noConfusion h
                | some rs =>
                    rw [hp2] at h
                    dsimp only at h
                    simp only [Option.some.injEq] at h
                    subst h
                    have hrs := ih hp2
                    simp only [Pool.wf, Bool.and_eq_true, List.all_eq_true] at hrs
                    simp only [Pool.wf, Bool.and_eq_true, List.all_eq_true]
                    refine ⟨by simp, ?_⟩
                    intro x hx
                    rcases List.mem_cons.1 hx with rfl | hx2
                    · exact hru
                    · exact hrs.2 x hx2
              · rw [if_neg hc] at h; exact Option.noConfusion h

theorem wfMainS : ∀ f : Nat,
    (∀ inp t r, pTermS f inp = some (t, r) → t.wf = true) ∧
    (∀ kw r1 t r, pTermKw f kw r1 = some (t, r) → t.wf = true) ∧
    (∀ r1 t r, pSubK f r1 = some (t, r) → t.wf = true) ∧
    (∀ r1 t r, pFunK f r1 = some (t, r) → t.wf = true) ∧
    (∀ op r2 t r, op.all opChar = true → pUnK f op r2 = some (t, r) →
      t.wf = true) ∧
    (∀ op r2 t r, op.all opChar = true → pBinK f op r2 = some (t, r) →
      t.wf = true) ∧
    (∀ inp ts r, pSeq f inp = some (ts, r) → Term.wfList ts = true) := by
  intro f
  induction f with
  | zero =>
      refine ⟨?_, ?_, ?_, ?_, ?_, ?_, ?_⟩
      · intro inp t r h; simp [pTermS] at h
      · intro kw r1 t r h; simp [pTermKw] at h
      · intro r1 t r h; simp [pSubK] at h
      · intro r1 t r h; simp [pFunK] at h
      · intro op r2 t r _ h; simp [pUnK] at h
      · intro op r2 t r _ h; simp [pBinK] at h
      · intro inp ts r h; simp [pSeq] at h
  | succ f ih =>
      obtain ⟨ihS, ihK, ihSub, ihFun, ihUn, ihBin, ihSeq⟩ := ih
      refine ⟨?_, ?_, ?_, ?_, ?_, ?_, ?_⟩
      · -- pTermS
        intro inp t r h
        rw [pTermS] at h
        cases hs : skipSp inp with
        | nil => rw [hs] at h; exact Option.noConfusion h
        | cons c rr =>
            rw [hs] at h
            dsimp only at h
            by_cases hc : c = '('
            · rw [if_pos hc] at h
              exact ihK _ _ _ _ h
            · rw [if_neg hc] at h
              cases hi : identChar c
              · rw [hi] at h
                simp only [Bool.false_eq_true, if_false] at h
                exact Option.noConfusion h
              · rw [hi] at h
                rw [if_pos rfl] at h
                rw [munch_cons_pos hi] at h
                dsimp only at h
                simp only [Option.some.injEq, Prod.mk.injEq] at h
                obtain ⟨h1, -⟩ := h
                subst h1
                simp [Term.wf, wfName, hi, munch_fst_all rr]
      · -- pTermKw
        intro kw r1 t r h
        rw [pTermKw] at h
        by_cases h1 : kw = "subscript".data
        · rw [if_pos h1] at h; exact ihSub _ _ _ h
        · rw [if_neg h1] at h
          by_cases h2 : kw = "function".data
          · rw [if_pos h2] at h; exact ihFun _ _ _ h
          · rw [if_neg h2] at h
            by_cases h3 : kw = "unary".data
            · rw [if_pos h3] at h
              exact ihUn _ _ _ _ (munch_fst_all _) h
            · rw [if_neg h3] at h
              by_cases h4 : kw = "binary".data
              · rw [if_pos h4] at h
                exact ihBin _ _ _ _ (munch_fst_all _) h
              · rw [if_neg h4] at h; exact Option.noConfusion h
      · -- pSubK
        intro r1 t r h
        rw [pSubK] at h
        cases hsq : pSeq f r1 with
        | none => rw [hsq] at h; exact Option.noConfusion h
        | some pr =>
            obtain ⟨ts0, rr0⟩ := pr
            rw [hsq] at h
            have hwl := ihSeq _ _ _ hsq
            cases ts0 with
            | nil => dsimp only at h; exact Option.noConfusion h
            | cons b ix =>
                cases rr0 with
                | nil => dsimp only at h; exact Option.noConfusion h
                | cons c2 r2 =>
                    dsimp only at h
                    by_cases hc2 : c2 = ')'
                    · rw [if_pos hc2] at h
                      cases hix : ix.isEmpty
                      · rw [hix] at h
                        simp only [Bool.false_eq_true, if_false] at h
                        simp only [Option.some.injEq, Prod.mk.injEq] at h
                        obtain ⟨h1, -⟩ := h
                        subst h1
                        simp only [Term.wfList, Bool.and_eq_true] at hwl
                        simp [Term.wf, hwl.1, hwl.2, hix]
                      · rw [hix] at h
                        rw [if_pos rfl] at h
                        exact Option.noConfusion h
                    · rw [if_neg hc2] at h; exact Option.noConfusion h
      · -- pFunK
        intro r1 t r h
        rw [pFunK] at h
        cases hsq : pSeq f r1 with
        | none => rw [hsq] at h; exact Option.noConfusion h
        | some pr =>
            obtain ⟨ts0, rr0⟩ := pr
            rw [hsq] at h
            have hwl := ihSeq _ _ _ hsq
            cases ts0 with
            | nil => dsimp only at h; exact Option.noConfusion h
            | cons g as =>
                cases rr0 with
                | nil => dsimp only at h; exact Option.noConfusion h
                | cons c2 r2 =>
                    dsimp only at h
                    by_cases hc2 : c2 = ')'
                    · rw [if_pos hc2] at h
                      cases has : as.isEmpty
                      · rw [has] at h
                        simp only [Bool.false_eq_true, if_false] at h
                        simp only [Option.some.injEq, Prod.mk.injEq] at h
                        obtain ⟨h1, -⟩ := h
                        subst h1
                        simp only [Term.wfList, Bool.and_eq_true] at hwl
                        simp [Term.wf, hwl.1, hwl.2, has]
                      · rw [has] at h
                        rw [if_pos rfl] at h
                        exact Option.noConfusion h
                    · rw [if_neg hc2] at h; exact Option.noConfusion h
      · -- pUnK
        intro op r2 t r hall h
        rw [pUnK] at h
        cases hemp : op.isEmpty
        · rw [hemp] at h
          simp only [Bool.false_eq_true, if_false] at h
          cases hpt : pTermS f r2 with
          | none => rw [hpt] at h; exact Option.noConfusion h
          | some pr =>
              obtain ⟨u, r3⟩ := pr
              rw [hpt] at h
              dsimp only at h
              cases hs3 : skipSp r3 with
              | nil => rw [hs3] at h; exact Option.noConfusion h
              | cons c3 r4 =>
                  rw [hs3] at h
                  dsimp only at h
                  by_cases hc3 : c3 = ')'
                  · rw [if_pos hc3] at h
                    simp only [Option.some.injEq, Prod.mk.injEq] at h
                    obtain ⟨h1, -⟩ := h
                    subst h1
                    have hu := ihS _ _ _ hpt
                    have hne : op ≠ [] := by
                      intro he; rw [he] at hemp; simp at hemp
                    simp [Term.wf, hu, wfOp_of hne hall]
                  · rw [if_neg hc3] at h; exact Option.noConfusion h
        · rw [hemp] at h
          rw [if_pos rfl] at h
          exact Option.noConfusion h
      · -- pBinK
        intro op r2 t r hall h
        rw [pBinK] at h
        cases hemp : op.isEmpty
        · rw [hemp] at h
          simp only [Bool.false_eq_true, if_false] at h
          cases hpt : pTermS f r2 with
          | none => rw [hpt] at h; exact Option.noConfusion h
          | some pr =>
              obtain ⟨l, r3⟩ := pr
              rw [hpt] at h
              dsimp only at h
              cases hpt2 : pTermS f r3 with
              | none => rw [hpt2] at h; exact Option.noConfusion h
              | some pr2 =>
                  obtain ⟨rt, r4⟩ := pr2
                  rw [hpt2] at h
                  dsimp only at h
                  cases hs4 : skipSp r4 with
                  | nil => rw [hs4] at h; exact Option.noConfusion h
                  | cons c3 r5 =>
                      rw [hs4] at h
                      dsimp only at h
                      by_cases hc3 : c3 = ')'
                      · rw [if_pos hc3] at h
                        simp only [Option.some.injEq, Prod.mk.injEq] at h
                        obtain ⟨h1, -⟩ := h
                        subst h1
                        have hl := ihS _ _ _ hpt
                        have hrt := ihS _ _ _ hpt2
                        have hne : op ≠ [] := by
                          intro he; rw [he] at hemp; simp at hemp
                        simp [Term.wf, hl, hrt, wfOp_of hne hall]
                      · rw [if_neg hc3] at h; exact Option.noConfusion h
        · rw [hemp] at h
          rw [if_pos rfl] at h
          exact Option.noConfusion h
      · -- pSeq
        intro inp ts r h
        rw [pSeq] at h
        cases hs : skipSp inp with
        | nil => rw [hs] at h; exact Option.noConfusion h
        | cons c rr =>
            rw [hs] at h
            dsimp only at h
            by_cases hc : c = ')'
            · rw [if_pos hc] at h
              simp only [Option.some.injEq, Prod.mk.injEq] at h
              obtain ⟨h1, -⟩ := h
              subst h1
              simp [Term.wfList]
            · rw [if_neg hc] at h
              cases hpt : pTermS f (c :: rr) with
              | none => rw [hpt] at h; exact Option.noConfusion h
              | some pr =>
                  obtain ⟨t0, r1⟩ := pr
                  rw [hpt] at h
                  dsimp only at h
                  cases hsq : pSeq f r1 with
                  | none => rw [hsq] at h; exact Option.noConfusion h
                  | some pr2 =>
                      obtain ⟨ts2, r2⟩ := pr2
                      rw [hsq] at h
                      dsimp only at h
                      simp only [Option.some.injEq, Prod.mk.injEq] at h
                      obtain ⟨h1, -⟩ := h
                      subst h1
                      simp [Term.wfList, ihS _ _ _ hpt, ihSeq _ _ _ hsq]

theorem pTermS_wf {f : Nat} {inp r : List Char} {t : Term}
    (h : pTermS f inp = some (t, r)) : t.wf = true :=
  (wfMainS f).1 inp t r h

theorem pRuleS_wf : ∀ {f : Nat} {inp rest : List Char} {ru : Rule},
    pRuleS f inp = some (ru, rest) → Rule.wf ru = true := by
  intro f
  induction f with
  | zero => intro inp rest ru h; simp [pRuleS] at h
  | succ f ih =>
      intro inp rest ru h
      cases inp with
      | nil => rw [pRuleS] at h; exact Option.noConfusion h
      | cons c r =>
          rw [pRuleS] at h
          by_cases hc : c = '-'
          · rw [if_pos hc] at h
            cases hm : munch (fun d => d == '-') (c :: r) with
            | mk dsh r1 =>
                rw [hm] at h
                dsimp only at h
                cases r1 with
                | nil => exact Option.noConfusion h
                | cons c1 r2 =>
                    dsimp only at h
                    by_cases hc1 : c1 = '\n'
                    · rw [if_pos hc1] at h
                      cases hpt : pTermS f r2 with
                      | none => rw [hpt] at h; exact Option.noConfusion h
                      | some pr =>
                          obtain ⟨cl, r3⟩ := pr
                          rw [hpt] at h
                          dsimp only at h
                          have hcl := pTermS_wf hpt
                          cases r3 with
                          | nil =>
                              simp only [Option.some.injEq, Prod.mk.injEq] at h
                              obtain ⟨h1, -⟩ := h
                              subst h1
                              simp [Rule.wf, Term.wfList, hcl]
                          | cons c2 r4 =>
                              dsimp only at h
                              by_cases hc2 : c2 = '\n'
                              · rw [if_pos hc2] at h
                                simp only [Option.some.injEq, Prod.mk.injEq] at h
                                obtain ⟨h1, -⟩ := h
                                subst h1
                                simp [Rule.wf, Term.wfList, hcl]
                              · rw [if_neg hc2] at h; exact Option.noConfusion h
                    · rw [if_neg hc1] at h; exact Option.noConfusion h
          · rw [if_neg hc] at h
            cases hpt : pTermS f (c :: r) with
            | none => rw [hpt] at h; exact Option.noConfusion h
            | some pr =>
                obtain ⟨t, r1⟩ := pr
                rw [hpt] at h
                dsimp only at h
                cases r1 with
                | nil => exact Option.noConfusion h
                | cons c1 r2 =>
                    dsimp only at h
                    by_cases hc1 : c1 = '\n'
                    · rw [if_pos hc1] at h
                      cases hru : pRuleS f r2 with
                      | none => rw [hru] at h; exact Option.noConfusion h
                      | some pr2 =>
                          obtain ⟨ru2, r3⟩ := pr2
                          rw [hru] at h
                          dsimp only at h
                          simp only [Option.some.injEq, Prod.mk.injEq] at h
                          obtain ⟨h1, -⟩ := h
                          subst h1
                          have hru2 := ih hru
                          obtain ⟨hps, hcl⟩ := ruleWf_elim hru2
                          simp [Rule.wf, Term.wfList, pTermS_wf hpt, hps, hcl]
                    · rw [if_neg hc1] at h; exact Option.noConfusion h

theorem pPoolS_wf : ∀ {f : Nat} {inp : List Char} {p : Pool},
    pPoolS f inp = some p → Pool.wf p = true := by
  intro f
  induction f with
  | zero => intro inp p h; simp [pPoolS] at h
  | succ f ih =>
      intro inp p h
      rw [pPoolS] at h
      cases hr : pRuleS f inp with
      | none => rw [hr] at h; exact Option.noConfusion h
      | some pr =>
          obtain ⟨ru, rest⟩ := pr
          rw [hr] at h
          dsimp only at h
          have hru := pRuleS_wf hr
          cases rest with
          | nil =>
              simp only [Option.some.injEq] at h
              subst h
              simp [Pool.wf, hru]
          | cons c r2 =>
              dsimp only at h
              by_cases hc : c = '\n'
              · rw [if_pos hc] at h
                cases r2 with
                | nil => dsimp only at h; exact Option.noConfusion h
                | cons c2 r3 =>
                    dsimp only at h
                    by_cases hc2 : c2 = '\n'
                    · rw [if_pos hc2] at h
                      cases hp2 : pPoolS f r3 with
                      | none => rw [hp2] at h; exact Option.noConfusion h
                      | some rs =>
                          rw [hp2] at h
                          dsimp only at h
                          simp only [Option.some.injEq] at h
                          subst h
                          have hrs := ih hp2
                          simp only [Pool.wf, Bool.and_eq_true,
                            List.all_eq_true] at hrs
                          simp only [Pool.wf, Bool.and_eq_true, List.all_eq_true]
                          refine ⟨by simp, ?_⟩
                          intro x hx
                          rcases List.mem_cons.1 hx with rfl | hx2
                          · exact hru
                          · exact hrs.2 x hx2
                    · rw [if_neg hc2] at h; exact Option.noConfusion h
              · rw [if_neg hc] at h; exact Option.noConfusion h


/-! Newline-freedom of the renders, injectivity of the arrow render on
well-formed pools, and the textual composition facts. -/

theorem ident_ne_nl {c : Char} (h : identChar c = true) : c ≠ '\n' := by
  intro he; subst he; simp [identChar] at h

theorem op_ne_nl {c : Char} (h : opChar c = true) : c ≠ '\n' := by
  intro he; subst he; simp [opChar] at h

theorem nm_cons {a b : Char} {l : List Char} (h1 : a ≠ b) (h2 : a ∉ l) :
    a ∉ b :: l := by
  simp [h1, h2]

theorem nm_app {a : Char} {l1 l2 : List Char} (h1 : a ∉ l1) (h2 : a ∉ l2) :
    a ∉ l1 ++ l2 := by
  simp [h1, h2]

theorem nm_intercal {a : Char} {sep : List Char} {xs : List (List Char)}
    (h1 : a ∉ sep) (h2 : ∀ x ∈ xs, a ∉ x) : a ∉ intercal sep xs := by
  intro hm
  rcases mem_intercal hm with h | ⟨x, hx, hcx⟩
  · exact h1 h
  · exact h2 x hx hcx

mutual

theorem nlA : ∀ t : Term, t.wf = true → '\n' ∉ rendA t
  | .symbol n, h => by
      obtain ⟨c, r, hd, _, hall⟩ := wfName_elim (by simpa [Term.wf] using h)
      rw [rendA]
      exact fun hm => ident_ne_nl (hall _ hm) rfl
  | .subscript b ix, h => by
      have h3 : (b.wf = true ∧ ¬ ix = []) ∧ Term.wfList ix = true := by
        simpa [Term.wf, Bool.and_eq_true] using h
      rw [rendA]
      exact nm_app (nm_app (nlA b h3.1.1)
        (nm_cons (by decide) (nm_intercal (by decide) (nlAList ix h3.2))))
        (by decide)
  | .application g as, h => by
      have h3 : (g.wf = true ∧ ¬ as = []) ∧ Term.wfList as = true := by
        simpa [Term.wf, Bool.and_eq_true] using h
      rw [rendA]
      exact nm_app (nm_app (nlA g h3.1.1)
        (nm_cons (by decide) (nm_intercal (by decide) (nlAList as h3.2))))
        (by decide)
  | .unary op u, h => by
      have h2 : wfOp op = true ∧ u.wf = true := by
        simpa [Term.wf, Bool.and_eq_true] using h
      obtain ⟨_, _, _, _, hall⟩ := wfOp_elim h2.1
      rw [rendA]
      exact nm_app (nm_app (nm_cons (by decide)
          (fun hm => op_ne_nl (hall _ hm) rfl))
        (nm_cons (by decide) (nlA u h2.2))) (by decide)
  | .binary op l r, h => by
      have h2 : wfOp op = true ∧ l.wf = true ∧ r.wf = true := by
        simpa [Term.wf, Bool.and_eq_true, and_assoc] using h
      obtain ⟨_, _, _, _, hall⟩ := wfOp_elim h2.1
      rw [rendA]
      exact nm_app (nm_app (nm_app (nm_cons (by decide) (nlA l h2.2.1))
          (nm_cons (by decide) (fun hm => op_ne_nl (hall _ hm) rfl)))
        (nm_cons (by decide) (nlA r h2.2.2))) (by decide)

theorem nlAList : ∀ ts : List Term, Term.wfList ts = true →
    ∀ x ∈ rendAList ts, '\n' ∉ x
  | [], _ => by intro x hx; rw [rendAList] at hx; cases hx
  | t :: ts, h => by
      have h2 : t.wf = true ∧ Term.wfList ts = true := by
        simpa [Term.wfList, Bool.and_eq_true] using h
      intro x hx
      rw [rendAList] at hx
      rcases List.mem_cons.1 hx with rfl | hx2
      · exact nlA t h2.1
      · exact nlAList ts h2.2 x hx2

end

mutual

theorem nlS : ∀ t : Term, t.wf = true → '\n' ∉ rendS t
  | .symbol n, h => by
      obtain ⟨c, r, hd, _, hall⟩ := wfName_elim (by simpa [Term.wf] using h)
      rw [rendS]
      exact fun hm => ident_ne_nl (hall _ hm) rfl
  | .subscript b ix, h => by
      have h3 : (b.wf = true ∧ ¬ ix = []) ∧ Term.wfList ix = true := by
        simpa [Term.wf, Bool.and_eq_true] using h
      rw [rendS]
      refine nm_app (nm_app (nm_cons (by decide) (by decide))
        (nm_intercal (by decide) ?_)) (by decide)
      intro x hx
      rcases List.mem_cons.1 hx with rfl | hx2
      · exact nlS b h3.1.1
      · exact nlSList ix h3.2 x hx2
  | .application g as, h => by
      have h3 : (g.wf = true ∧ ¬ as = []) ∧ Term.wfList as = true := by
        simpa [Term.wf, Bool.and_eq_true] using h
      rw [rendS]
      refine nm_app (nm_app (nm_cons (by decide) (by decide))
        (nm_intercal (by decide) ?_)) (by decide)
      intro x hx
      rcases List.mem_cons.1 hx with rfl | hx2
      · exact nlS g h3.1.1
      · exact nlSList as h3.2 x hx2
  | .unary op u, h => by
      have h2 : wfOp op = true ∧ u.wf = true := by
        simpa [Term.wf, Bool.and_eq_true] using h
      obtain ⟨_, _, _, _, hall⟩ := wfOp_elim h2.1
      rw [rendS]
      exact nm_app (nm_app (nm_app (nm_cons (by decide) (by decide))
          (fun hm => op_ne_nl (hall _ hm) rfl))
        (nm_cons (by decide) (nlS u h2.2))) (by decide)
  | .binary op l r, h => by
      have h2 : wfOp op = true ∧ l.wf = true ∧ r.wf = true := by
        simpa [Term.wf, Bool.and_eq_true, and_assoc] using h
      obtain ⟨_, _, _, _, hall⟩ := wfOp_elim h2.1
      rw [rendS]
      exact nm_app (nm_app (nm_app (nm_app (nm_cons (by decide) (by decide))
          (fun hm => op_ne_nl (hall _ hm) rfl))
        (nm_cons (by decide) (nlS l h2.2.1)))
        (nm_cons (by decide) (nlS r h2.2.2))) (by decide)

theorem nlSList : ∀ ts : List Term, Term.wfList ts = true →
    ∀ x ∈ rendSList ts, '\n' ∉ x
  | [], _ => by intro x hx; rw [rendSList] at hx; cases hx
  | t :: ts, h => by
      have h2 : t.wf = true ∧ Term.wfList ts = true := by
        simpa [Term.wfList, Bool.and_eq_true] using h
      intro x hx
      rw [rendSList] at hx
      rcases List.mem_cons.1 hx with rfl | hx2
      · exact nlS t h2.1
      · exact nlSList ts h2.2 x hx2

end

theorem rendRuleA_nl {ru : Rule} (hwf : Rule.wf ru = true) :
    '\n' ∉ rendRuleA ru := by
  obtain ⟨hps, hc⟩ := ruleWf_elim hwf
  rw [rendRuleA]
  exact nm_app (nm_intercal (by decide) (nlAList ru.premises hps))
    (nm_cons (by decide) (nm_cons (by decide) (nm_cons (by decide)
      (nm_cons (by decide) (nlA ru.concl hc)))))

theorem splitNl_no : ∀ {xs : List Char}, '\n' ∉ xs → splitNl xs = [xs]
  | [], _ => rfl
  | c :: r, h => by
      have hc : c ≠ '\n' := fun he => h (he ▸ List.mem_cons_self c r)
      have hr : '\n' ∉ r := fun hm => h (List.mem_cons_of_mem c hm)
      rw [splitNl, if_neg hc, splitNl_no hr]

theorem splitNl_app : ∀ {xs : List Char} (ys : List Char), '\n' ∉ xs →
    splitNl (xs ++ '\n' :: ys) = xs :: splitNl ys
  | [], ys, _ => by simp [splitNl]
  | c :: r, ys, h => by
      have hc : c ≠ '\n' := fun he => h (he ▸ List.mem_cons_self c r)
      have hr : '\n' ∉ r := fun hm => h (List.mem_cons_of_mem c hm)
      rw [List.cons_append, splitNl, if_neg hc, splitNl_app ys hr]

theorem append_nl_inj : ∀ {xs xs' ys ys' : List Char}, '\n' ∉ xs →
    '\n' ∉ xs' → xs ++ '\n' :: ys = xs' ++ '\n' :: ys' →
    xs = xs' ∧ ys = ys' := by
  intro xs
  induction xs with
  | nil =>
      intro xs' ys ys' _ h2 he
      cases xs' with
      | nil => simpa using he
      | cons a t =>
          simp only [List.nil_append, List.cons_append, List.cons.injEq] at he
          exact absurd (he.1 ▸ List.mem_cons_self a t) h2
  | cons c r ih =>
      intro xs' ys ys' h1 h2 he
      cases xs' with
      | nil =>
          simp only [List.nil_append, List.cons_append, List.cons.injEq] at he
          exact absurd (he.1.symm ▸ List.mem_cons_self c r) h1
      | cons a t =>
          simp only [List.cons_append, List.cons.injEq] at he
          have hr : '\n' ∉ r := fun hm => h1 (List.mem_cons_of_mem c hm)
          have ht : '\n' ∉ t := fun hm => h2 (List.mem_cons_of_mem a hm)
          obtain ⟨h3, h4⟩ := ih hr ht he.2
          exact ⟨by rw [he.1, h3], h4⟩

theorem termInjA {c1 c2 : Term} (h1 : c1.wf = true) (h2 : c2.wf = true)
    (he : rendA c1 = rendA c2) : c1 = c2 := by
  have ha := @termRT_A c1 [] (4 * c1.size + 4 * c2.size + 1)
    h1 trivial (by omega)
  have hb := @termRT_A c2 [] (4 * c1.size + 4 * c2.size + 1)
    h2 trivial (by omega)
  rw [he] at ha
  rw [ha] at hb
  simpa using hb

theorem rendRuleA_cons_decomp (q : Term) (qs : List Term) (c : Term) :
    ∃ tail, rendRuleA ⟨q :: qs, c⟩ = rendA q ++ tail := by
  cases qs with
  | nil =>
      refine ⟨' ' :: '-' :: '>' :: ' ' :: rendA c, ?_⟩
      simp [rendRuleA, rendAList, intercal]
  | cons q2 qs2 =>
      refine ⟨[',', ' '] ++ intercal [',', ' '] (rendAList (q2 :: qs2)) ++
        ' ' :: '-' :: '>' :: ' ' :: rendA c, ?_⟩
      rw [rendRuleA]
      rw [show rendAList (q :: q2 :: qs2) = rendA q :: rendAList (q2 :: qs2) from by
        rw [rendAList]]
      rw [intercal_cons (by rw [rendAList]; simp)]
      simp

theorem rendRuleA_head_ne_space {ru : Rule} (hwf : Rule.wf ru = true)
    (hne : ru.premises ≠ []) :
    ∃ d tail, rendRuleA ru = d :: tail ∧ d ≠ ' ' := by
  obtain ⟨hps, _⟩ := ruleWf_elim hwf
  obtain ⟨ps, c⟩ := ru
  cases ps with
  | nil => exact absurd rfl hne
  | cons q qs =>
      have hq : q.wf = true := by
        simp only [Term.wfList, Bool.and_eq_true] at hps
        exact hps.1
      obtain ⟨d, rr, hd, hcl⟩ := rendA_head q hq
      obtain ⟨tail, htail⟩ := rendRuleA_cons_decomp q qs c
      refine ⟨d, rr ++ tail, by rw [htail, hd]; simp, ?_⟩
      rcases hcl with hi | he
      · exact not_space_of_ident hi
      · rw [he]; decide

theorem rendRuleA_free {c : Term} :
    rendRuleA ⟨[], c⟩ = ' ' :: '-' :: '>' :: ' ' :: rendA c := by
  simp [rendRuleA, rendAList, intercal]

theorem ruleInjA {ru1 ru2 : Rule} (h1 : Rule.wf ru1 = true)
    (h2 : Rule.wf ru2 = true) (he : rendRuleA ru1 = rendRuleA ru2) :
    ru1 = ru2 := by
  rcases eq_or_ne ru1.premises [] with hp1 | hp1
  · rcases eq_or_ne ru2.premises [] with hp2 | hp2
    · obtain ⟨ps1, c1⟩ := ru1
      obtain ⟨ps2, c2⟩ := ru2
      simp only at hp1 hp2
      subst hp1; subst hp2
      rw [rendRuleA_free, rendRuleA_free] at he
      simp only [List.cons.injEq, true_and] at he
      obtain ⟨hc1, hc2⟩ := ruleWf_elim h1
      obtain ⟨hc1', hc2'⟩ := ruleWf_elim h2
      rw [show c1 = c2 from
        termInjA (show c1.wf = true from hc2) (show c2.wf = true from hc2') he]
    · obtain ⟨d, tail, hd, hds⟩ := rendRuleA_head_ne_space h2 hp2
      obtain ⟨ps1, c1⟩ := ru1
      simp only at hp1
      subst hp1
      rw [rendRuleA_free, hd] at he
      simp only [List.cons.injEq] at he
      exact absurd he.1.symm hds
  · rcases eq_or_ne ru2.premises [] with hp2 | hp2
    · obtain ⟨d, tail, hd, hds⟩ := rendRuleA_head_ne_space h1 hp1
      obtain ⟨ps2, c2⟩ := ru2
      simp only at hp2
      subst hp2
      rw [rendRuleA_free, hd] at he
      simp only [List.cons.injEq] at he
      exact absurd he.1 hds
    · have ha := @ruleRT_A ru1.premises ru1.concl []
        (ruleMA ru1 + ruleMA ru2 + 1) (by simpa using h1) hp1
        (Or.inl rfl) (by
          have he1 : ruleMA ⟨ru1.premises, ru1.concl⟩ = ruleMA ru1 := rfl
          omega)
      have hb := @ruleRT_A ru2.premises ru2.concl []
        (ruleMA ru1 + ruleMA ru2 + 1) (by simpa using h2) hp2
        (Or.inl rfl) (by
          have he2 : ruleMA ⟨ru2.premises, ru2.concl⟩ = ruleMA ru2 := rfl
          omega)
      rw [show (⟨ru1.premises, ru1.concl⟩ : Rule) = ru1 from rfl] at ha
      rw [show (⟨ru2.premises, ru2.concl⟩ : Rule) = ru2 from rfl] at hb
      rw [he] at ha
      rw [ha] at hb
      simpa using hb

theorem rendPoolA_inj : ∀ {p1 p2 : Pool}, (∀ ru ∈ p1, Rule.wf ru = true) →
    (∀ ru ∈ p2, Rule.wf ru = true) → p1 ≠ [] → p2 ≠ [] →
    rendPoolA p1 = rendPoolA p2 → p1 = p2 := by
  intro p1
  induction p1 with
  | nil => intro p2 _ _ hne _ _; exact absurd rfl hne
  | cons ru1 p1' ih =>
      intro p2 hw1 hw2 _ hne2 he
      cases p2 with
      | nil => exact absurd rfl hne2
      | cons ru2 p2' =>
          rcases eq_or_ne p1' [] with hp1 | hp1
          · rcases eq_or_ne p2' [] with hp2 | hp2
            · subst hp1; subst hp2
              have h1 : rendPoolA [ru1] = rendRuleA ru1 := by
                simp [rendPoolA, intercal]
              have h2 : rendPoolA [ru2] = rendRuleA ru2 := by
                simp [rendPoolA, intercal]
              rw [h1, h2] at he
              rw [ruleInjA (hw1 ru1 (by simp)) (hw2 ru2 (by simp)) he]
            · subst hp1
              rw [show rendPoolA [ru1] = rendRuleA ru1 from by
                simp [rendPoolA, intercal], rendPoolA_cons hp2] at he
              have : '\n' ∈ rendRuleA ru1 := by
                rw [he]
                exact List.mem_append.2 (Or.inr (by simp))
              exact absurd this (rendRuleA_nl (hw1 ru1 (by simp)))
          · rcases eq_or_ne p2' [] with hp2 | hp2
            · subst hp2
              rw [show rendPoolA [ru2] = rendRuleA ru2 from by
                simp [rendPoolA, intercal], rendPoolA_cons hp1] at he
              have : '\n' ∈ rendRuleA ru2 := by
                rw [← he]
                exact List.mem_append.2 (Or.inr (by simp))
              exact absurd this (rendRuleA_nl (hw2 ru2 (by simp)))
            · rw [rendPoolA_cons hp1, rendPoolA_cons hp2] at he
              obtain ⟨hr, hp⟩ := append_nl_inj (rendRuleA_nl (hw1 ru1 (by simp)))
                (rendRuleA_nl (hw2 ru2 (by simp))) he
              rw [ruleInjA (hw1 ru1 (by simp)) (hw2 ru2 (by simp)) hr,
                ih (fun r hr2 => hw1 r (by simp [hr2]))
                  (fun r hr2 => hw2 r (by simp [hr2])) hp1 hp2 hp]

theorem unparse_rend {p : Pool} (hwf : Pool.wf p = true) :
    unparse (String.mk (rendPoolS p)) = some (String.mk (rendPoolA p)) := by
  rw [unparse, parsePoolS_rend hwf]
  rfl

theorem parse_rend {p : Pool} (hwf : Pool.wf p = true)
    (hne : ∀ ru ∈ p, ru.premises ≠ []) :
    parse (String.mk (rendPoolA p)) = some (String.mk (rendPoolS p)) := by
  rw [parse, parsePoolA_rend hwf hne]
  rfl

theorem candLine_eq {c : Pool} (hwf : Pool.wf c = true) :
    candLine c = String.mk (rendPoolA c) := by
  rw [candLine, unparse_rend hwf]
  rfl


/-! The session invariant, the search pass, snapshot lookup, and the
line decomposition of the stacked renders. -/



theorem contains_false_of_not_mem {α : Type} [BEq α] [LawfulBEq α] {l : List α}
    {a : α} (h : a ∉ l) : l.contains a = false := by
  rw [← Bool.not_eq_true]
  show ¬ l.elem a = true
  rw [List.elem_iff]
  exact h

theorem not_mem_of_contains_false {α : Type} [BEq α] [LawfulBEq α] {l : List α}
    {a : α} (h : l.contains a = false) : a ∉ l := by
  rw [← Bool.not_eq_true] at h
  rw [show l.contains a = l.elem a from rfl, List.elem_iff] at h
  exact h

theorem insertLine_not_mem {ls : List String} {s : String} (h : s ∉ ls) :
    insertLine ls s = ls ++ [s] := by
  rw [insertLine, if_neg]
  rw [contains_false_of_not_mem h]
  simp

theorem mem_insertLine {ls : List String} {s e : String}
    (h : e ∈ insertLine ls s) : e ∈ ls ∨ e = s := by
  rw [insertLine] at h
  by_cases hc : ls.contains s = true
  · rw [if_pos hc] at h; exact Or.inl h
  · rw [if_neg hc] at h
    rcases List.mem_append.1 h with h1 | h2
    · exact Or.inl h1
    · exact Or.inr (by simpa using h2)

theorem mem_foldl_insert : ∀ {out : List String} {ls : List String} {e : String},
    e ∈ out.foldl insertLine ls → e ∈ ls ∨ e ∈ out := by
  intro out
  induction out with
  | nil => intro ls e h; exact Or.inl h
  | cons o out' ih =>
      intro ls e h
      rw [List.foldl_cons] at h
      rcases ih h with h1 | h2
      · rcases mem_insertLine h1 with h3 | h4
        · exact Or.inl h3
        · exact Or.inr (by simp [h4])
      · exact Or.inr (by simp [h2])

theorem foldl_insert_append : ∀ {out : List String} {ls : List String},
    out.Nodup → (∀ l ∈ out, l ∉ ls) → out.foldl insertLine ls = ls ++ out := by
  intro out
  induction out with
  | nil => intro ls _ _; simp
  | cons o out' ih =>
      intro ls hnd hfr
      rw [List.foldl_cons, insertLine_not_mem (hfr o (by simp))]
      rw [ih (List.Nodup.of_cons hnd) ?_]
      · simp
      · intro l hl
        intro hmem
        rcases List.mem_append.1 hmem with h1 | h2
        · exact hfr l (by simp [hl]) h1
        · have : l = o := by simpa using h2
          subst this
          exact (List.nodup_cons.1 hnd).1 hl

theorem searchAdd_seen_mono {e : EngineState} {line : String} {q : Pool}
    (h : q ∈ e.seen) : q ∈ (searchAdd e line).2.seen := by
  rw [searchAdd]
  cases hp : parse line with
  | none => exact h
  | some u =>
      dsimp only
      cases hadd : engineAddText e u with
      | mk ok e2 =>
          have he2 : q ∈ e2.seen := by
            rw [engineAddText] at hadd
            cases hq : parsePoolS u with
            | none => rw [hq] at hadd; cases hadd; exact h
            | some p =>
                rw [hq] at hadd
                dsimp only at hadd
                rw [engineAdd] at hadd
                by_cases hc : e.seen.contains p = true
                · rw [if_pos hc] at hadd; cases hadd; exact h
                · rw [if_neg hc] at hadd
                  by_cases hf : e.fits p = true
                  · rw [if_pos hf] at hadd
                    cases hadd
                    exact List.mem_cons_of_mem p h
                  · rw [if_neg hf] at hadd; cases hadd; exact h
          cases ok
          · simpa using he2
          · simpa using he2

theorem searchAdd_truthy {e : EngineState} {line : String} {v : Option String}
    {e' : EngineState} (hsa : searchAdd e line = (v, e'))
    (ht : truthy v = true) :
    ∃ q, parsePoolA line = some q ∧ Pool.wf q = true ∧
      ((parse line).bind unparse).getD "" = String.mk (rendPoolA q) ∧
      e'.seen = q :: e.seen := by
  cases hp : parse line with
  | none =>
      rw [searchAdd, hp] at hsa
      cases hsa
      simp [truthy] at ht
  | some u =>
      rw [searchAdd, hp] at hsa
      dsimp only at hsa
      cases hadd : engineAddText e u with
      | mk ok e2 =>
          rw [hadd] at hsa
          dsimp only at hsa
          cases ok with
          | false =>
              rw [if_neg (by simp)] at hsa
              cases hsa
              simp [truthy] at ht
          | true =>
              rw [if_pos rfl] at hsa
              have hp0 := hp
              cases hq : parsePoolA line with
              | none => rw [parse, hq] at hp; exact Option.noConfusion hp
              | some q =>
                  rw [parse, hq] at hp
                  have hu : u = String.mk (rendPoolS q) := by
                    simpa using hp.symm
                  subst hu
                  have hwf : Pool.wf q = true := pPoolA_wf hq
                  rw [engineAddText, parsePoolS_rend hwf] at hadd
                  dsimp only at hadd
                  rw [engineAdd] at hadd
                  by_cases hc : e.seen.contains q = true
                  · rw [if_pos hc] at hadd; exact absurd hadd (by simp)
                  · rw [if_neg hc] at hadd
                    by_cases hf : e.fits q = true
                    · rw [if_pos hf] at hadd
                      have he2 : e2 = { e with seen := q :: e.seen } := by
                        cases hadd; rfl
                      cases hsa
                      refine ⟨q, rfl, hwf, ?_, by rw [he2]⟩
                      rw [show (some (String.mk (rendPoolS q))).bind unparse =
                        unparse (String.mk (rendPoolS q)) from rfl]
                      rw [unparse_rend hwf]
                      rfl
                    · rw [if_neg hf] at hadd; exact absurd hadd (by simp)

theorem addLineStep_inv {s : Session} {line : String}
    (h : ∀ e ∈ s.lines, ∃ p, Pool.wf p = true ∧ p ∈ s.engine.seen ∧
      e = String.mk (rendPoolA p)) :
    ∀ e ∈ (addLineStep s line).lines, ∃ p, Pool.wf p = true ∧
      p ∈ (addLineStep s line).engine.seen ∧ e = String.mk (rendPoolA p) := by
  intro e he
  rw [addLineStep] at he ⊢
  dsimp only at he ⊢
  by_cases ht : truthy (searchAdd s.engine line).1 = true
  · rw [if_pos ht] at he ⊢
    dsimp only at he ⊢
    obtain ⟨q, hq, hwf, hval, hseen⟩ :=
      @searchAdd_truthy s.engine line _ _ rfl ht
    rcases mem_insertLine he with h1 | h2
    · obtain ⟨p, hpwf, hpseen, hpe⟩ := h e h1
      exact ⟨p, hpwf, searchAdd_seen_mono hpseen, hpe⟩
    · refine ⟨q, hwf, ?_, by rw [h2, hval]⟩
      have hs2 : (searchAdd s.engine line).2.seen = q :: s.engine.seen := hseen
      rw [hs2]
      simp
  · rw [if_neg ht] at he ⊢
    dsimp only at he ⊢
    obtain ⟨p, hpwf, hpseen, hpe⟩ := h e he
    exact ⟨p, hpwf, searchAdd_seen_mono hpseen, hpe⟩

theorem addLines_inv {batch : List String} : ∀ {s : Session},
    (∀ e ∈ s.lines, ∃ p, Pool.wf p = true ∧ p ∈ s.engine.seen ∧
      e = String.mk (rendPoolA p)) →
    ∀ e ∈ (addLines s batch).lines, ∃ p, Pool.wf p = true ∧
      p ∈ (addLines s batch).engine.seen ∧ e = String.mk (rendPoolA p) := by
  induction batch with
  | nil => intro s h; exact h
  | cons b batch ih =>
      intro s h
      rw [addLines, List.foldl_cons]
      exact ih (addLineStep_inv h)

theorem candLine_inj {c1 c2 : Pool} (h1 : Pool.wf c1 = true)
    (h2 : Pool.wf c2 = true) (he : candLine c1 = candLine c2) : c1 = c2 := by
  rw [candLine_eq h1, candLine_eq h2] at he
  have he2 : rendPoolA c1 = rendPoolA c2 := congrArg String.data he
  exact rendPoolA_inj (poolWf_elim h1).2 (poolWf_elim h2).2
    (poolWf_elim h1).1 (poolWf_elim h2).1 he2

theorem runSearch_inv {s : Session} {cands : List Pool}
    (h : ∀ e ∈ s.lines, ∃ p, Pool.wf p = true ∧ p ∈ s.engine.seen ∧
      e = String.mk (rendPoolA p))
    (hok : EngineOk s.engine cands) :
    ∀ e ∈ (runSearch s cands).2.lines, ∃ p, Pool.wf p = true ∧
      p ∈ (runSearch s cands).2.engine.seen ∧ e = String.mk (rendPoolA p) := by
  intro e he
  rw [runSearch] at he ⊢
  dsimp only at he ⊢
  rcases mem_foldl_insert he with h1 | h2
  · obtain ⟨p, hpwf, hpseen, hpe⟩ := h e h1
    exact ⟨p, hpwf, List.mem_append.2 (Or.inr hpseen), hpe⟩
  · obtain ⟨c, hc, hce⟩ := List.mem_map.1 h2
    obtain ⟨hcwf, -⟩ := hok.2 c hc
    exact ⟨c, hcwf, List.mem_append.2 (Or.inl hc), by rw [← hce, candLine_eq hcwf]⟩

theorem reach_inv {s : Session} (h : Reach s) :
    ∀ e ∈ s.lines, ∃ p, Pool.wf p = true ∧ p ∈ s.engine.seen ∧
      e = String.mk (rendPoolA p) := by
  induction h with
  | created limit fits => intro e he; cases he
  | added s batch _ ih => exact addLines_inv ih
  | searched s cands _ hok ih => exact runSearch_inv ih hok

theorem runSearch_out {s : Session} {cands : List Pool}
    (hinv : ∀ e ∈ s.lines, ∃ p, Pool.wf p = true ∧ p ∈ s.engine.seen ∧
      e = String.mk (rendPoolA p))
    (hok : EngineOk s.engine cands) :
    (runSearch s cands).1 = cands.map candLine ∧
    (runSearch s cands).1.Nodup ∧
    (∀ l ∈ (runSearch s cands).1, l ∉ s.lines) ∧
    (runSearch s cands).2.lines = s.lines ++ (runSearch s cands).1 ∧
    (runSearch s cands).2.engine.seen = cands ++ s.engine.seen := by
  obtain ⟨hnd, hcand⟩ := hok
  have hout1 : (runSearch s cands).1 = cands.map candLine := rfl
  have hnd2 : (cands.map candLine).Nodup := by
    refine List.Nodup.map_on ?_ hnd
    intro x hx y hy hxy
    exact candLine_inj (hcand x hx).1 (hcand y hy).1 hxy
  have hfr : ∀ l ∈ cands.map candLine, l ∉ s.lines := by
    intro l hl hmem
    obtain ⟨c, hc, hce⟩ := List.mem_map.1 hl
    obtain ⟨p, hpwf, hpseen, hpe⟩ := hinv l hmem
    obtain ⟨hcwf, hcnew⟩ := hcand c hc
    rw [← hce, candLine_eq hcwf] at hpe
    have he2 : rendPoolA c = rendPoolA p := congrArg String.data hpe
    have : c = p := rendPoolA_inj (poolWf_elim hcwf).2 (poolWf_elim hpwf).2
      (poolWf_elim hcwf).1 (poolWf_elim hpwf).1 he2
    exact hcnew (this ▸ hpseen)
  refine ⟨hout1, by rw [hout1]; exact hnd2, by rw [hout1]; exact hfr, ?_, rfl⟩
  show (cands.map candLine).foldl insertLine s.lines = s.lines ++ (runSearch s cands).1
  rw [foldl_insert_append hnd2 hfr, hout1]

theorem addLineStep_bad {s : Session} {bad : String} (h : parse bad = none) :
    addLineStep s bad = s := by
  rw [addLineStep]
  have h0 : searchAdd s.engine bad = (none, s.engine) := by
    rw [searchAdd, h]
  rw [h0]
  dsimp only
  rw [if_neg (by simp [truthy])]

theorem addLines_skip_bad {s : Session} {l1 l2 : List String} {bad : String}
    (h : parse bad = none) :
    addLines s (l1 ++ bad :: l2) = addLines s (l1 ++ l2) := by
  rw [addLines, addLines, List.foldl_append, List.foldl_append, List.foldl_cons,
    addLineStep_bad h]

theorem Table.find_set_self : ∀ (t : Table) (id : String) (s : Session),
    (Table.set t id s).find id = some s := by
  intro t
  induction t with
  | nil => intro id s; simp [Table.set, Table.find, List.lookup]
  | cons kv rest ih =>
      intro id s
      obtain ⟨k, v⟩ := kv
      rw [Table.set]
      by_cases hk : k = id
      · rw [if_pos hk]
        simp [Table.find, List.lookup]
      · rw [if_neg hk]
        rw [Table.find, List.lookup]
        have : (id == k) = false := by
          simp only [beq_eq_false_iff_ne, ne_eq]
          exact fun he => hk he.symm
        rw [this]
        exact ih id s

theorem Table.find_set_ne : ∀ (t : Table) (id id2 : String) (s : Session),
    id2 ≠ id → (Table.set t id s).find id2 = t.find id2 := by
  intro t
  induction t with
  | nil =>
      intro id id2 s hne
      rw [Table.set, Table.find, List.lookup]
      have : (id2 == id) = false := by simpa using hne
      rw [this]
      rfl
  | cons kv rest ih =>
      intro id id2 s hne
      obtain ⟨k, v⟩ := kv
      rw [Table.set]
      by_cases hk : k = id
      · rw [if_pos hk]
        subst hk
        rw [Table.find, List.lookup]
        have h1 : (id2 == k) = false := by simpa using hne
        rw [h1]
        rw [Table.find, List.lookup, h1]
      · rw [if_neg hk]
        rw [Table.find, List.lookup, Table.find, List.lookup]
        by_cases h2 : (id2 == k) = true
        · rw [h2]
        · rw [Bool.not_eq_true] at h2
          rw [h2]
          exact ih id id2 s hne

theorem find_foldl_set_absent {fits : Pool → Bool} :
    ∀ (es : List SnapEntry) (t : Table) (id : String),
    id ∉ es.map SnapEntry.id →
    (es.foldl (fun t e => t.set e.id (restoreEntry fits e)) t).find id =
      t.find id := by
  intro es
  induction es with
  | nil => intro t id _; rfl
  | cons e0 es ih =>
      intro t id hid
      rw [List.foldl_cons]
      rw [ih _ _ (fun hm => hid (by simp [hm]))]
      exact Table.find_set_ne _ _ _ _ (fun he => hid (by simp [he]))

theorem find_restore {fits : Pool → Bool} :
    ∀ (es : List SnapEntry) (t : Table) (e : SnapEntry), e ∈ es →
    (es.map SnapEntry.id).Nodup →
    (es.foldl (fun t e => t.set e.id (restoreEntry fits e)) t).find e.id =
      some (restoreEntry fits e) := by
  intro es
  induction es with
  | nil => intro t e hmem; cases hmem
  | cons e0 es ih =>
      intro t e hmem hnd
      rw [List.foldl_cons]
      rw [List.map_cons] at hnd
      rcases List.mem_cons.1 hmem with rfl | hmem2
      · have hid : e.id ∉ es.map SnapEntry.id := (List.nodup_cons.1 hnd).1
        rw [find_foldl_set_absent es _ _ hid]
        exact Table.find_set_self _ _ _
      · exact ih _ e hmem2 (List.Nodup.of_cons hnd)

theorem rendSList_eq_map : ∀ ts : List Term, rendSList ts = ts.map rendS
  | [] => rfl
  | t :: ts => by rw [rendSList, List.map_cons, rendSList_eq_map ts]

theorem nl_not_mem_replicate {d : Nat} : '\n' ∉ List.replicate d '-' := by
  intro hm
  have := List.eq_of_mem_replicate hm
  exact absurd this (by decide)

theorem splitNl_premises : ∀ (ps : List Term), Term.wfList ps = true → ps ≠ [] →
    ∀ Z : List Char,
    splitNl (intercal ['\n'] (rendSList ps) ++ '\n' :: Z) =
      ps.map rendS ++ splitNl Z := by
  intro ps
  induction ps with
  | nil => intro _ hne _; exact absurd rfl hne
  | cons q qs ih =>
      intro hwf _ Z
      have h2 : q.wf = true ∧ Term.wfList qs = true := by
        simpa [Term.wfList, Bool.and_eq_true] using hwf
      rcases eq_or_ne qs [] with hqs | hne2
      · subst hqs
        rw [show rendSList [q] = [rendS q] from rfl]
        rw [show intercal ['\n'] [rendS q] = rendS q from rfl]
        rw [splitNl_app Z (nlS q h2.1)]
        simp
      · rw [show rendSList (q :: qs) = rendS q :: rendSList qs from by
          rw [rendSList]]
        rw [intercal_cons (rendSList_ne_nil hne2)]
        rw [show (rendS q ++ ['\n']) ++ intercal ['\n'] (rendSList qs) ++ '\n' :: Z =
          rendS q ++ '\n' :: (intercal ['\n'] (rendSList qs) ++ '\n' :: Z) from by
          simp]
        rw [splitNl_app _ (nlS q h2.1)]
        rw [ih h2.2 hne2 Z]
        simp


/-! The claims. -/



theorem no_premise_free {p : Pool} (h : hasPremFree p = false) :
    ∀ ru ∈ p, ru.premises ≠ [] := by
  rw [hasPremFree, List.any_eq_false] at h
  intro ru hru he
  have := h ru hru
  rw [he] at this
  simp at this

/-- C1: in every session reachable from creation by any interleaving of
add-lines batches and search passes, the known-line set never holds two
distinct entries that read back as structurally equal pools: line texts
with the same parse are the same text. -/
theorem c1_no_structural_duplicates {s : Session} {e1 e2 : String}
    {p1 p2 : Pool} (h : Reach s) (h1 : e1 ∈ s.lines) (h2 : e2 ∈ s.lines)
    (hp1 : parsePoolA e1 = some p1) (hp2 : parsePoolA e2 = some p2)
    (heq : p1 = p2) : e1 = e2 := by
  obtain ⟨q1, hw1, -, he1⟩ := reach_inv h e1 h1
  obtain ⟨q2, hw2, -, he2⟩ := reach_inv h e2 h2
  by_cases hb1 : ∃ ru ∈ q1, ru.premises = []
  · rw [he1, parsePoolA_rend_none hw1 hb1] at hp1
    exact Option.noConfusion hp1
  · by_cases hb2 : ∃ ru ∈ q2, ru.premises = []
    · rw [he2, parsePoolA_rend_none hw2 hb2] at hp2
      exact Option.noConfusion hp2
    · have hn1 : ∀ ru ∈ q1, ru.premises ≠ [] := by
        intro ru hru he; exact hb1 ⟨ru, hru, he⟩
      have hn2 : ∀ ru ∈ q2, ru.premises ≠ [] := by
        intro ru hru he; exact hb2 ⟨ru, hru, he⟩
      rw [he1, parsePoolA_rend hw1 hn1] at hp1
      rw [he2, parsePoolA_rend hw2 hn2] at hp2
      have hq1 : q1 = p1 := by simpa using hp1
      have hq2 : q2 = p2 := by simpa using hp2
      rw [he1, he2, hq1, hq2, heq]

theorem c1_witness :
    Reach (addLines ⟨1, engineInit 1 1 (fun _ => true), []⟩ ["a -> b"]) ∧
    "a -> b" ∈ (addLines ⟨1, engineInit 1 1 (fun _ => true), []⟩ ["a -> b"]).lines ∧
    parsePoolA "a -> b" = some [⟨[.symbol "a"], .symbol "b"⟩] ∧
    ("a -> b" : String) = "a -> b" := by
  have hmem : "a -> b" ∈ (addLines
      (⟨1, engineInit 1 1 (fun _ => true), []⟩ : Session) ["a -> b"]).lines := by
    decide
  exact ⟨Reach.added _ _ (Reach.created 1 (fun _ => true)), hmem, rfl,
    c1_no_structural_duplicates
      (Reach.added _ _ (Reach.created 1 (fun _ => true)))
      hmem hmem rfl rfl rfl⟩

/-- C2 (amended): the translator round trip is stable for texts whose
parsed pool has no premise-free rule — parse, unparse, parse again agrees
with the first parse, and the canonical-side composite likewise returns to
the first unparse.  (The restriction is forced: a premise-free rule
renders with a spurious leading arrow that does not read back.) -/
theorem c2_round_trip {d c : String} {p q : Pool}
    (hd : parsePoolA d = some p) (hnf : hasPremFree p = false)
    (hc : parsePoolS c = some q) (hnfq : hasPremFree q = false) :
    reparse d = parse d ∧
    ((unparse c).bind parse).bind unparse = unparse c := by
  have hwp : Pool.wf p = true := pPoolA_wf hd
  have hwq : Pool.wf q = true := pPoolS_wf hc
  constructor
  · rw [reparse, parse, hd]
    dsimp only [Option.map]
    rw [show (some (String.mk (rendPoolS p))).bind unparse =
      unparse (String.mk (rendPoolS p)) from rfl]
    rw [unparse_rend hwp]
    rw [show (some (String.mk (rendPoolA p))).bind parse =
      parse (String.mk (rendPoolA p)) from rfl]
    rw [parse_rend hwp (no_premise_free hnf)]
  · rw [unparse, hc]
    dsimp only [Option.map]
    rw [show (some (String.mk (rendPoolA q))).bind parse =
      parse (String.mk (rendPoolA q)) from rfl]
    rw [parse_rend hwq (no_premise_free hnfq)]
    rw [show (some (String.mk (rendPoolS q))).bind unparse =
      unparse (String.mk (rendPoolS q)) from rfl]
    rw [unparse_rend hwq]

theorem c2_witness :
    parsePoolA "a -> b" = some [⟨[.symbol "a"], .symbol "b"⟩] ∧
    hasPremFree [(⟨[.symbol "a"], .symbol "b"⟩ : Rule)] = false ∧
    parsePoolS "a\n----\nb" = some [⟨[.symbol "a"], .symbol "b"⟩] ∧
    reparse "a -> b" = parse "a -> b" :=
  ⟨rfl, rfl, rfl,
   (c2_round_trip (d := "a -> b") (c := "a\n----\nb")
     (p := [⟨[.symbol "a"], .symbol "b"⟩])
     (q := [⟨[.symbol "a"], .symbol "b"⟩]) rfl rfl rfl rfl).1⟩

theorem c2_counterexample :
    parse "a" = some "----\na" ∧
    (parse "a").bind unparse = some " -> a" ∧
    reparse "a" = none ∧
    reparse "a" ≠ parse "a" :=
  ⟨rfl, rfl, rfl, by decide⟩

/-- C3: contrary to the spec, a premise-free rule does not render as just
its conclusion in the arrow notation: the renderer keeps the arrow token
and its leading separator, producing an arrow line with a leading space. -/
theorem c3_zero_premise_keeps_arrow :
    String.mk (rendRuleA ⟨[], .symbol "a"⟩) = " -> a" ∧
    unparse "----\na" = some " -> a" ∧
    (" -> a" : String) ≠ "a" :=
  ⟨rfl, rfl, by decide⟩

/-- C4: a line of an add-lines batch whose text does not parse is silently
skipped: the batch behaves exactly as the batch without it, and the
handler still answers ok. -/
theorem c4_bad_line_skipped {s : Session} {l1 l2 : List String} {bad : String}
    (h : parse bad = none) :
    addLinesHandler s (l1 ++ bad :: l2) = (Resp.ok, addLines s (l1 ++ l2)) := by
  rw [addLinesHandler, addLines_skip_bad h]

theorem c4_witness :
    parse "((" = none ∧
    addLinesHandler ⟨1, engineInit 1 1 (fun _ => true), []⟩
        (["a -> b"] ++ "((" :: ["b -> c"]) =
      (Resp.ok, addLines ⟨1, engineInit 1 1 (fun _ => true), []⟩
        (["a -> b"] ++ ["b -> c"])) :=
  ⟨rfl, c4_bad_line_skipped rfl⟩

/-- C5: for a session operation addressed to an unknown id, the delete
handler answers the not-found message when the id is well-formed and the
validation message when it is not, and the two responses differ. -/
theorem c5_notfound_distinct {t : Table} {id : String}
    (hfind : t.find id = none) :
    deleteHandler t id = ((if isUUID id then notFoundErr else uuidErr), t) ∧
    uuidErr ≠ notFoundErr := by
  constructor
  · rw [deleteHandler]
    by_cases hu : isUUID id = true
    · rw [hu]
      rw [if_neg (by simp)]
      rw [hfind]
      rw [if_pos rfl]
    · rw [Bool.not_eq_true] at hu
      rw [hu]
      rw [if_pos (by simp)]
      rw [if_neg (by simp)]
  · decide

theorem c5_witness :
    Table.find [] "x" = none ∧
    (deleteHandler [] "x" = ((if isUUID "x" then notFoundErr else uuidErr), []) ∧
     uuidErr ≠ notFoundErr) :=
  ⟨rfl, c5_notfound_distinct rfl⟩

/-- C6: session creation rejects exactly the non-positive and non-integral
limits with the invalid-argument response, and on a positive integral
limit stores a fresh session whose engine carries both bounds equal to
the limit. -/
theorem c6_create_limit_validation {t : Table} {fid : String}
    {fits : Pool → Bool} (n : Int) :
    createHandler t (.intVal n) fid fits =
      (if 1 ≤ n then (Resp.okId fid, t.set fid ⟨n, engineInit n n fits, []⟩)
       else (limitErr, t)) ∧
    createHandler t .otherVal fid fits = (limitErr, t) := by
  constructor
  · rw [createHandler]
  · rfl

/-- C7: one search pass returns exactly the display renders of the
candidates of one engine exploration, appends exactly those strings to
the known-line set (they are fresh and pairwise distinct), and records
the candidates as seen. -/
theorem c7_search_pass {s : Session} {cands : List Pool} (hr : Reach s)
    (hok : EngineOk s.engine cands) :
    (runSearch s cands).1 = cands.map candLine ∧
    cands.map candLine = cands.map (fun c => String.mk (rendPoolA c)) ∧
    (runSearch s cands).2.lines = s.lines ++ (runSearch s cands).1 ∧
    (runSearch s cands).1.Nodup ∧
    (runSearch s cands).2.engine.seen = cands ++ s.engine.seen := by
  obtain ⟨h1, h2, h3, h4, h5⟩ := runSearch_out (reach_inv hr) hok
  refine ⟨h1, ?_, h4, h2, h5⟩
  exact List.map_congr_left (fun c hc => candLine_eq (hok.2 c hc).1)

theorem c7_witness :
    Reach (⟨1, engineInit 1 1 (fun _ => true), []⟩ : Session) ∧
    EngineOk (engineInit 1 1 (fun _ => true)) [[⟨[.symbol "a"], .symbol "b"⟩]] ∧
    (runSearch ⟨1, engineInit 1 1 (fun _ => true), []⟩
        [[⟨[.symbol "a"], .symbol "b"⟩]]).1 =
      [[(⟨[.symbol "a"], .symbol "b"⟩ : Rule)]].map candLine := by
  have hok : EngineOk (engineInit 1 1 (fun _ => true))
      [[⟨[.symbol "a"], .symbol "b"⟩]] := by
    constructor
    · simp
    · intro c hc
      simp only [List.mem_singleton] at hc
      subst hc
      exact ⟨rfl, by simp [engineInit]⟩
  exact ⟨Reach.created 1 (fun _ => true), hok,
    (c7_search_pass (Reach.created 1 (fun _ => true)) hok).1⟩

/-- C8: a rule with at least one premise renders in stacked form as one
line per premise, then a line of dashes whose length is the maximum of 4
and the longest premise line, then the conclusion line. -/
theorem c8_stacked_lines {ru : Rule} (hwf : Rule.wf ru = true)
    (hne : ru.premises ≠ []) :
    splitNl (rendRuleS ru) =
      ru.premises.map rendS ++
      [List.replicate
        (Nat.max 4 (natMax ((ru.premises.map rendS).map List.length))) '-',
       rendS ru.concl] ∧
    (List.replicate
      (Nat.max 4 (natMax ((ru.premises.map rendS).map List.length))) '-').length =
      Nat.max 4 (natMax ((ru.premises.map rendS).map List.length)) := by
  refine ⟨?_, by simp⟩
  obtain ⟨hps, hc⟩ := ruleWf_elim hwf
  obtain ⟨ps, c⟩ := ru
  simp only at hps hc hne ⊢
  cases ps with
  | nil => exact absurd rfl hne
  | cons q qs =>
      rw [show rendRuleS ⟨q :: qs, c⟩ =
          intercal ['\n'] (rendSList (q :: qs)) ++
          '\n' :: List.replicate
            (Nat.max (natMax ((rendSList (q :: qs)).map List.length)) 4) '-' ++
          '\n' :: rendS c from by rw [rendRuleS]]
      rw [show intercal ['\n'] (rendSList (q :: qs)) ++
          '\n' :: List.replicate
            (Nat.max (natMax ((rendSList (q :: qs)).map List.length)) 4) '-' ++
          '\n' :: rendS c =
          intercal ['\n'] (rendSList (q :: qs)) ++
          '\n' :: (List.replicate
            (Nat.max (natMax ((rendSList (q :: qs)).map List.length)) 4) '-' ++
          '\n' :: rendS c) from by simp]
      rw [splitNl_premises (q :: qs) hps (by simp) _]
      rw [splitNl_app _ nl_not_mem_replicate]
      rw [splitNl_no (nlS c hc)]
      rw [rendSList_eq_map]
      rw [show Nat.max
          (natMax (List.map List.length (List.map rendS (q :: qs)))) 4 =
          Nat.max 4 (natMax (List.map List.length (List.map rendS (q :: qs))))
        from Nat.max_comm _ _]

theorem c8_witness :
    Rule.wf ⟨[.symbol "aa"], .symbol "b"⟩ = true ∧
    (⟨[.symbol "aa"], .symbol "b"⟩ : Rule).premises ≠ [] ∧
    splitNl (rendRuleS ⟨[.symbol "aa"], .symbol "b"⟩) =
      [['a', 'a'], ['-', '-', '-', '-'], ['b']] := by
  refine ⟨rfl, by simp, ?_⟩
  have h := (c8_stacked_lines
    (show Rule.wf ⟨[.symbol "aa"], .symbol "b"⟩ = true from rfl) (by simp)).1
  rw [h]
  rfl

/-- C9: a missing or undeserializable snapshot yields the empty session
table, and a valid snapshot entry is rebuilt under its original id with
its original limit, both engine bounds at that limit, every stored line
fed to the wrapped add, and every stored line inserted into the
known-line set as it was stored. -/
theorem c9_snapshot_restore {fits : Pool → Bool} {es : List SnapEntry}
    {e : SnapEntry} (hmem : e ∈ es) (hnd : (es.map SnapEntry.id).Nodup) :
    restoreTable fits none = [] ∧
    (restoreTable fits (some es)).find e.id = some
      { limit := e.limit,
        engine := e.lines.foldl (fun en l => (searchAdd en l).2)
          (engineInit e.limit e.limit fits),
        lines := e.lines.foldl insertLine [] } := by
  refine ⟨rfl, ?_⟩
  rw [restoreTable]
  exact find_restore es [] e hmem hnd

theorem c9_witness :
    (⟨"i", 2, ["x -> y"]⟩ : SnapEntry) ∈ [(⟨"i", 2, ["x -> y"]⟩ : SnapEntry)] ∧
    (([(⟨"i", 2, ["x -> y"]⟩ : SnapEntry)]).map SnapEntry.id).Nodup ∧
    restoreTable (fun _ => true) none = [] ∧
    (restoreTable (fun _ => true)
        (some [(⟨"i", 2, ["x -> y"]⟩ : SnapEntry)])).find "i" = some
      { limit := 2,
        engine := (["x -> y"] : List String).foldl
          (fun en l => (searchAdd en l).2) (engineInit 2 2 (fun _ => true)),
        lines := (["x -> y"] : List String).foldl insertLine [] } := by
  refine ⟨by simp, by simp, ?_, ?_⟩
  · exact (@c9_snapshot_restore (fun _ => true) [⟨"i", 2, ["x -> y"]⟩]
      ⟨"i", 2, ["x -> y"]⟩ (by simp) (by simp)).1
  · exact (@c9_snapshot_restore (fun _ => true) [⟨"i", 2, ["x -> y"]⟩]
      ⟨"i", 2, ["x -> y"]⟩ (by simp) (by simp)).2

/-- C10: the wrapped add never returns a boolean, contrary to its declared
interface: it answers the re-rendered display text (a string) when the
engine newly accepts the parsed line, and null otherwise. -/
theorem c10_add_returns_string_or_null (e : EngineState) (line : String) :
    (searchAddJs e line).1 ≠ .boolv true ∧
    (searchAddJs e line).1 ≠ .boolv false ∧
    (match parse line with
     | none => (searchAddJs e line).1 = .nullv
     | some u =>
        if (engineAddText e u).1 then
          (searchAddJs e line).1 = .str ((unparse u).getD "")
        else (searchAddJs e line).1 = .nullv) := by
  cases hp : parse line with
  | none =>
      have hjs : (searchAddJs e line).1 = .nullv := by
        rw [searchAddJs, searchAdd, hp]
      exact ⟨by rw [hjs]; simp, by rw [hjs]; simp, hjs⟩
  | some u =>
      cases hadd : engineAddText e u with
      | mk ok e2 =>
          cases ok with
          | false =>
              have hjs : (searchAddJs e line).1 = .nullv := by
                rw [searchAddJs, searchAdd, hp]
                dsimp only
                rw [hadd]
                dsimp only
                rw [if_neg (by simp)]
              refine ⟨by rw [hjs]; simp, by rw [hjs]; simp, ?_⟩
              dsimp only
              rw [show (engineAddText e u).1 = false from by rw [hadd]]
              rw [if_neg (by simp)]
              exact hjs
          | true =>
              have hsome : ∃ pl, parsePoolS u = some pl := by
                rw [engineAddText] at hadd
                cases hq : parsePoolS u with
                | none => rw [hq] at hadd; exact absurd hadd (by simp)
                | some pl => exact ⟨pl, rfl⟩
              obtain ⟨pl, hpl⟩ := hsome
              have hun : unparse u = some (String.mk (rendPoolA pl)) := by
                rw [unparse, hpl]
                rfl
              have hjs : (searchAddJs e line).1 =
                  .str (String.mk (rendPoolA pl)) := by
                rw [searchAddJs, searchAdd, hp]
                dsimp only
                rw [hadd]
                dsimp only
                rw [if_pos rfl]
                rw [hun]
              refine ⟨by rw [hjs]; simp, by rw [hjs]; simp, ?_⟩
              dsimp only
              rw [show (engineAddText e u).1 = true from by rw [hadd]]
              rw [if_pos rfl]
              rw [hjs, hun]
              rfl

end Dsp
